import Mathlib

/-! OSpritePath: path animation of fish sprites

A shallow embedding of `modules/ocean/osprite_path.cpp`.

Conventions of the embedding.

* The methods are embedded twice. In the first embedding `float` / `real_t`
  values are exact rationals (`ℚ`) and `int` values are unbounded integers
  (`Int`); `int(x)` on a float is truncation toward zero. In the second one
  (section "Machine arithmetic") every operation of a method goes through an
  `Arith`: the rounding of a result to `float` and to `double`, the conversion
  `int(x)`, and what an `int` operation keeps of its result. `Arith.f32` is the
  arithmetic of the program (binary32, binary64, 32-bit `int`), `Arith.exact`
  gives back the first embedding. Infinities and NaN are not modelled, and
  `x / 0 = 0`.
* A `Node *` / `OSprite *` pointer and the `ObjectID` recorded next to it denote the
  same object (`add_fish` derives the id from the pointer), so a state keeps one
  handle for each.
* The objects the driver talks to live in a `World`: which handles still resolve in
  `ObjectDB`, the state of every sprite, and the log of `kill("fadeout")` calls.
* An out-of-range read of `Vector<int>` (a crash in the source) is the failure
  `none`.
* Engine functions that are not part of the file (`Vector2::angle_to_point`,
  `Tween::run_equation`) are fields of `Host`.
* The list `fishs` is a `List AnyStat`; a pointer into it is a position. The loop
  of `clear`, which need not end, is run with fuel; the two loops on angles are
  total functions.
-/

namespace OSpritePath

/-! ## Numbers and geometry -/

/-- The `PI` constant of the file (the decimal value of the literal). -/
def PI : ℚ := 3.1415926535897932385

/-- The conversion `int(x)` of a float: truncation toward zero. -/
def toInt (x : ℚ) : Int := if 0 ≤ x then ⌊x⌋ else ⌈x⌉

/-- The C library `fmod` reached through `Math::fmod`: the remainder of the
truncated division, carrying the sign of `x`. -/
def fmod (x y : ℚ) : ℚ := x - (toInt (x / y) : ℚ) * y

/-- Modelled from the spec: the engine type `Vector2` (declared outside the
file), a 2D point with coordinates `x` and `y`; `==` is equality of both
coordinates. -/
structure Vector2 where
  x : ℚ
  y : ℚ
deriving DecidableEq

/-- Modelled from the spec: the engine type `Matrix32` (declared outside the
file), a 2D affine transform: two axis columns `e0`, `e1` and the origin `e2`
(the three `elements` of the engine). -/
structure Matrix32 where
  e0 : Vector2
  e1 : Vector2
  e2 : Vector2
deriving DecidableEq

/-- Modelled from the spec: the engine method `Matrix32::xform` (defined outside
the file), the affine map `(tdotx v, tdoty v) + elements[2]`. -/
def Matrix32.xform (m : Matrix32) (v : Vector2) : Vector2 :=
  ⟨m.e0.x * v.x + m.e1.x * v.y + m.e2.x, m.e0.y * v.x + m.e1.y * v.y + m.e2.y⟩

/-- The identity transform. -/
def Matrix32.identity : Matrix32 := ⟨⟨1, 0⟩, ⟨0, 1⟩, ⟨0, 0⟩⟩

/-- Engine functions used by the file and defined elsewhere. -/
structure Host where
  /-- The method `Vector2::angle_to_point`. -/
  angle_to_point : Vector2 → Vector2 → ℚ
  /-- The function `Tween::run_equation (trans, eases, t, b, c, d)`. -/
  run_equation : Int → Int → ℚ → ℚ → ℚ → ℚ → ℚ

/-! ## Objects of the scene -/

/-- An `ObjectID`. -/
abbrev ObjectID := Nat

/-- Modelled from the spec: the class `OSprite` (declared in `osprite.h`, outside
the file), as the capability set of the presentation object: position, rotation,
opacity and the active flag, each one set and read back as it is, and the
arguments of the `seek` calls it received. -/
structure OSprite where
  pos : Vector2
  rot : ℚ
  opacity : ℚ
  active : Bool
  seeks : List ℚ
deriving DecidableEq

/-- Modelled from the spec: the scene as the driver sees it (`ObjectDB`, the
sprites and the fish nodes live outside the file): the liveness check of a
handle, the state behind a sprite handle, and the `kill("fadeout")` requests the
fish received, which the driver does not wait for. -/
structure World where
  /-- Whether `ObjectDB::get_instance id` is non-null. -/
  alive : ObjectID → Bool
  /-- The state of the sprite behind a handle. -/
  sprites : ObjectID → OSprite
  /-- The fish that received `call("kill", "fadeout")`, oldest first. -/
  kills : List ObjectID

/-! ## Actor states -/

/-- The struct `OSpritePath::Stat`. -/
structure Stat where
  fish : ObjectID
  sprite : ObjectID
  activated : Bool
  hidden : Bool
  delay : ℚ
  elapsed : ℚ
  speed : ℚ
  ratio : ℚ
  points : List Int
deriving DecidableEq

/-- The struct `FishStat::Tween::Phase`. -/
structure Phase where
  delta : ℚ
  weight : ℚ
  trans : Int
  eases : Int
deriving DecidableEq

/-- The struct `FishStat::Tween`. -/
structure Tween where
  delta : ℚ
  weight : ℚ
  phases : List Phase
deriving DecidableEq

/-- The struct `OSpritePath::FishStat` (the directional actor). -/
structure FishStat extends Stat where
  mat : Matrix32
  forward : Bool
  tween : Tween
deriving DecidableEq

/-- The struct `OSpritePath::GroupStat` (the group actor). -/
structure GroupStat extends Stat where
  center_index : Int
  center_pos : Vector2
  center : Bool
deriving DecidableEq

/-- What one `update()` call did: its return value, the state and the sprite it
left, and whether it sent `kill("fadeout")` to the fish. -/
structure Outcome (σ : Type) where
  ret : Bool
  stat : σ
  sprite : OSprite
  kill : Bool
deriving DecidableEq

/-- Modelled from the spec: the bounds-checked `Vector<int>::operator[]` (defined
outside the file); an index out of range fails fast. -/
def vecGet (v : List Int) (i : Int) : Option Int :=
  if 0 ≤ i then v.get? i.toNat else none

/-- The expression `points.size() / 2`. -/
def Stat.pointCount (s : Stat) : Int := (s.points.length : Int) / 2

/-- The method `Stat::get_index`. -/
def Stat.get_index (s : Stat) : Int :=
  let elapsed := s.elapsed - s.delay
  let elapsed := if elapsed < 0 then 0 else elapsed
  toInt (elapsed * s.ratio)

/-- The method `Stat::get_point_pos`. -/
def Stat.get_point_pos (s : Stat) (p_index : Int) : Option Vector2 :=
  match vecGet s.points (p_index * 2), vecGet s.points (p_index * 2 + 1) with
  | some x, some y => some ⟨(x : ℚ) * (1 / 100), (y : ℚ) * (1 / 100)⟩
  | _, _ => none

/-- The method `Stat::update`. -/
def Stat.update (s : Stat) (sp : OSprite) : Outcome Stat :=
  if !s.activated && decide (s.elapsed ≥ s.delay) then
    let sp1 : OSprite :=
      if !sp.active then
        { sp with active := true, seeks := sp.seeks ++ [s.elapsed - s.delay] }
      else sp
    let opacity := sp1.opacity
    if s.hidden && decide (opacity < 1) then
      let opacity := opacity + 1 / 120
      let opacity := if opacity > 1 then 1 else opacity
      ⟨true, s, { sp1 with opacity := opacity }, false⟩
    else
      ⟨true, { s with activated := true }, sp1, false⟩
  else
    ⟨true, s, sp, false⟩

/-- The first loop of `FishStat::get_index` (the warp pass): skip the phases that
lie before local time `t`, then ease inside the phase that holds it. When no
phase holds `t` the loop ends without assigning and `elapsed_time` stays. -/
def warpLoop (h : Host) : List Phase → ℚ → ℚ → ℚ → ℚ
  | [], _, _, elapsed_time => elapsed_time
  | phase :: rest, t, b, elapsed_time =>
    if t > phase.delta then
      warpLoop h rest (t - phase.delta) (b + phase.delta) elapsed_time
    else
      let d := phase.delta
      let c := d
      h.run_equation phase.trans phase.eases t b c d

/-- The second loop of `FishStat::get_index` (the weight pass). -/
def weightLoop (tween : Tween) : List Phase → ℚ → ℚ → ℚ
  | [], _, elapsed_time => elapsed_time
  | phase :: rest, t, elapsed_time =>
    if t ≤ 0 then elapsed_time
    else
      let weight := phase.weight / tween.weight
      let dweight := tween.delta * weight
      let rate := dweight / phase.delta
      let elapsed_time :=
        if t ≥ phase.delta then elapsed_time + phase.delta * (rate - 1)
        else elapsed_time + t * (rate - 1)
      weightLoop tween rest (t - phase.delta) elapsed_time

/-- The method `FishStat::get_index`. -/
def FishStat.get_index (h : Host) (s : FishStat) : Int :=
  let index := s.toStat.get_index
  if index = 0 ∨ s.tween.delta = 0 then index
  else
    let elapsed_time := s.elapsed - s.delay
    let t := fmod elapsed_time s.tween.delta
    let b := (toInt (elapsed_time / s.tween.delta) : ℚ) * s.tween.delta
    let elapsed_time := warpLoop h s.tween.phases t b elapsed_time
    let t := fmod elapsed_time s.tween.delta
    let elapsed_time := weightLoop s.tween s.tween.phases t elapsed_time
    toInt (elapsed_time * s.ratio)

/-- The method `FishStat::get_point_pos`. -/
def FishStat.get_point_pos (s : FishStat) (p_index : Int) : Option Vector2 :=
  (s.toStat.get_point_pos p_index).map s.mat.xform

/-- The loop `while(diff_rot >= PI) diff_rot -= PI * 2;`. -/
def subLoop (diff_rot : ℚ) : ℚ :=
  if diff_rot ≥ PI then subLoop (diff_rot - PI * 2) else diff_rot
termination_by Int.toNat ⌊(diff_rot + PI) / (PI * 2)⌋
decreasing_by
  rename_i hge
  have hP : (0 : ℚ) < PI := by norm_num [PI]
  have h2 : (0 : ℚ) < PI * 2 := by linarith
  have e : (diff_rot - PI * 2 + PI) / (PI * 2) = (diff_rot + PI) / (PI * 2) - 1 := by
    field_simp
    ring
  have h1 : (1 : ℚ) ≤ (diff_rot + PI) / (PI * 2) := by
    rw [le_div_iff₀ h2]
    linarith
  have hf : (1 : Int) ≤ ⌊(diff_rot + PI) / (PI * 2)⌋ := Int.le_floor.mpr (by exact_mod_cast h1)
  rw [e, Int.floor_sub_one]
  omega

/-- The loop `while(diff_rot <= -PI) diff_rot += PI * 2;`. -/
def addLoop (diff_rot : ℚ) : ℚ :=
  if diff_rot ≤ -PI then addLoop (diff_rot + PI * 2) else diff_rot
termination_by Int.toNat ⌊(PI - diff_rot) / (PI * 2)⌋
decreasing_by
  rename_i hle
  have hP : (0 : ℚ) < PI := by norm_num [PI]
  have h2 : (0 : ℚ) < PI * 2 := by linarith
  have e : (PI - (diff_rot + PI * 2)) / (PI * 2) = (PI - diff_rot) / (PI * 2) - 1 := by
    field_simp
    ring
  have h1 : (1 : ℚ) ≤ (PI - diff_rot) / (PI * 2) := by
    rw [le_div_iff₀ h2]
    linarith
  have hf : (1 : Int) ≤ ⌊(PI - diff_rot) / (PI * 2)⌋ := Int.le_floor.mpr (by exact_mod_cast h1)
  rw [e, Int.floor_sub_one]
  omega

/-- The tail shared by both `update()` methods: turn the sprite from `fish_rot`
toward the raw angle `rot` by one eighth of the normalised difference. -/
def smoothRot (rot fish_rot : ℚ) : ℚ :=
  let diff_rot := rot - fish_rot
  let diff_rot := subLoop diff_rot
  let diff_rot := addLoop diff_rot
  fish_rot + diff_rot / 8

/-- The method `FishStat::update`. -/
def FishStat.update (h : Host) (s : FishStat) (sp : OSprite) : Option (Outcome FishStat) :=
  let r := s.toStat.update sp
  let s : FishStat := { s with toStat := r.stat }
  let sp := r.sprite
  if !r.ret then some ⟨false, s, sp, false⟩
  else
    let index := s.get_index h
    if index ≥ s.pointCount then
      some ⟨false, s, sp, true⟩
    else
      let index := if !s.forward then (s.pointCount - 1) - index else index
      let last_pos := sp.pos
      match s.get_point_pos index with
      | none => none
      | some pos =>
        if last_pos = pos then some ⟨true, s, sp, false⟩
        else
          let sp : OSprite := { sp with pos := pos }
          let rot := h.angle_to_point last_pos pos
          let fish_rot := sp.rot
          some ⟨true, s, { sp with rot := smoothRot rot fish_rot }, false⟩

/-- The method `GroupStat::update`; `get_index` and `get_point_pos` are the ones
inherited from `Stat`. -/
def GroupStat.update (h : Host) (s : GroupStat) (sp : OSprite) : Option (Outcome GroupStat) :=
  let r := s.toStat.update sp
  let s : GroupStat := { s with toStat := r.stat }
  let sp := r.sprite
  if !r.ret then some ⟨false, s, sp, false⟩
  else
    let index := s.toStat.get_index
    if index ≥ s.pointCount then
      some ⟨false, s, sp, true⟩
    else
      let last_pos := sp.pos
      match s.toStat.get_point_pos index with
      | none => none
      | some pos =>
        if last_pos = pos then some ⟨true, s, sp, false⟩
        else
          let sp : OSprite := { sp with pos := pos }
          if s.center && decide (index < s.center_index) then
            let rot := h.angle_to_point pos s.center_pos
            some ⟨true, s, { sp with rot := rot }, false⟩
          else
            let rot := h.angle_to_point last_pos pos
            let fish_rot := sp.rot
            some ⟨true, s, { sp with rot := smoothRot rot fish_rot }, false⟩

/-- The method `FishStat::init`: its return value and the sprite it leaves. -/
def FishStat.init (h : Host) (s : FishStat) (sp : OSprite) : Option (Bool × OSprite) :=
  match s.get_point_pos 0 with
  | none => none
  | some pos =>
    let sp : OSprite := { sp with pos := pos }
    match s.get_point_pos 1 with
    | none => none
    | some faceto =>
      let rot := h.angle_to_point pos faceto
      let sp : OSprite := { sp with rot := rot }
      let sp : OSprite := if s.hidden then { sp with opacity := 0 } else sp
      some (true, sp)

/-- The method `GroupStat::init`. -/
def GroupStat.init (h : Host) (s : GroupStat) (sp : OSprite) : Option (Bool × OSprite) :=
  match s.toStat.get_point_pos 0 with
  | none => none
  | some pos =>
    let sp : OSprite := { sp with pos := pos }
    match (if s.center then some s.center_pos else s.toStat.get_point_pos 1) with
    | none => none
    | some faceto =>
      let rot := h.angle_to_point pos faceto
      let sp : OSprite := { sp with rot := rot }
      let sp : OSprite := if s.hidden then { sp with opacity := 0 } else sp
      some (true, sp)

/-! ## The registry -/

/-- An element of the list `fishs`: a `Stat *` together with its dynamic type. -/
inductive AnyStat where
  | fish (s : FishStat)
  | group (s : GroupStat)
deriving DecidableEq

/-- The `Stat` base of an element. -/
def AnyStat.base : AnyStat → Stat
  | .fish s => s.toStat
  | .group s => s.toStat

/-- The assignment `stat->elapsed = v`. -/
def AnyStat.setElapsed (v : ℚ) : AnyStat → AnyStat
  | .fish s => .fish { s with elapsed := v }
  | .group s => .group { s with elapsed := v }

/-- The virtual call `stat->get_index()`. -/
def AnyStat.get_index (h : Host) : AnyStat → Int
  | .fish s => s.get_index h
  | .group s => s.toStat.get_index

/-- The virtual call `stat->update()`. -/
def AnyStat.update (h : Host) : AnyStat → OSprite → Option (Outcome AnyStat)
  | .fish s, sp => (s.update h sp).map fun r => ⟨r.ret, .fish r.stat, r.sprite, r.kill⟩
  | .group s, sp => (s.update h sp).map fun r => ⟨r.ret, .group r.stat, r.sprite, r.kill⟩

/-- What an `update()` call leaves in the scene: the sprite of the state is
written back, and a `kill` request is appended to the log. -/
def World.commit (w : World) (st : Stat) (sp : OSprite) (kill : Bool) : World :=
  { w with
    sprites := Function.update w.sprites st.sprite sp
    kills := if kill then w.kills ++ [st.fish] else w.kills }

/-- The body of the loop of `OSpritePath::move` for one element: the new scene,
and the element when it stays in the list (`none` when it is erased). -/
def moveStep (h : Host) (p_delta : ℚ) (w : World) (stat : AnyStat) :
    Option (World × Option AnyStat) :=
  let stat := stat.setElapsed (stat.base.elapsed + p_delta * stat.base.speed)
  if w.alive stat.base.sprite = false then some (w, none)
  else if w.alive stat.base.fish = false then some (w, none)
  else
    match stat.update h (w.sprites stat.base.sprite) with
    | none => none
    | some r =>
      let w := w.commit stat.base r.sprite r.kill
      if !r.ret then some (w, none) else some (w, some r.stat)

/-- The method `OSpritePath::move`, on the scene and the list `fishs`. -/
def move (h : Host) (p_delta : ℚ) : World → List AnyStat → Option (World × List AnyStat)
  | w, [] => some (w, [])
  | w, stat :: rest =>
    match moveStep h p_delta w stat with
    | none => none
    | some (w1, kept) =>
      match move h p_delta w1 rest with
      | none => none
      | some (w2, rest1) => some (w2, kept.toList ++ rest1)

/-- The method `OSpritePath::_get_stat`: the first element whose `fish` is
`p_fish`, with its position in the list (the identity of the pointer returned);
`none` is `NULL`. -/
def _get_stat : List AnyStat → ObjectID → Option (Nat × AnyStat)
  | [], _ => none
  | stat :: rest, p_fish =>
    if stat.base.fish = p_fish then some (0, stat)
    else (_get_stat rest p_fish).map fun r => (r.1 + 1, r.2)

/-- The method `OSpritePath::get_length`; the failure value `false` is 0. -/
def get_length (fishs : List AnyStat) (p_fish : ObjectID) : ℚ :=
  match _get_stat fishs p_fish with
  | none => 0
  | some (_, stat) =>
    let num_points : Int := (stat.base.points.length : Int) / 2
    (num_points : ℚ) / stat.base.ratio

/-- The method `OSpritePath::remove_fish`: its return value and the list it
leaves. -/
def remove_fish : List AnyStat → ObjectID → Bool × List AnyStat
  | [], _ => (false, [])
  | stat :: rest, p_fish =>
    if stat.base.fish = p_fish then (true, rest)
    else
      let r := remove_fish rest p_fish
      (r.1, stat :: r.2)

/-- The method `OSpritePath::seek`: its return value, the scene and the list it
leaves. The sprite of the state found is used without a liveness check. -/
def seek (h : Host) (w : World) (fishs : List AnyStat) (p_fish : ObjectID) (p_pos : ℚ) :
    Option (Bool × World × List AnyStat) :=
  match _get_stat fishs p_fish with
  | none => some (false, w, fishs)
  | some (i, stat) =>
    let stat := stat.setElapsed p_pos
    (stat.update h (w.sprites stat.base.sprite)).map fun r =>
      (r.ret, w.commit stat.base r.sprite r.kill, fishs.set i r.stat)

/-- The loop of `OSpritePath::clear`, run for at most `fuel` iterations from the
element `E` (given as the part of the list that starts there), with the states
handed to `memdelete` so far. The body never moves `E`. The result tells whether
the loop has ended (`E` is null) and lists the states deleted, in order. -/
def clearLoop : Nat → List AnyStat → List AnyStat → Bool × List AnyStat
  | _, [], deleted => (true, deleted)
  | 0, _ :: _, deleted => (false, deleted)
  | fuel + 1, stat :: rest, deleted => clearLoop fuel (stat :: rest) (deleted ++ [stat])

/-- The method `OSpritePath::clear` with at most `fuel` iterations of its loop:
the list it leaves (`fishs.clear()` empties it) and the states it deleted; `none`
when the loop has not ended by then. -/
def clear (fuel : Nat) (fishs : List AnyStat) : Option (List AnyStat × List AnyStat) :=
  match clearLoop fuel fishs [] with
  | (true, deleted) => some ([], deleted)
  | (false, _) => none

/-- The parameter record of `add_fish`. A handle is `none` when the `Object *` of
the dictionary is null or is not of the class asked for. -/
structure FishParams where
  fish : Option ObjectID
  sprite : Option ObjectID
  hidden : Bool
  delay : ℚ
  elapsed : ℚ
  speed : ℚ
  ratio : ℚ
  points : List Int
  forward : Bool
  mat : Matrix32
  tween : Option Tween

/-- The parameter record of `add_group_fish`. -/
structure GroupParams where
  fish : Option ObjectID
  sprite : Option ObjectID
  hidden : Bool
  delay : ℚ
  elapsed : ℚ
  speed : ℚ
  ratio : ℚ
  points : List Int
  center_index : Int
  center_pos : Vector2
  center : Bool

/-- The state `add_fish` builds from its parameters for the handles `fish` and
`sprite`. Without a `tween` entry only `tween.delta = 0` is assigned; the other
tween fields, which are then never read, are taken as 0 and empty. -/
def FishParams.toStat (p : FishParams) (fish sprite : ObjectID) : FishStat :=
  { fish := fish, sprite := sprite, activated := false, hidden := p.hidden,
    delay := p.delay, elapsed := p.elapsed, speed := p.speed, ratio := p.ratio,
    points := p.points, mat := p.mat, forward := p.forward,
    tween := match p.tween with
      | some d => d
      | none => ⟨0, 0, []⟩ }

/-- The state `add_group_fish` builds from its parameters. -/
def GroupParams.toStat (p : GroupParams) (fish sprite : ObjectID) : GroupStat :=
  { fish := fish, sprite := sprite, activated := false, hidden := p.hidden,
    delay := p.delay, elapsed := p.elapsed, speed := p.speed, ratio := p.ratio,
    points := p.points, center_index := p.center_index, center_pos := p.center_pos,
    center := p.center }

/-- The method `OSpritePath::add_fish`. The first component is the list `fishs`
as the call leaves it, or as it stands when `init()` reads out of range; the
second is the return value with the scene, `none` when `init()` reads out of
range. -/
def add_fish (h : Host) (w : World) (fishs : List AnyStat) (p_params : FishParams) :
    List AnyStat × Option (Bool × World) :=
  match p_params.fish, p_params.sprite with
  | some fish, some sprite =>
    let stat := p_params.toStat fish sprite
    let fishs := fishs ++ [.fish stat]
    (fishs, (stat.init h (w.sprites sprite)).map fun r =>
      (r.1, { w with sprites := Function.update w.sprites sprite r.2 }))
  | _, _ => (fishs, some (false, w))

/-- The method `OSpritePath::add_group_fish`, with the same reading. -/
def add_group_fish (h : Host) (w : World) (fishs : List AnyStat) (p_params : GroupParams) :
    List AnyStat × Option (Bool × World) :=
  match p_params.fish, p_params.sprite with
  | some fish, some sprite =>
    let stat := p_params.toStat fish sprite
    let fishs := fishs ++ [.group stat]
    (fishs, (stat.init h (w.sprites sprite)).map fun r =>
      (r.1, { w with sprites := Function.update w.sprites sprite r.2 }))
  | _, _ => (fishs, some (false, w))

/-! ## The tween evaluator as section 4.2 of the specification words it -/

/-- A host whose easing is the linear one of the engine, `c * t / d + b`, for
every transition and ease kind. Its `angle_to_point` is constantly 0: the
statements made with this host do not read a rotation. -/
def linearHost : Host where
  angle_to_point := fun _ _ => 0
  run_equation := fun _ _ t b c d => c * t / d + b

/-! ## Names for the statements -/

/-- The virtual call `stat->get_point_pos(p_index)`. -/
def AnyStat.get_point_pos : AnyStat → Int → Option Vector2
  | .fish s, i => s.get_point_pos i
  | .group s, i => s.toStat.get_point_pos i

/-- The index `FishStat::update` hands to `get_point_pos` when the progress index
is `index`: mirrored when the actor swims backward. -/
def FishStat.pathIndex (s : FishStat) (index : Int) : Int :=
  if !s.forward then (s.pointCount - 1) - index else index

/-- The index `update()` hands to `get_point_pos`: the group actor uses the
progress index as it is. -/
def AnyStat.pathIndex (h : Host) : AnyStat → Int
  | .fish s => s.pathIndex (s.get_index h)
  | .group s => s.toStat.get_index

/-- The time after the first loop of `FishStat::get_index`, for the time
`elapsed_time = elapsed - delay` before it. -/
def warpedTime (h : Host) (tween : Tween) (elapsed_time : ℚ) : ℚ :=
  warpLoop h tween.phases (fmod elapsed_time tween.delta)
    ((toInt (elapsed_time / tween.delta) : ℚ) * tween.delta) elapsed_time

/-- The time after the second loop of `FishStat::get_index`, for the time before
it. -/
def weightedTime (tween : Tween) (elapsed_time : ℚ) : ℚ :=
  weightLoop tween tween.phases (fmod elapsed_time tween.delta) elapsed_time

/-- A well-formed tween: a positive cycle, positive phase durations and weights,
durations that sum to the cycle and weights that sum to `weight`. -/
def Tween.wellFormed (tween : Tween) : Prop :=
  0 < tween.delta ∧ (∀ p ∈ tween.phases, 0 < p.delta ∧ 0 < p.weight) ∧
    (tween.phases.map Phase.delta).sum = tween.delta ∧
    (tween.phases.map Phase.weight).sum = tween.weight

/-- The easing of phase `p`, as `get_index` calls it (`c = d = p.delta`), starts
at `b`, ends at `b + p.delta` and does not decrease in between. -/
def Host.easesUp (h : Host) (p : Phase) : Prop :=
  ∀ b : ℚ,
    h.run_equation p.trans p.eases 0 b p.delta p.delta = b ∧
    h.run_equation p.trans p.eases p.delta b p.delta p.delta = b + p.delta ∧
    ∀ t1 t2 : ℚ, 0 ≤ t1 → t1 ≤ t2 → t2 ≤ p.delta →
      h.run_equation p.trans p.eases t1 b p.delta p.delta
        ≤ h.run_equation p.trans p.eases t2 b p.delta p.delta

/-- The two loops that bring `diff_rot` back into range, one after the other. -/
def normRot (diff_rot : ℚ) : ℚ := addLoop (subLoop diff_rot)

/-- Successive calls of `Stat::update`, one for each element of the list, the
call being made with `elapsed` set to that element. -/
def Stat.updates (s : Stat) (sp : OSprite) : List ℚ → Stat × OSprite
  | [] => (s, sp)
  | e :: es =>
    let r := ({ s with elapsed := e } : Stat).update sp
    Stat.updates r.stat r.sprite es

/-- The easing of phase `p`, as `get_index` calls it, is the linear one. -/
def Host.easesLinear (h : Host) (p : Phase) : Prop :=
  ∀ t b : ℚ, h.run_equation p.trans p.eases t b p.delta p.delta = p.delta * t / p.delta + b

/-- The statement `stat->elapsed += p_delta * stat->speed` of `move`. -/
def AnyStat.advance (p_delta : ℚ) (stat : AnyStat) : AnyStat :=
  stat.setElapsed (stat.base.elapsed + p_delta * stat.base.speed)

/-- Whether the loop of `move` keeps an element: both handles resolve and
`update()`, run after the advance, returns true. The sprite is read from the
scene `w`. -/
def moveKeeps (h : Host) (p_delta : ℚ) (w : World) (stat : AnyStat) : Bool :=
  w.alive stat.base.sprite && w.alive stat.base.fish &&
    match (stat.advance p_delta).update h (w.sprites stat.base.sprite) with
    | some r => r.ret
    | none => false

/-- The element `e1` is what one `update()` that returned true left of the
advanced element `e`, on some state of its sprite. -/
def movedFrom (h : Host) (p_delta : ℚ) (e1 e : AnyStat) : Prop :=
  ∃ (sp : OSprite) (r : Outcome AnyStat),
    (e.advance p_delta).update h sp = some r ∧ r.ret = true ∧ e1 = r.stat

/-! ## Sample data -/

/-- A sprite at the origin, visible and active. -/
def sampleSprite : OSprite := ⟨⟨0, 0⟩, 0, 1, true, []⟩

/-- A directional actor that swims its two points backward and still waits for
its delay. -/
def reverseFish : FishStat :=
  { fish := 1, sprite := 2, activated := false, hidden := false, delay := 1,
    elapsed := 0, speed := 1, ratio := 1, points := [0, 0, 100, 0],
    mat := Matrix32.identity, forward := false, tween := ⟨0, 0, []⟩ }

/-- A directional actor on two points that still waits for its delay. -/
def pendingFish : FishStat :=
  { fish := 1, sprite := 2, activated := false, hidden := true, delay := 1,
    elapsed := 0, speed := 1, ratio := 1, points := [0, 0, 100, 0],
    mat := Matrix32.identity, forward := true, tween := ⟨0, 0, []⟩ }

/-- The scenario of the specification: three points along the x axis, `delay = 0`,
`ratio = 1`, `speed = 1`, forward, identity transform, `tween.delta = 0`; the
other fields are those of `st` and `tw`. -/
def scenarioFish (st : Stat) (tw : Tween) (elapsed : ℚ) : FishStat :=
  { st with
    delay := 0, elapsed := elapsed, speed := 1, ratio := 1,
    points := [0, 0, 100, 0, 200, 0],
    mat := Matrix32.identity, forward := true, tween := { tw with delta := 0 } }

/-- The scenario for fish 1 with sprite 2, visible from the start. -/
def sampleFish (elapsed : ℚ) : FishStat :=
  scenarioFish ⟨1, 2, false, false, 0, 0, 1, 1, []⟩ ⟨0, 0, []⟩ elapsed

/-- A hidden group actor whose two path points coincide at the origin, and whose
sprite has handle 3. -/
def fadeGroup (fish : ObjectID) : GroupStat :=
  { fish := fish, sprite := 3, activated := false, hidden := true, delay := 0,
    elapsed := 0, speed := 1, ratio := 1, points := [0, 0, 0, 0],
    center_index := 0, center_pos := ⟨0, 0⟩, center := false }

/-- A sprite at the origin, half a fade step short of full opacity. -/
def fadeSprite : OSprite := ⟨⟨0, 0⟩, 0, 239 / 240, true, []⟩

/-- A scene where every handle resolves and every sprite is `fadeSprite`. -/
def fadeWorld : World := ⟨fun _ => true, fun _ => fadeSprite, []⟩

/-- A scene where every handle but 5 resolves and every sprite is `sampleSprite`. -/
def sampleWorld : World := ⟨fun id => decide (id ≠ 5), fun _ => sampleSprite, []⟩

/-- A group actor whose sprite has the dead handle 5. -/
def lostGroup : GroupStat :=
  { fish := 7, sprite := 5, activated := false, hidden := false, delay := 0,
    elapsed := 0, speed := 1, ratio := 1, points := [0, 0, 100, 0],
    center_index := 0, center_pos := ⟨0, 0⟩, center := false }

/-- A directional actor with a two-phase linear tween: cycle 2, phases of
duration 1 with weights 3 and 1. -/
def tweenFish (elapsed : ℚ) : FishStat :=
  { fish := 1, sprite := 2, activated := false, hidden := false, delay := 0,
    elapsed := elapsed, speed := 1, ratio := 3,
    points := [0, 0, 100, 0, 200, 0, 300, 0, 400, 0, 500, 0, 600, 0, 700, 0],
    mat := Matrix32.identity, forward := true,
    tween := ⟨2, 4, [⟨1, 3, 0, 0⟩, ⟨1, 1, 0, 0⟩]⟩ }

/-- A sprite as `init()` leaves it for a hidden actor: invisible, not yet active. -/
def hiddenSprite : OSprite := ⟨⟨0, 0⟩, 0, 0, false, []⟩

/-- Parameters for `add_fish` with live handles and an empty path. -/
def shortParams : FishParams :=
  { fish := some 1, sprite := some 2, hidden := false, delay := 0, elapsed := 0,
    speed := 1, ratio := 1, points := [], forward := true, mat := Matrix32.identity,
    tween := none }

/-- Parameters for `add_group_fish` with live handles and a single point, facing
along the path. -/
def shortGroupParams : GroupParams :=
  { fish := some 1, sprite := some 2, hidden := false, delay := 0, elapsed := 0,
    speed := 1, ratio := 1, points := [0, 0], center_index := 0, center_pos := ⟨0, 0⟩,
    center := false }

/-- A directional actor with three points (six integers) and `ratio = 2`. -/
def lengthFish : FishStat := { sampleFish 0 with ratio := 2 }

/-- A directional actor whose tween has the cycle 4 and two linear phases of
durations 1 and 2 (which do not fill the cycle), with weights in the same
proportion to the total weight 8. -/
def neutralFish : FishStat :=
  { fish := 1, sprite := 2, activated := false, hidden := false, delay := 0,
    elapsed := 7 / 2, speed := 1, ratio := 3,
    points := [0, 0, 100, 0, 200, 0],
    mat := Matrix32.identity, forward := true,
    tween := ⟨4, 8, [⟨1, 2, 0, 0⟩, ⟨2, 4, 0, 0⟩]⟩ }

/-! ## Machine arithmetic -/

/-- The arithmetic the methods run on: how a real result is kept in a `float`
(`rnd`) and in a `double` (`rnd64`), how a float becomes an `int` (`toI`), what an
`int` operation keeps of its exact result (`wrap`), and the rotation the tail of
`update()` leaves (`smooth`, the two loops on the angle being taken to end). -/
structure Arith where
  rnd : ℚ → ℚ
  rnd64 : ℚ → ℚ
  toI : ℚ → Int
  wrap : Int → Int
  smooth : ℚ → ℚ → ℚ

/-- Halve `a` while it is at least 2, counting the halvings. -/
def expUp : Nat → ℚ → Int → Int
  | 0, _, e => e
  | n + 1, a, e => if 2 ≤ a then expUp n (a / 2) (e + 1) else e

/-- Double `a` while it is below 1, counting the doublings. -/
def expDown : Nat → ℚ → Int → Int
  | 0, _, e => e
  | n + 1, a, e => if a < 1 then expDown n (a * 2) (e - 1) else e

/-- The binary exponent of a positive number: the `e` with `2 ^ e ≤ a < 2 ^ (e + 1)`. -/
def ilog2 (a : ℚ) : Int :=
  if 1 ≤ a then expUp a.num.natAbs a 0 else expDown a.den a 0

/-- The integer nearest to `m`, the even one of the two when `m` is half way. -/
def roundEven (m : ℚ) : Int :=
  let f := ⌊m⌋
  if m - f < 1 / 2 then f
  else if 1 / 2 < m - f then f + 1
  else if f % 2 = 0 then f else f + 1

/-- Rounding to the nearest binary floating-point number with `p` significant bits
and least normal exponent `emin` (ties to even, gradual underflow). The range
has no upper end: overflow to infinity is not modelled. -/
def roundBin (p : Nat) (emin : Int) (x : ℚ) : ℚ :=
  if x = 0 then 0
  else
    let a := if x < 0 then -x else x
    let e := max (ilog2 a) emin
    let q : ℚ := 2 ^ (e - ((p : Int) - 1))
    (if x < 0 then -1 else 1) * (roundEven (a / q) : ℚ) * q

/-- Rounding to `float` (IEEE 754 binary32). -/
def f32 (x : ℚ) : ℚ := roundBin 24 (-126) x

/-- Rounding to `double` (IEEE 754 binary64). -/
def f64 (x : ℚ) : ℚ := roundBin 53 (-1022) x

/-- The conversion `int(x)` of a float to a 32-bit `int`: truncation toward zero;
a value out of range (where C++ leaves the conversion undefined) gives `INT_MIN`,
as the conversion instruction of x86 does. -/
def toInt32 (x : ℚ) : Int :=
  let i := toInt x
  if -2 ^ 31 ≤ i ∧ i < 2 ^ 31 then i else -2 ^ 31

/-- The 32-bit two's complement value of an integer result. -/
def wrap32 (i : Int) : Int := (i + 2 ^ 31) % 2 ^ 32 - 2 ^ 31

/-- The loop `while(diff_rot >= PI) diff_rot -= PI * 2;` in single precision,
cut after `n` rounds. -/
def subLoop32 : Nat → ℚ → ℚ
  | 0, diff_rot => diff_rot
  | n + 1, diff_rot =>
    if diff_rot ≥ f32 PI then subLoop32 n (f32 (diff_rot - f32 (f32 PI * 2))) else diff_rot

/-- The loop `while(diff_rot <= -PI) diff_rot += PI * 2;` in single precision,
cut after `n` rounds. -/
def addLoop32 : Nat → ℚ → ℚ
  | 0, diff_rot => diff_rot
  | n + 1, diff_rot =>
    if diff_rot ≤ -f32 PI then addLoop32 n (f32 (diff_rot + f32 (f32 PI * 2))) else diff_rot

/-- The tail shared by both `update()` methods in single precision; a loop that
has not ended after `2 ^ 32` rounds is cut there. -/
def smoothRot32 (rot fish_rot : ℚ) : ℚ :=
  let diff_rot := f32 (rot - fish_rot)
  let diff_rot := subLoop32 (2 ^ 32) diff_rot
  let diff_rot := addLoop32 (2 ^ 32) diff_rot
  f32 (fish_rot + f32 (diff_rot / 8))

/-- Exact arithmetic: nothing is rounded and an `int` has no bound. -/
def Arith.exact : Arith := ⟨id, id, toInt, id, smoothRot⟩

/-- The arithmetic of the program: `float` is binary32, `double` is binary64 and
`int` has 32 bits. -/
def Arith.f32 : Arith := ⟨OSpritePath.f32, f64, toInt32, wrap32, smoothRot32⟩

/-- The method `Stat::get_index`, operation by operation. -/
def Arith.get_index (ar : Arith) (s : Stat) : Int :=
  let elapsed := ar.rnd (s.elapsed - s.delay)
  let elapsed := if elapsed < 0 then 0 else elapsed
  ar.toI (ar.rnd (elapsed * s.ratio))

/-- The method `Stat::get_point_pos`, operation by operation: the two `int`
subscripts, the conversion of `x` and `y` to `float`, and the product with the
`float` that the `double` literal `0.01` becomes. -/
def Arith.get_point_pos (ar : Arith) (s : Stat) (p_index : Int) : Option Vector2 :=
  match vecGet s.points (ar.wrap (p_index * 2)),
    vecGet s.points (ar.wrap (ar.wrap (p_index * 2) + 1)) with
  | some x, some y =>
    some ⟨ar.rnd (ar.rnd x * ar.rnd (ar.rnd64 (1 / 100))),
      ar.rnd (ar.rnd y * ar.rnd (ar.rnd64 (1 / 100)))⟩
  | _, _ => none

/-- The method `Stat::update`, operation by operation (`1.0 / 120` and the sum
are `double` operations, the assignment rounds to `float`). -/
def Arith.update (ar : Arith) (s : Stat) (sp : OSprite) : Outcome Stat :=
  if !s.activated && decide (s.elapsed ≥ s.delay) then
    let sp1 : OSprite :=
      if !sp.active then
        { sp with active := true, seeks := sp.seeks ++ [ar.rnd (s.elapsed - s.delay)] }
      else sp
    let opacity := sp1.opacity
    if s.hidden && decide (opacity < 1) then
      let opacity := ar.rnd (ar.rnd64 (opacity + ar.rnd64 (1 / 120)))
      let opacity := if opacity > 1 then 1 else opacity
      ⟨true, s, { sp1 with opacity := opacity }, false⟩
    else
      ⟨true, { s with activated := true }, sp1, false⟩
  else
    ⟨true, s, sp, false⟩

/-- The first loop of `FishStat::get_index`, operation by operation. -/
def Arith.warpLoop (ar : Arith) (h : Host) : List Phase → ℚ → ℚ → ℚ → ℚ
  | [], _, _, elapsed_time => elapsed_time
  | phase :: rest, t, b, elapsed_time =>
    if t > phase.delta then
      Arith.warpLoop ar h rest (ar.rnd (t - phase.delta)) (ar.rnd (b + phase.delta)) elapsed_time
    else
      let d := phase.delta
      let c := d
      h.run_equation phase.trans phase.eases t b c d

/-- The second loop of `FishStat::get_index`, operation by operation. -/
def Arith.weightLoop (ar : Arith) (tween : Tween) : List Phase → ℚ → ℚ → ℚ
  | [], _, elapsed_time => elapsed_time
  | phase :: rest, t, elapsed_time =>
    if t ≤ 0 then elapsed_time
    else
      let weight := ar.rnd (phase.weight / tween.weight)
      let dweight := ar.rnd (tween.delta * weight)
      let rate := ar.rnd (dweight / phase.delta)
      let elapsed_time :=
        if t ≥ phase.delta then ar.rnd (elapsed_time + ar.rnd (phase.delta * ar.rnd (rate - 1)))
        else ar.rnd (elapsed_time + ar.rnd (t * ar.rnd (rate - 1)))
      Arith.weightLoop ar tween rest (ar.rnd (t - phase.delta)) elapsed_time

/-- The method `FishStat::get_index`, operation by operation. `Math::fmod` is the
exact remainder (the C library computes it without rounding error); the quotient
under `int( )` is a `float` division. -/
def Arith.fish_get_index (ar : Arith) (h : Host) (s : FishStat) : Int :=
  let index := ar.get_index s.toStat
  if index = 0 ∨ s.tween.delta = 0 then index
  else
    let elapsed_time := ar.rnd (s.elapsed - s.delay)
    let t := ar.rnd (fmod elapsed_time s.tween.delta)
    let b := ar.rnd (ar.rnd (ar.toI (ar.rnd (elapsed_time / s.tween.delta)) : ℚ) * s.tween.delta)
    let elapsed_time := ar.warpLoop h s.tween.phases t b elapsed_time
    let t := ar.rnd (fmod elapsed_time s.tween.delta)
    let elapsed_time := ar.weightLoop s.tween s.tween.phases t elapsed_time
    ar.toI (ar.rnd (elapsed_time * s.ratio))

/-- Modelled from the spec: the engine method `Matrix32::xform` (defined outside
the file), operation by operation. -/
def Arith.xform (ar : Arith) (m : Matrix32) (v : Vector2) : Vector2 :=
  ⟨ar.rnd (ar.rnd (ar.rnd (m.e0.x * v.x) + ar.rnd (m.e1.x * v.y)) + m.e2.x),
    ar.rnd (ar.rnd (ar.rnd (m.e0.y * v.x) + ar.rnd (m.e1.y * v.y)) + m.e2.y)⟩

/-- The method `FishStat::get_point_pos`, operation by operation. -/
def Arith.fish_get_point_pos (ar : Arith) (s : FishStat) (p_index : Int) : Option Vector2 :=
  (ar.get_point_pos s.toStat p_index).map (ar.xform s.mat)

/-- The index `FishStat::update` hands to `get_point_pos` when the progress index
is `index`: `(points.size() / 2 - 1) - index` in `int` when the actor swims
backward. -/
def Arith.fish_pathIndex (ar : Arith) (s : FishStat) (index : Int) : Int :=
  if !s.forward then ar.wrap ((s.pointCount - 1) - index) else index

/-- The method `FishStat::update`, operation by operation. -/
def Arith.fish_update (ar : Arith) (h : Host) (s : FishStat) (sp : OSprite) :
    Option (Outcome FishStat) :=
  let r := ar.update s.toStat sp
  let s : FishStat := { s with toStat := r.stat }
  let sp := r.sprite
  if !r.ret then some ⟨false, s, sp, false⟩
  else
    let index := ar.fish_get_index h s
    if index ≥ s.pointCount then
      some ⟨false, s, sp, true⟩
    else
      let index := ar.fish_pathIndex s index
      let last_pos := sp.pos
      match ar.fish_get_point_pos s index with
      | none => none
      | some pos =>
        if last_pos = pos then some ⟨true, s, sp, false⟩
        else
          let sp : OSprite := { sp with pos := pos }
          let rot := h.angle_to_point last_pos pos
          let fish_rot := sp.rot
          some ⟨true, s, { sp with rot := ar.smooth rot fish_rot }, false⟩

/-- The method `GroupStat::update`, operation by operation. -/
def Arith.group_update (ar : Arith) (h : Host) (s : GroupStat) (sp : OSprite) :
    Option (Outcome GroupStat) :=
  let r := ar.update s.toStat sp
  let s : GroupStat := { s with toStat := r.stat }
  let sp := r.sprite
  if !r.ret then some ⟨false, s, sp, false⟩
  else
    let index := ar.get_index s.toStat
    if index ≥ s.pointCount then
      some ⟨false, s, sp, true⟩
    else
      let last_pos := sp.pos
      match ar.get_point_pos s.toStat index with
      | none => none
      | some pos =>
        if last_pos = pos then some ⟨true, s, sp, false⟩
        else
          let sp : OSprite := { sp with pos := pos }
          if s.center && decide (index < s.center_index) then
            let rot := h.angle_to_point pos s.center_pos
            some ⟨true, s, { sp with rot := rot }, false⟩
          else
            let rot := h.angle_to_point last_pos pos
            let fish_rot := sp.rot
            some ⟨true, s, { sp with rot := ar.smooth rot fish_rot }, false⟩

/-- The virtual call `stat->get_index()`. -/
def Arith.any_get_index (ar : Arith) (h : Host) : AnyStat → Int
  | .fish s => ar.fish_get_index h s
  | .group s => ar.get_index s.toStat

/-- The virtual call `stat->get_point_pos(p_index)`. -/
def Arith.any_get_point_pos (ar : Arith) : AnyStat → Int → Option Vector2
  | .fish s, i => ar.fish_get_point_pos s i
  | .group s, i => ar.get_point_pos s.toStat i

/-- The index `update()` hands to `get_point_pos`. -/
def Arith.pathIndex (ar : Arith) (h : Host) : AnyStat → Int
  | .fish s => ar.fish_pathIndex s (ar.fish_get_index h s)
  | .group s => ar.get_index s.toStat

/-- The virtual call `stat->update()`. -/
def Arith.any_update (ar : Arith) (h : Host) : AnyStat → OSprite → Option (Outcome AnyStat)
  | .fish s, sp => (ar.fish_update h s sp).map fun r => ⟨r.ret, .fish r.stat, r.sprite, r.kill⟩
  | .group s, sp => (ar.group_update h s sp).map fun r => ⟨r.ret, .group r.stat, r.sprite, r.kill⟩

/-- A host whose easing is the linear one of the engine, `c * t / d + b`, computed
operation by operation, for every transition and ease kind. -/
def Arith.linearHost (ar : Arith) : Host where
  angle_to_point := fun _ _ => 0
  run_equation := fun _ _ t b c d => ar.rnd (ar.rnd (ar.rnd (c * t) / d) + b)

/-- A host whose easing is the engine's `back::in`,
`float s = 1.70158f; float postFix = t /= d; return c * postFix * t * ((s + 1) * t - s) + b;`,
computed operation by operation, for every transition and ease kind. -/
def Arith.backInHost (ar : Arith) : Host where
  angle_to_point := fun _ _ => 0
  run_equation := fun _ _ t b c d =>
    let s := ar.rnd 1.70158
    let t := ar.rnd (t / d)
    let postFix := t
    ar.rnd (ar.rnd (ar.rnd (ar.rnd (c * postFix) * t) * ar.rnd (ar.rnd (ar.rnd (s + 1) * t) - s)) + b)

/-- An arithmetic where a `float` keeps the sign of a non-negative result, `int( )`
of a non-negative float below `2 ^ 31` is its integer part, and an `int` result
inside the 32-bit range is kept as it is. -/
def Arith.regular (ar : Arith) : Prop :=
  (∀ x : ℚ, 0 ≤ x → 0 ≤ ar.rnd x) ∧
  (∀ x : ℚ, 0 ≤ x → x < 2 ^ 31 → ar.toI x = ⌊x⌋) ∧
  (∀ i : Int, -2 ^ 31 ≤ i → i < 2 ^ 31 → ar.wrap i = i)

/-- The float `0.29f`. -/
def float029 : ℚ := 9730785 / 33554432

/-- A group actor after `0.29f` seconds at 100 points a second. -/
def roundedGroup : GroupStat :=
  { fish := 1, sprite := 2, activated := true, hidden := false, delay := 0,
    elapsed := float029, speed := 1, ratio := 100, points := [5, 0, 100, 0],
    center_index := 0, center_pos := ⟨0, 0⟩, center := false }

/-- A group actor after `1e10` seconds on a path of one point. -/
def lateGroup : GroupStat :=
  { fish := 1, sprite := 2, activated := true, hidden := false, delay := 0,
    elapsed := 10 ^ 10, speed := 1, ratio := 1, points := [0, 0],
    center_index := 0, center_pos := ⟨0, 0⟩, center := false }

/-- A directional actor at 100 points a second with the tween of cycle `0.1f` made
of one linear phase: the cycle changes nothing in exact arithmetic. -/
def jitterFish (elapsed : ℚ) : FishStat :=
  { fish := 1, sprite := 2, activated := true, hidden := false, delay := 0,
    elapsed := elapsed, speed := 1, ratio := 100, points := List.replicate 200 0,
    mat := Matrix32.identity, forward := true,
    tween := ⟨f32 (1 / 10), 1, [⟨f32 (1 / 10), 1, 0, 0⟩]⟩ }

/-- A directional actor at 60 points a second, 5 seconds into a tween of cycle 10
made of one phase. -/
def backFish : FishStat :=
  { fish := 1, sprite := 2, activated := true, hidden := false, delay := 0,
    elapsed := 5, speed := 1, ratio := 60, points := List.replicate 1200 0,
    mat := Matrix32.identity, forward := true,
    tween := ⟨10, 1, [⟨10, 1, 10, 0⟩]⟩ }

/-- A directional actor at half a point a second, `1e10` seconds into the
well-formed tween of cycle 1 made of one linear phase, on a path of two points. -/
def lateTweenFish : FishStat :=
  { fish := 1, sprite := 2, activated := true, hidden := false, delay := 0,
    elapsed := 10 ^ 10, speed := 1, ratio := 1 / 2, points := [0, 0, 100, 0],
    mat := Matrix32.identity, forward := true,
    tween := ⟨1, 1, [⟨1, 1, 0, 0⟩]⟩ }

/-- A directional actor without tween after `0.29f` seconds at 100 points a
second; its first point has the x coordinate 5. -/
def roundedFish : FishStat :=
  { fish := 1, sprite := 2, activated := true, hidden := false, delay := 0,
    elapsed := float029, speed := 1, ratio := 100, points := List.replicate 100 5,
    mat := Matrix32.identity, forward := true, tween := ⟨0, 0, []⟩ }

/-! ## Basic facts -/

theorem toInt_of_nonneg {x : ℚ} (hx : 0 ≤ x) : toInt x = ⌊x⌋ := by
  simp [toInt, hx]

theorem toInt_nonneg {x : ℚ} (hx : 0 ≤ x) : 0 ≤ toInt x := by
  rw [toInt_of_nonneg hx]
  exact Int.floor_nonneg.mpr hx

theorem toInt_eq_of_mem {x : ℚ} {z : Int} (hz : 0 ≤ z) (h0 : (z : ℚ) ≤ x) (h1 : x < z + 1) :
    toInt x = z := by
  have hx : (0 : ℚ) ≤ x := le_trans (by exact_mod_cast hz) h0
  rw [toInt_of_nonneg hx]
  exact Int.floor_eq_iff.mpr ⟨h0, h1⟩

theorem toInt_mono {x y : ℚ} (hx : 0 ≤ x) (hxy : x ≤ y) : toInt x ≤ toInt y := by
  rw [toInt_of_nonneg hx, toInt_of_nonneg (le_trans hx hxy)]
  exact Int.floor_le_floor hxy

theorem vecGet_of_lt (v : List Int) (i : Int) (h0 : 0 ≤ i) (h1 : i < v.length) :
    vecGet v i = some (v.getD i.toNat 0) := by
  have hlt : i.toNat < v.length := by omega
  simp [vecGet, h0, List.getD, List.getElem?_eq_getElem hlt]

theorem stat_get_index_nonneg (s : Stat) (hr : 0 ≤ s.ratio) : 0 ≤ s.get_index := by
  unfold Stat.get_index
  apply toInt_nonneg
  split_ifs with h
  · simp
  · exact mul_nonneg (not_lt.mp h) hr

theorem stat_get_index_eq_floor (s : Stat) (hr : 0 ≤ s.ratio) :
    s.get_index = ⌊max (s.elapsed - s.delay) 0 * s.ratio⌋ := by
  unfold Stat.get_index
  by_cases h : s.elapsed - s.delay < 0
  · simp [h, max_eq_right (le_of_lt h), toInt]
  · have h1 : 0 ≤ s.elapsed - s.delay := not_lt.mp h
    simp only [h, if_false, max_eq_left h1]
    exact toInt_of_nonneg (mul_nonneg h1 hr)

theorem stat_pointCount_nonneg (s : Stat) : 0 ≤ s.pointCount := by
  unfold Stat.pointCount
  omega

/-- Reads of a point with an index inside the path succeed. -/
theorem stat_get_point_pos_of_lt (s : Stat) (index : Int) (h0 : 0 ≤ index)
    (h1 : index < s.pointCount) :
    s.get_point_pos index =
      some ⟨(s.points.getD (index * 2).toNat 0 : ℚ) * (1 / 100),
            (s.points.getD (index * 2 + 1).toNat 0 : ℚ) * (1 / 100)⟩ := by
  unfold Stat.pointCount at h1
  have hx : index * 2 < s.points.length := by omega
  have hy : index * 2 + 1 < s.points.length := by omega
  simp [Stat.get_point_pos, vecGet_of_lt _ _ (by omega : 0 ≤ index * 2) hx,
    vecGet_of_lt _ _ (by omega : 0 ≤ index * 2 + 1) hy]

/-- A read with a negative index fails. -/
theorem stat_get_point_pos_of_neg (s : Stat) (index : Int) (h0 : index < 0) :
    s.get_point_pos index = none := by
  have hx : ¬ (0 ≤ index * 2) := by omega
  simp [Stat.get_point_pos, vecGet, hx]

/-! ## The shape of `update()` -/

theorem stat_update_ret (s : Stat) (sp : OSprite) : (s.update sp).ret = true := by
  unfold Stat.update
  dsimp only
  split_ifs <;> rfl

theorem stat_update_kill (s : Stat) (sp : OSprite) : (s.update sp).kill = false := by
  unfold Stat.update
  dsimp only
  split_ifs <;> rfl

theorem stat_update_stat (s : Stat) (sp : OSprite) :
    (s.update sp).stat = s ∨ (s.update sp).stat = { s with activated := true } := by
  unfold Stat.update
  dsimp only
  split_ifs <;> simp

theorem stat_update_pos (s : Stat) (sp : OSprite) : (s.update sp).sprite.pos = sp.pos := by
  unfold Stat.update
  dsimp only
  split_ifs <;> rfl

theorem stat_update_rot (s : Stat) (sp : OSprite) : (s.update sp).sprite.rot = sp.rot := by
  unfold Stat.update
  dsimp only
  split_ifs <;> rfl

theorem stat_update_of_pending (s : Stat) (sp : OSprite) (hp : s.elapsed < s.delay) :
    s.update sp = ⟨true, s, sp, false⟩ := by
  have hn : ¬ (s.delay ≤ s.elapsed) := not_le.mpr hp
  simp [Stat.update, hn]

theorem fishStat_get_index_update (h : Host) (s : FishStat) (sp : OSprite) :
    ({ s with toStat := (s.toStat.update sp).stat } : FishStat).get_index h = s.get_index h := by
  rcases stat_update_stat s.toStat sp with e | e
  · rw [e]
  · rw [e]
    rfl

theorem fishStat_pointCount_update (s : FishStat) (sp : OSprite) :
    (s.toStat.update sp).stat.pointCount = s.pointCount := by
  rcases stat_update_stat s.toStat sp with e | e
  · rw [e]
  · rw [e]
    rfl

theorem fishStat_get_point_pos_update (s : FishStat) (sp : OSprite) (i : Int) :
    ({ s with toStat := (s.toStat.update sp).stat } : FishStat).get_point_pos i
      = s.get_point_pos i := by
  rcases stat_update_stat s.toStat sp with e | e
  · rw [e]
  · rw [e]
    rfl

/-- The method `FishStat::update` in terms of the state before the call. -/
theorem fishStat_update_eq (h : Host) (s : FishStat) (sp : OSprite) :
    s.update h sp =
      if s.get_index h ≥ s.pointCount then
        some ⟨false, { s with toStat := (s.toStat.update sp).stat }, (s.toStat.update sp).sprite, true⟩
      else
        match s.get_point_pos
            (if !s.forward then (s.pointCount - 1) - s.get_index h else s.get_index h) with
        | none => none
        | some pos =>
          if sp.pos = pos then
            some ⟨true, { s with toStat := (s.toStat.update sp).stat },
              (s.toStat.update sp).sprite, false⟩
          else
            some ⟨true, { s with toStat := (s.toStat.update sp).stat },
              { (s.toStat.update sp).sprite with
                pos := pos, rot := smoothRot (h.angle_to_point sp.pos pos) sp.rot }, false⟩ := by
  unfold FishStat.update
  simp only [stat_update_ret, Bool.not_true, Bool.false_eq_true, if_false,
    fishStat_get_index_update, fishStat_pointCount_update, fishStat_get_point_pos_update,
    stat_update_pos, stat_update_rot]


theorem stat_get_index_update (s : Stat) (sp : OSprite) :
    (s.update sp).stat.get_index = s.get_index := by
  rcases stat_update_stat s sp with e | e
  · rw [e]
  · rw [e]
    rfl

theorem stat_pointCount_update (s : Stat) (sp : OSprite) :
    (s.update sp).stat.pointCount = s.pointCount := by
  rcases stat_update_stat s sp with e | e
  · rw [e]
  · rw [e]
    rfl

theorem stat_get_point_pos_update (s : Stat) (sp : OSprite) (i : Int) :
    (s.update sp).stat.get_point_pos i = s.get_point_pos i := by
  rcases stat_update_stat s sp with e | e
  · rw [e]
  · rw [e]
    rfl

/-- The method `GroupStat::update` in terms of the state before the call. -/
theorem groupStat_update_eq (h : Host) (s : GroupStat) (sp : OSprite) :
    s.update h sp =
      if s.toStat.get_index ≥ s.pointCount then
        some ⟨false, { s with toStat := (s.toStat.update sp).stat }, (s.toStat.update sp).sprite, true⟩
      else
        match s.toStat.get_point_pos s.toStat.get_index with
        | none => none
        | some pos =>
          if sp.pos = pos then
            some ⟨true, { s with toStat := (s.toStat.update sp).stat },
              (s.toStat.update sp).sprite, false⟩
          else if s.center && decide (s.toStat.get_index < s.center_index) then
            some ⟨true, { s with toStat := (s.toStat.update sp).stat },
              { (s.toStat.update sp).sprite with
                pos := pos, rot := h.angle_to_point pos s.center_pos }, false⟩
          else
            some ⟨true, { s with toStat := (s.toStat.update sp).stat },
              { (s.toStat.update sp).sprite with
                pos := pos, rot := smoothRot (h.angle_to_point sp.pos pos) sp.rot }, false⟩ := by
  unfold GroupStat.update
  simp only [stat_update_ret, Bool.not_true, Bool.false_eq_true, if_false,
    stat_get_index_update, stat_pointCount_update, stat_get_point_pos_update,
    stat_update_pos, stat_update_rot]

/-- A read with an index at or past the point count fails. -/
theorem stat_get_point_pos_of_ge (s : Stat) (index : Int) (hge : s.pointCount ≤ index) :
    s.get_point_pos index = none := by
  unfold Stat.pointCount at hge
  have hy : vecGet s.points (index * 2 + 1) = none := by
    have h0 : 0 ≤ index * 2 + 1 := by omega
    have h1 : s.points.length ≤ (index * 2 + 1).toNat := by omega
    simp [vecGet, h0, List.getElem?_eq_none h1]
  unfold Stat.get_point_pos
  rw [hy]
  cases vecGet s.points (index * 2) <;> rfl

theorem fishStat_pathIndex_range (s : FishStat) (i : Int) (h0 : 0 ≤ i) (h1 : i < s.pointCount) :
    0 ≤ s.pathIndex i ∧ s.pathIndex i < s.pointCount := by
  unfold FishStat.pathIndex
  split_ifs <;> omega

theorem fishStat_get_point_pos_pathIndex_of_neg (s : FishStat) (i : Int) (h0 : i < 0) :
    s.get_point_pos (s.pathIndex i) = none := by
  unfold FishStat.get_point_pos FishStat.pathIndex
  split_ifs
  · rw [stat_get_point_pos_of_ge _ _ (by omega)]
    rfl
  · rw [stat_get_point_pos_of_neg _ _ h0]
    rfl


theorem fishStat_update_ret_kill (h : Host) (s : FishStat) (sp : OSprite) :
    (s.update h sp).map (fun r => (r.ret, r.kill)) =
      if s.get_index h ≥ s.pointCount then some (false, true)
      else if 0 ≤ s.get_index h then some (true, false) else none := by
  rw [fishStat_update_eq]
  by_cases hge : s.get_index h ≥ s.pointCount
  · simp [hge]
  · simp only [hge, if_false]
    have hpi : (if !s.forward then (s.pointCount - 1) - s.get_index h else s.get_index h)
        = s.pathIndex (s.get_index h) := rfl
    rw [hpi]
    by_cases h0 : 0 ≤ s.get_index h
    · obtain ⟨r0, r1⟩ := fishStat_pathIndex_range s _ h0 (not_le.mp hge)
      simp only [h0, if_true, FishStat.get_point_pos, stat_get_point_pos_of_lt _ _ r0 r1,
        Option.map_some']
      split_ifs <;> rfl
    · simp only [h0, if_false]
      rw [fishStat_get_point_pos_pathIndex_of_neg s _ (not_le.mp h0)]
      rfl

theorem groupStat_update_ret_kill (h : Host) (s : GroupStat) (sp : OSprite) :
    (s.update h sp).map (fun r => (r.ret, r.kill)) =
      if s.toStat.get_index ≥ s.pointCount then some (false, true)
      else if 0 ≤ s.toStat.get_index then some (true, false) else none := by
  rw [groupStat_update_eq]
  by_cases hge : s.toStat.get_index ≥ s.pointCount
  · simp [hge]
  · simp only [hge, if_false]
    by_cases h0 : 0 ≤ s.toStat.get_index
    · simp only [h0, if_true, stat_get_point_pos_of_lt _ _ h0 (not_le.mp hge)]
      split_ifs <;> rfl
    · simp only [h0, if_false]
      rw [stat_get_point_pos_of_neg _ _ (not_le.mp h0)]
      rfl

theorem anyStat_update_ret_kill (h : Host) (a : AnyStat) (sp : OSprite) :
    (a.update h sp).map (fun r => (r.ret, r.kill)) =
      if a.get_index h ≥ a.base.pointCount then some (false, true)
      else if 0 ≤ a.get_index h then some (true, false) else none := by
  cases a with
  | fish s =>
    simp only [AnyStat.update, AnyStat.get_index, AnyStat.base, Option.map_map]
    exact fishStat_update_ret_kill h s sp
  | group s =>
    simp only [AnyStat.update, AnyStat.get_index, AnyStat.base, Option.map_map]
    exact groupStat_update_ret_kill h s sp

/-! ## The point pushed to the sprite -/

theorem fishStat_update_some_of_range (h : Host) (s : FishStat) (sp : OSprite)
    (h0 : 0 ≤ s.get_index h) (h1 : s.get_index h < s.pointCount) :
    ∃ r, s.update h sp = some r ∧ r.ret = true ∧ r.kill = false ∧
      s.get_point_pos (s.pathIndex (s.get_index h)) = some r.sprite.pos := by
  rw [fishStat_update_eq]
  have hge : ¬ (s.get_index h ≥ s.pointCount) := not_le.mpr h1
  have hpi : (if !s.forward then (s.pointCount - 1) - s.get_index h else s.get_index h)
      = s.pathIndex (s.get_index h) := rfl
  obtain ⟨r0, r1⟩ := fishStat_pathIndex_range s _ h0 h1
  obtain ⟨pos, hq⟩ : ∃ pos, s.get_point_pos (s.pathIndex (s.get_index h)) = some pos :=
    ⟨_, by rw [FishStat.get_point_pos, stat_get_point_pos_of_lt _ _ r0 r1]; rfl⟩
  simp only [hge, if_false, hpi, hq]
  by_cases hpos : sp.pos = pos
  · rw [if_pos hpos]
    exact ⟨_, rfl, rfl, rfl, by simp [stat_update_pos, hpos]⟩
  · rw [if_neg hpos]
    exact ⟨_, rfl, rfl, rfl, rfl⟩

theorem groupStat_update_some_of_range (h : Host) (s : GroupStat) (sp : OSprite)
    (h0 : 0 ≤ s.toStat.get_index) (h1 : s.toStat.get_index < s.pointCount) :
    ∃ r, s.update h sp = some r ∧ r.ret = true ∧ r.kill = false ∧
      s.toStat.get_point_pos s.toStat.get_index = some r.sprite.pos := by
  rw [groupStat_update_eq]
  have hge : ¬ (s.toStat.get_index ≥ s.pointCount) := not_le.mpr h1
  obtain ⟨pos, hq⟩ : ∃ pos, s.toStat.get_point_pos s.toStat.get_index = some pos :=
    ⟨_, stat_get_point_pos_of_lt _ _ h0 h1⟩
  simp only [hge, if_false, hq]
  by_cases hpos : sp.pos = pos
  · rw [if_pos hpos]
    exact ⟨_, rfl, rfl, rfl, by simp [stat_update_pos, hpos]⟩
  · rw [if_neg hpos]
    by_cases hc : (s.center && decide (s.toStat.get_index < s.center_index)) = true
    · rw [if_pos hc]
      exact ⟨_, rfl, rfl, rfl, rfl⟩
    · rw [if_neg hc]
      exact ⟨_, rfl, rfl, rfl, rfl⟩

theorem anyStat_update_some_of_range (h : Host) (a : AnyStat) (sp : OSprite)
    (h0 : 0 ≤ a.get_index h) (h1 : a.get_index h < a.base.pointCount) :
    ∃ r, a.update h sp = some r ∧ r.ret = true ∧ r.kill = false ∧
      a.get_point_pos (a.pathIndex h) = some r.sprite.pos := by
  cases a with
  | fish s =>
    obtain ⟨r, hr, h2, h3, h4⟩ := fishStat_update_some_of_range h s sp h0 h1
    exact ⟨⟨r.ret, .fish r.stat, r.sprite, r.kill⟩, by simp [AnyStat.update, hr], h2, h3, h4⟩
  | group s =>
    obtain ⟨r, hr, h2, h3, h4⟩ := groupStat_update_some_of_range h s sp h0 h1
    exact ⟨⟨r.ret, .group r.stat, r.sprite, r.kill⟩, by simp [AnyStat.update, hr], h2, h3, h4⟩

/-- C8: for a directional actor whose progress index `i` satisfies
`0 <= i < points.size() / 2`, `update()` returns true and leaves the sprite at the
decoded point of path index `i` when `forward` is true and of `pointCount - 1 - i`
when it is false. -/
theorem update_path_index (h : Host) (s : FishStat) (sp : OSprite) (i : Int)
    (hi : s.get_index h = i) (h0 : 0 ≤ i) (h1 : i < s.pointCount) :
    ∃ r, s.update h sp = some r ∧ r.ret = true ∧
      s.get_point_pos (if s.forward then i else s.pointCount - 1 - i) = some r.sprite.pos := by
  subst hi
  obtain ⟨r, hr, h2, _, h4⟩ := fishStat_update_some_of_range h s sp h0 h1
  refine ⟨r, hr, h2, ?_⟩
  rw [← h4]
  unfold FishStat.pathIndex
  cases s.forward <;> rfl

theorem update_path_index_witness :
    ∃ r, reverseFish.update linearHost sampleSprite = some r ∧ r.ret = true ∧
      reverseFish.get_point_pos
        (if reverseFish.forward then 0 else reverseFish.pointCount - 1 - 0)
        = some r.sprite.pos :=
  update_path_index linearHost reverseFish sampleSprite 0
    (by simp [FishStat.get_index, Stat.get_index, reverseFish, toInt])
    (by decide) (by decide)


/-! ## Reads stay inside the path -/

theorem anyStat_get_index_nonneg_of_no_tween (h : Host) (a : AnyStat) (hr : 0 ≤ a.base.ratio)
    (ht : ∀ s : FishStat, a = .fish s → s.tween.delta = 0) : 0 ≤ a.get_index h := by
  cases a with
  | fish s =>
    have h0 : s.tween.delta = 0 := ht s rfl
    simp only [AnyStat.get_index, FishStat.get_index, h0, or_true, if_true]
    exact stat_get_index_nonneg s.toStat hr
  | group s => exact stat_get_index_nonneg s.toStat hr

theorem anyStat_pathIndex_range (h : Host) (a : AnyStat) (h0 : 0 ≤ a.get_index h)
    (h1 : a.get_index h < a.base.pointCount) :
    0 ≤ a.pathIndex h ∧ a.pathIndex h < a.base.pointCount := by
  cases a with
  | fish s => exact fishStat_pathIndex_range s _ h0 h1
  | group s => exact ⟨h0, h1⟩

/-! ## Before the delay has passed -/

theorem stat_get_index_of_pending (s : Stat) (hp : s.elapsed < s.delay) : s.get_index = 0 := by
  have hlt : s.elapsed - s.delay < 0 := by linarith
  simp [Stat.get_index, hlt, toInt]

theorem fishStat_get_index_of_pending (h : Host) (s : FishStat) (hp : s.elapsed < s.delay) :
    s.get_index h = 0 := by
  simp [FishStat.get_index, stat_get_index_of_pending s.toStat hp]

theorem fishStat_update_of_pending (h : Host) (s : FishStat) (sp : OSprite)
    (hp : s.elapsed < s.delay) :
    s.update h sp =
      if (0 : Int) ≥ s.pointCount then some ⟨false, s, sp, true⟩
      else
        match s.get_point_pos (s.pathIndex 0) with
        | none => none
        | some pos =>
          if sp.pos = pos then some ⟨true, s, sp, false⟩
          else
            some ⟨true, s,
              { sp with pos := pos, rot := smoothRot (h.angle_to_point sp.pos pos) sp.rot },
              false⟩ := by
  rw [fishStat_update_eq, stat_update_of_pending s.toStat sp hp,
    fishStat_get_index_of_pending h s hp]
  rfl

theorem groupStat_update_of_pending (h : Host) (s : GroupStat) (sp : OSprite)
    (hp : s.elapsed < s.delay) :
    s.update h sp =
      if (0 : Int) ≥ s.pointCount then some ⟨false, s, sp, true⟩
      else
        match s.toStat.get_point_pos 0 with
        | none => none
        | some pos =>
          if sp.pos = pos then some ⟨true, s, sp, false⟩
          else if s.center && decide ((0 : Int) < s.center_index) then
            some ⟨true, s, { sp with pos := pos, rot := h.angle_to_point pos s.center_pos }, false⟩
          else
            some ⟨true, s,
              { sp with pos := pos, rot := smoothRot (h.angle_to_point sp.pos pos) sp.rot },
              false⟩ := by
  rw [groupStat_update_eq, stat_update_of_pending s.toStat sp hp,
    stat_get_index_of_pending s.toStat hp]

theorem fishStat_update_of_pending_frame (h : Host) (s : FishStat) (sp : OSprite)
    (hp : s.elapsed < s.delay) (r : Outcome FishStat) (hr : s.update h sp = some r) :
    r.stat = s ∧ r.sprite.opacity = sp.opacity ∧ r.sprite.active = sp.active ∧
      r.sprite.seeks = sp.seeks := by
  rw [fishStat_update_of_pending h s sp hp] at hr
  by_cases h1 : (0 : Int) ≥ s.pointCount
  · rw [if_pos h1] at hr
    cases hr
    exact ⟨rfl, rfl, rfl, rfl⟩
  · rw [if_neg h1] at hr
    cases hq : s.get_point_pos (s.pathIndex 0) with
    | none => simp [hq] at hr
    | some pos =>
      simp only [hq] at hr
      by_cases hpos : sp.pos = pos
      · rw [if_pos hpos] at hr
        cases hr
        exact ⟨rfl, rfl, rfl, rfl⟩
      · rw [if_neg hpos] at hr
        cases hr
        exact ⟨rfl, rfl, rfl, rfl⟩

theorem groupStat_update_of_pending_frame (h : Host) (s : GroupStat) (sp : OSprite)
    (hp : s.elapsed < s.delay) (r : Outcome GroupStat) (hr : s.update h sp = some r) :
    r.stat = s ∧ r.sprite.opacity = sp.opacity ∧ r.sprite.active = sp.active ∧
      r.sprite.seeks = sp.seeks := by
  rw [groupStat_update_of_pending h s sp hp] at hr
  by_cases h1 : (0 : Int) ≥ s.pointCount
  · rw [if_pos h1] at hr
    cases hr
    exact ⟨rfl, rfl, rfl, rfl⟩
  · rw [if_neg h1] at hr
    cases hq : s.toStat.get_point_pos 0 with
    | none => simp [hq] at hr
    | some pos =>
      simp only [hq] at hr
      by_cases hpos : sp.pos = pos
      · rw [if_pos hpos] at hr
        cases hr
        exact ⟨rfl, rfl, rfl, rfl⟩
      · rw [if_neg hpos] at hr
        by_cases hc : (s.center && decide ((0 : Int) < s.center_index)) = true
        · rw [if_pos hc] at hr
          cases hr
          exact ⟨rfl, rfl, rfl, rfl⟩
        · rw [if_neg hc] at hr
          cases hr
          exact ⟨rfl, rfl, rfl, rfl⟩

theorem anyStat_update_of_pending_frame (h : Host) (a : AnyStat) (sp : OSprite)
    (hp : a.base.elapsed < a.base.delay) (r : Outcome AnyStat) (hr : a.update h sp = some r) :
    r.stat = a ∧ r.sprite.opacity = sp.opacity ∧ r.sprite.active = sp.active ∧
      r.sprite.seeks = sp.seeks := by
  cases a with
  | fish s =>
    obtain ⟨r0, hr0, rfl⟩ := Option.map_eq_some'.mp hr
    obtain ⟨e1, e2, e3, e4⟩ := fishStat_update_of_pending_frame h s sp hp r0 hr0
    exact ⟨by rw [e1], e2, e3, e4⟩
  | group s =>
    obtain ⟨r0, hr0, rfl⟩ := Option.map_eq_some'.mp hr
    obtain ⟨e1, e2, e3, e4⟩ := groupStat_update_of_pending_frame h s sp hp r0 hr0
    exact ⟨by rw [e1], e2, e3, e4⟩

theorem anyStat_update_of_pending_at_point (h : Host) (a : AnyStat) (sp : OSprite)
    (hp : a.base.elapsed < a.base.delay)
    (hpt : a.get_point_pos (a.pathIndex h) = some sp.pos) :
    a.update h sp = some ⟨true, a, sp, false⟩ := by
  cases a with
  | fish s =>
    simp only [AnyStat.get_point_pos, AnyStat.pathIndex,
      fishStat_get_index_of_pending h s hp] at hpt
    have hpc : ¬ ((0 : Int) ≥ s.pointCount) := by
      intro hge
      by_cases hn : s.pathIndex 0 < 0
      · rw [FishStat.get_point_pos, stat_get_point_pos_of_neg _ _ hn] at hpt
        simp at hpt
      · have hge2 : s.pointCount ≤ s.pathIndex 0 := by omega
        rw [FishStat.get_point_pos, stat_get_point_pos_of_ge _ _ hge2] at hpt
        simp at hpt
    simp [AnyStat.update, fishStat_update_of_pending h s sp hp, hpc, hpt]
  | group s =>
    simp only [AnyStat.get_point_pos, AnyStat.pathIndex,
      stat_get_index_of_pending s.toStat hp] at hpt
    have hpc : ¬ ((0 : Int) ≥ s.pointCount) := by
      intro hge
      rw [stat_get_point_pos_of_ge _ _ hge] at hpt
      simp at hpt
    simp [AnyStat.update, groupStat_update_of_pending h s sp hp, hpc, hpt]

/-- C10 (amended): for a directional or group actor state with `elapsed < delay`
whose path has at least one point, and every sprite state, `update()` returns
true, sends no `kill`, and leaves the state (with `activated`) and the opacity
and active flag of the sprite as they were; and when the sprite already stands at
the path point of progress index 0 (point 0, or the last point for a backward
directional actor), `update()` changes nothing at all. -/
theorem update_pending (h : Host) (a : AnyStat) (sp : OSprite)
    (hp : a.base.elapsed < a.base.delay) :
    (0 < a.base.pointCount →
      ∃ r, a.update h sp = some r ∧ r.ret = true ∧ r.kill = false ∧ r.stat = a ∧
        r.sprite.opacity = sp.opacity ∧ r.sprite.active = sp.active) ∧
    (a.get_point_pos (a.pathIndex h) = some sp.pos →
      a.update h sp = some ⟨true, a, sp, false⟩) := by
  refine ⟨?_, anyStat_update_of_pending_at_point h a sp hp⟩
  intro hpc
  have hi : a.get_index h = 0 := by
    cases a with
    | fish s => exact fishStat_get_index_of_pending h s hp
    | group s => exact stat_get_index_of_pending s.toStat hp
  obtain ⟨r, hr, h2, h3, _⟩ := anyStat_update_some_of_range h a sp (by rw [hi]) (by rw [hi]; exact hpc)
  obtain ⟨f1, f2, f3, _⟩ := anyStat_update_of_pending_frame h a sp hp r hr
  exact ⟨r, hr, h2, h3, f1, f2, f3⟩

theorem pendingFish_point0 : pendingFish.get_point_pos 0 = some ⟨0, 0⟩ := by
  have e : pendingFish.toStat.get_point_pos 0
      = some ⟨((0 : Int) : ℚ) * (1 / 100), ((0 : Int) : ℚ) * (1 / 100)⟩ := rfl
  rw [FishStat.get_point_pos, e]
  norm_num [Matrix32.xform, pendingFish, Matrix32.identity]

theorem reverseFish_point0 : reverseFish.get_point_pos 0 = some ⟨0, 0⟩ := by
  have e : reverseFish.toStat.get_point_pos 0
      = some ⟨((0 : Int) : ℚ) * (1 / 100), ((0 : Int) : ℚ) * (1 / 100)⟩ := rfl
  rw [FishStat.get_point_pos, e]
  norm_num [Matrix32.xform, reverseFish, Matrix32.identity]

theorem reverseFish_point1 : reverseFish.get_point_pos 1 = some ⟨1, 0⟩ := by
  have e : reverseFish.toStat.get_point_pos 1
      = some ⟨((100 : Int) : ℚ) * (1 / 100), ((0 : Int) : ℚ) * (1 / 100)⟩ := rfl
  rw [FishStat.get_point_pos, e]
  norm_num [Matrix32.xform, reverseFish, Matrix32.identity]

theorem update_pending_witness :
    AnyStat.update linearHost (.fish pendingFish) sampleSprite
      = some ⟨true, .fish pendingFish, sampleSprite, false⟩ :=
  (update_pending linearHost (.fish pendingFish) sampleSprite
    (by norm_num [AnyStat.base, pendingFish])).2
    (by
      have hp : pendingFish.elapsed < pendingFish.delay := by norm_num [pendingFish]
      have e : FishStat.pathIndex pendingFish 0 = 0 := by decide
      simp only [AnyStat.get_point_pos, AnyStat.pathIndex,
        fishStat_get_index_of_pending linearHost pendingFish hp, e, pendingFish_point0]
      rfl)

/-- C10 (as stated) fails: a backward directional actor on the points (0,0),
(1,0) with `elapsed = 0 < delay = 1` is put at (0,0) by `init()`, and its first
`update()` moves the sprite to (1,0). -/
theorem update_pending_counterexample :
    reverseFish.elapsed < reverseFish.delay ∧
    (reverseFish.init linearHost sampleSprite).map (fun r => r.2.pos) = some ⟨0, 0⟩ ∧
    ((reverseFish.init linearHost sampleSprite).bind
        (fun r => reverseFish.update linearHost r.2)).map (fun o => o.sprite.pos)
      = some ⟨1, 0⟩ := by
  have hp : reverseFish.elapsed < reverseFish.delay := by norm_num [reverseFish]
  have hi : reverseFish.init linearHost sampleSprite
      = some (true, { sampleSprite with pos := ⟨0, 0⟩, rot := 0 }) := by
    simp only [FishStat.init, reverseFish_point0, reverseFish_point1]
    rfl
  have e : FishStat.pathIndex reverseFish 0 = 1 := by decide
  have hpc : ¬ ((0 : Int) ≥ reverseFish.pointCount) := by decide
  have hne : ¬ ((⟨0, 0⟩ : Vector2) = ⟨1, 0⟩) := by
    intro hc
    have hx := congrArg Vector2.x hc
    norm_num at hx
  refine ⟨hp, by rw [hi]; rfl, ?_⟩
  rw [hi, Option.some_bind, fishStat_update_of_pending _ _ _ hp, if_neg hpc]
  simp only [e, reverseFish_point1, if_neg hne]
  rfl


/-! ## The three-point scenario -/

theorem scenario_get_index (h : Host) (st : Stat) (tw : Tween) (e : ℚ) (he : 0 ≤ e) :
    (scenarioFish st tw e).get_index h = toInt e := by
  have hn : ¬ (e < 0) := not_lt.mpr he
  simp [FishStat.get_index, Stat.get_index, scenarioFish, hn]

theorem scenario_pointCount (st : Stat) (tw : Tween) (e : ℚ) :
    (scenarioFish st tw e).pointCount = 3 := by
  simp [Stat.pointCount, scenarioFish]

theorem scenario_point (st : Stat) (tw : Tween) (e : ℚ) :
    (scenarioFish st tw e).get_point_pos 0 = some ⟨0, 0⟩ ∧
    (scenarioFish st tw e).get_point_pos 1 = some ⟨1, 0⟩ ∧
    (scenarioFish st tw e).get_point_pos 2 = some ⟨2, 0⟩ := by
  have e0 : (scenarioFish st tw e).toStat.get_point_pos 0
      = some ⟨((0 : Int) : ℚ) * (1 / 100), ((0 : Int) : ℚ) * (1 / 100)⟩ := rfl
  have e1 : (scenarioFish st tw e).toStat.get_point_pos 1
      = some ⟨((100 : Int) : ℚ) * (1 / 100), ((0 : Int) : ℚ) * (1 / 100)⟩ := rfl
  have e2 : (scenarioFish st tw e).toStat.get_point_pos 2
      = some ⟨((200 : Int) : ℚ) * (1 / 100), ((0 : Int) : ℚ) * (1 / 100)⟩ := rfl
  refine ⟨?_, ?_, ?_⟩
  · rw [FishStat.get_point_pos, e0]
    norm_num [Matrix32.xform, scenarioFish, Matrix32.identity]
  · rw [FishStat.get_point_pos, e1]
    norm_num [Matrix32.xform, scenarioFish, Matrix32.identity]
  · rw [FishStat.get_point_pos, e2]
    norm_num [Matrix32.xform, scenarioFish, Matrix32.identity]

theorem scenario_update_at (h : Host) (st : Stat) (tw : Tween) (sp : OSprite) (e : ℚ) (i : Int)
    (pos : Vector2) (hi : (scenarioFish st tw e).get_index h = i) (h0 : 0 ≤ i) (h1 : i < 3)
    (hpos : (scenarioFish st tw e).get_point_pos i = some pos) :
    ∃ r, (scenarioFish st tw e).update h sp = some r ∧ r.ret = true ∧ r.kill = false ∧
      r.sprite.pos = pos := by
  have hc := scenario_pointCount st tw e
  obtain ⟨r, hr, h2, h3, h4⟩ := fishStat_update_some_of_range h (scenarioFish st tw e) sp
    (by rw [hi]; exact h0) (by rw [hi, hc]; exact h1)
  refine ⟨r, hr, h2, h3, ?_⟩
  have hpi : (scenarioFish st tw e).pathIndex ((scenarioFish st tw e).get_index h) = i := by
    rw [hi]
    rfl
  rw [hpi, hpos] at h4
  exact (Option.some.inj h4).symm

/-- C5 (amended): for the directional actor with `points = [0,0,100,0,200,0]`,
`delay = 0`, `ratio = 1`, `speed = 1`, forward, identity transform and
`tween.delta = 0`: at `elapsed = 0` the index is 0 and `update()` leaves the
sprite at (0,0); at `elapsed = 1.5` the index is 1 and the sprite is at (1,0); at
`elapsed = 2` the index is 2, below the point count 3, and `update()` returns
true with the sprite at (2,0), sending no `kill`; at `elapsed = 3` the index is 3,
the point count, and `update()` returns false and sends `kill("fadeout")`. -/
theorem scenario_three_points (h : Host) (st : Stat) (tw : Tween) (sp : OSprite) :
    ((scenarioFish st tw 0).get_index h = 0 ∧
      ∃ r, (scenarioFish st tw 0).update h sp = some r ∧ r.ret = true ∧ r.kill = false ∧
        r.sprite.pos = ⟨0, 0⟩) ∧
    ((scenarioFish st tw (3 / 2)).get_index h = 1 ∧
      ∃ r, (scenarioFish st tw (3 / 2)).update h sp = some r ∧ r.ret = true ∧ r.kill = false ∧
        r.sprite.pos = ⟨1, 0⟩) ∧
    ((scenarioFish st tw 2).pointCount = 3 ∧ (scenarioFish st tw 2).get_index h = 2 ∧
      ∃ r, (scenarioFish st tw 2).update h sp = some r ∧ r.ret = true ∧ r.kill = false ∧
        r.sprite.pos = ⟨2, 0⟩) ∧
    ((scenarioFish st tw 3).get_index h = 3 ∧
      ∃ r, (scenarioFish st tw 3).update h sp = some r ∧ r.ret = false ∧ r.kill = true) := by
  have i0 : (scenarioFish st tw 0).get_index h = 0 := by
    rw [scenario_get_index h st tw 0 (le_refl 0)]
    exact toInt_eq_of_mem (le_refl 0) (by norm_num) (by norm_num)
  have i1 : (scenarioFish st tw (3 / 2)).get_index h = 1 := by
    rw [scenario_get_index h st tw (3 / 2) (by norm_num)]
    exact toInt_eq_of_mem (by norm_num) (by norm_num) (by norm_num)
  have i2 : (scenarioFish st tw 2).get_index h = 2 := by
    rw [scenario_get_index h st tw 2 (by norm_num)]
    exact toInt_eq_of_mem (by norm_num) (by norm_num) (by norm_num)
  have i3 : (scenarioFish st tw 3).get_index h = 3 := by
    rw [scenario_get_index h st tw 3 (by norm_num)]
    exact toInt_eq_of_mem (by norm_num) (by norm_num) (by norm_num)
  refine ⟨⟨i0, ?_⟩, ⟨i1, ?_⟩, ⟨scenario_pointCount st tw 2, i2, ?_⟩, ⟨i3, ?_⟩⟩
  · exact scenario_update_at h st tw sp 0 0 _ i0 (by norm_num) (by norm_num)
      (scenario_point st tw 0).1
  · exact scenario_update_at h st tw sp (3 / 2) 1 _ i1 (by norm_num) (by norm_num)
      (scenario_point st tw (3 / 2)).2.1
  · exact scenario_update_at h st tw sp 2 2 _ i2 (by norm_num) (by norm_num)
      (scenario_point st tw 2).2.2
  · have hk := fishStat_update_ret_kill h (scenarioFish st tw 3) sp
    rw [i3, scenario_pointCount st tw 3, if_pos (le_refl _)] at hk
    obtain ⟨r, hr, hrk⟩ := Option.map_eq_some'.mp hk
    exact ⟨r, hr, (Prod.mk.inj hrk).1, (Prod.mk.inj hrk).2⟩

/-- C5 (as stated) fails at `elapsed = 2`: the index 2 is not the point count
(three points, `6 / 2 = 3`), and `update()` returns true and sends no `kill`. -/
theorem scenario_three_points_counterexample :
    FishStat.get_index linearHost (sampleFish 2) = 2 ∧
    (sampleFish 2).pointCount = 3 ∧
    ((sampleFish 2).update linearHost sampleSprite).map (fun r => (r.ret, r.kill))
      = some (true, false) := by
  have i2 : (sampleFish 2).get_index linearHost = 2 := by
    unfold sampleFish
    rw [scenario_get_index _ _ _ 2 (by norm_num)]
    exact toInt_eq_of_mem (by norm_num) (by norm_num) (by norm_num)
  have hc : (sampleFish 2).pointCount = 3 := scenario_pointCount _ _ 2
  refine ⟨i2, hc, ?_⟩
  rw [fishStat_update_ret_kill, i2, hc]
  rfl


/-! ## One tick of the registry -/

theorem anyStat_setElapsed_sprite (a : AnyStat) (v : ℚ) :
    (a.setElapsed v).base.sprite = a.base.sprite := by
  cases a <;> rfl

theorem anyStat_setElapsed_fish (a : AnyStat) (v : ℚ) :
    (a.setElapsed v).base.fish = a.base.fish := by
  cases a <;> rfl

/-- An element with a handle that no longer resolves is erased; `update()` is not
run and the scene stays as it is. -/
theorem moveStep_of_dead (h : Host) (p_delta : ℚ) (w : World) (e : AnyStat)
    (hd : w.alive e.base.sprite = false ∨ w.alive e.base.fish = false) :
    moveStep h p_delta w e = some (w, none) := by
  unfold moveStep
  simp only [anyStat_setElapsed_sprite, anyStat_setElapsed_fish]
  rcases hd with hd | hd
  · rw [if_pos hd]
  · split_ifs <;> rfl

/-- An element whose handles resolve gets `elapsed += p_delta * speed` and one
`update()` on its sprite; it stays in the list exactly when that returns true. -/
theorem moveStep_of_alive (h : Host) (p_delta : ℚ) (w : World) (e : AnyStat)
    (h1 : w.alive e.base.sprite = true) (h2 : w.alive e.base.fish = true) :
    moveStep h p_delta w e =
      ((e.setElapsed (e.base.elapsed + p_delta * e.base.speed)).update h
          (w.sprites e.base.sprite)).map
        (fun r =>
          (w.commit (e.setElapsed (e.base.elapsed + p_delta * e.base.speed)).base r.sprite r.kill,
            if r.ret then some r.stat else none)) := by
  unfold moveStep
  simp only [anyStat_setElapsed_sprite, anyStat_setElapsed_fish, h1, h2, Bool.true_eq_false,
    if_false]
  cases (e.setElapsed (e.base.elapsed + p_delta * e.base.speed)).update h
      (w.sprites e.base.sprite) with
  | none => rfl
  | some r => cases hr : r.ret <;> simp [hr]

theorem moveStep_snd_congr (h : Host) (p_delta : ℚ) (w w1 : World) (e : AnyStat)
    (ha : w1.alive = w.alive) (hs : w1.sprites e.base.sprite = w.sprites e.base.sprite) :
    (moveStep h p_delta w1 e).map Prod.snd = (moveStep h p_delta w e).map Prod.snd := by
  by_cases h1 : w.alive e.base.sprite = true
  · by_cases h2 : w.alive e.base.fish = true
    · rw [moveStep_of_alive h p_delta w e h1 h2,
        moveStep_of_alive h p_delta w1 e (by rw [ha]; exact h1) (by rw [ha]; exact h2), hs]
      simp only [Option.map_map]
      rfl
    · have h2f : w.alive e.base.fish = false := by simpa using h2
      rw [moveStep_of_dead h p_delta w e (Or.inr h2f),
        moveStep_of_dead h p_delta w1 e (Or.inr (by rw [ha]; exact h2f))]
      rfl
  · have h1f : w.alive e.base.sprite = false := by simpa using h1
    rw [moveStep_of_dead h p_delta w e (Or.inl h1f),
      moveStep_of_dead h p_delta w1 e (Or.inl (by rw [ha]; exact h1f))]
    rfl

theorem moveStep_world (h : Host) (p_delta : ℚ) (w w1 : World) (e : AnyStat)
    (o : Option AnyStat) (hm : moveStep h p_delta w e = some (w1, o)) :
    w1.alive = w.alive ∧ ∀ id, id ≠ e.base.sprite → w1.sprites id = w.sprites id := by
  by_cases h1 : w.alive e.base.sprite = true
  · by_cases h2 : w.alive e.base.fish = true
    · rw [moveStep_of_alive h p_delta w e h1 h2] at hm
      obtain ⟨r, _, hr⟩ := Option.map_eq_some'.mp hm
      have hw := (Prod.mk.inj hr).1
      subst hw
      refine ⟨rfl, ?_⟩
      intro id hid
      simp [World.commit, anyStat_setElapsed_sprite, Function.update_noteq hid]
    · have h2f : w.alive e.base.fish = false := by simpa using h2
      rw [moveStep_of_dead h p_delta w e (Or.inr h2f)] at hm
      cases hm
      exact ⟨rfl, fun _ _ => rfl⟩
  · have h1f : w.alive e.base.sprite = false := by simpa using h1
    rw [moveStep_of_dead h p_delta w e (Or.inl h1f)] at hm
    cases hm
    exact ⟨rfl, fun _ _ => rfl⟩

theorem move_of_forall₂ (h : Host) (p_delta : ℚ) (w : World) :
    ∀ (reg : List AnyStat) (outs : List (Option AnyStat)) (w0 : World),
      w0.alive = w.alive →
      (∀ e ∈ reg, w0.sprites e.base.sprite = w.sprites e.base.sprite) →
      (reg.map (fun e => e.base.sprite)).Nodup →
      List.Forall₂ (fun e o => (moveStep h p_delta w e).map Prod.snd = some o) reg outs →
      ∃ w1, move h p_delta w0 reg = some (w1, outs.reduceOption) ∧ w1.alive = w.alive := by
  intro reg
  induction reg with
  | nil =>
    intro outs w0 ha _ _ hf
    cases hf
    exact ⟨w0, rfl, ha⟩
  | cons e rest ih =>
    intro outs w0 ha hs hnd hf
    cases hf with
    | cons hhead htail =>
      rename_i o os
      have hstep : (moveStep h p_delta w0 e).map Prod.snd = some o := by
        rw [moveStep_snd_congr h p_delta w w0 e ha (hs e (List.mem_cons_self _ _))]
        exact hhead
      obtain ⟨⟨w2, o2⟩, hm, ho⟩ := Option.map_eq_some'.mp hstep
      simp only at ho
      subst ho
      obtain ⟨hal, hsp⟩ := moveStep_world h p_delta w0 w2 e o2 hm
      rw [List.map_cons, List.nodup_cons] at hnd
      have hs2 : ∀ e1 ∈ rest, w2.sprites e1.base.sprite = w.sprites e1.base.sprite := by
        intro e1 he1
        have hne : e1.base.sprite ≠ e.base.sprite := by
          intro heq
          apply hnd.1
          rw [← heq]
          exact List.mem_map_of_mem (fun e => e.base.sprite) he1
        rw [hsp _ hne]
        exact hs e1 (List.mem_cons_of_mem _ he1)
      obtain ⟨w1, hmv, hw1⟩ := ih os w2 (by rw [hal, ha]) hs2 hnd.2 htail
      refine ⟨w1, ?_, hw1⟩
      simp only [move, hm, hmv]
      cases o2 <;> rfl


theorem anyStat_update_ret_indep (h : Host) (a : AnyStat) (sp sp1 : OSprite) :
    (a.update h sp).map (fun r => r.ret) = (a.update h sp1).map (fun r => r.ret) := by
  have h1 := congrArg (Option.map Prod.fst) (anyStat_update_ret_kill h a sp)
  have h2 := congrArg (Option.map Prod.fst) (anyStat_update_ret_kill h a sp1)
  rw [Option.map_map] at h1 h2
  have e : (Prod.fst ∘ fun r : Outcome AnyStat => (r.ret, r.kill)) = fun r => r.ret := rfl
  rw [e] at h1 h2
  rw [h1, h2]

theorem moveKeeps_of_dead (h : Host) (p_delta : ℚ) (w : World) (e : AnyStat)
    (hd : w.alive e.base.sprite = false ∨ w.alive e.base.fish = false) :
    moveKeeps h p_delta w e = false := by
  unfold moveKeeps
  rcases hd with hd | hd <;> simp [hd]

theorem moveKeeps_of_alive (h : Host) (p_delta : ℚ) (w : World) (e : AnyStat) (sp : OSprite)
    (r : Outcome AnyStat)
    (h1 : w.alive e.base.sprite = true) (h2 : w.alive e.base.fish = true)
    (hu : (e.advance p_delta).update h sp = some r) :
    moveKeeps h p_delta w e = r.ret := by
  have hi := anyStat_update_ret_indep h (e.advance p_delta) (w.sprites e.base.sprite) sp
  rw [hu] at hi
  unfold moveKeeps
  rw [h1, h2]
  cases hw : (e.advance p_delta).update h (w.sprites e.base.sprite) with
  | none => rw [hw] at hi; cases hi
  | some r1 =>
    rw [hw] at hi
    simp only [Option.map_some', Option.some.injEq] at hi
    simp [hi]

/-- Whatever the sprites are shared among, `move` leaves the elements it keeps in
their order. -/
theorem move_filter (h : Host) (p_delta : ℚ) (w : World) :
    ∀ (reg : List AnyStat) (w0 w1 : World) (reg1 : List AnyStat),
      w0.alive = w.alive →
      move h p_delta w0 reg = some (w1, reg1) →
      w1.alive = w.alive ∧
        List.Forall₂ (movedFrom h p_delta) reg1 (reg.filter (moveKeeps h p_delta w)) := by
  intro reg
  induction reg with
  | nil =>
    intro w0 w1 reg1 ha hm
    simp only [move, Option.some.injEq, Prod.mk.injEq] at hm
    obtain ⟨e1, e2⟩ := hm
    subst e1 e2
    exact ⟨ha, List.Forall₂.nil⟩
  | cons e rest ih =>
    intro w0 w1 reg1 ha hm
    rw [move] at hm
    cases hs : moveStep h p_delta w0 e with
    | none => rw [hs] at hm; cases hm
    | some p =>
      obtain ⟨w2, kept⟩ := p
      rw [hs] at hm
      simp only at hm
      cases hr : move h p_delta w2 rest with
      | none => rw [hr] at hm; cases hm
      | some q =>
        obtain ⟨w3, rest1⟩ := q
        rw [hr] at hm
        simp only [Option.some.injEq, Prod.mk.injEq] at hm
        obtain ⟨e1, e2⟩ := hm
        subst e1 e2
        obtain ⟨hal, _⟩ := moveStep_world h p_delta w0 w2 e kept hs
        obtain ⟨hw3, hf⟩ := ih w2 w3 rest1 (by rw [hal, ha]) hr
        refine ⟨hw3, ?_⟩
        by_cases h1 : w.alive e.base.sprite = true
        · by_cases h2 : w.alive e.base.fish = true
          · rw [moveStep_of_alive h p_delta w0 e (by rw [ha]; exact h1) (by rw [ha]; exact h2)]
              at hs
            obtain ⟨r, hu, hp⟩ := Option.map_eq_some'.mp hs
            have hk : kept = if r.ret then some r.stat else none := (Prod.mk.inj hp).2.symm
            have hkeep := moveKeeps_of_alive h p_delta w e _ r h1 h2 hu
            cases hret : r.ret with
            | false =>
              rw [hret] at hk hkeep
              rw [List.filter_cons_of_neg (by simp [hkeep]), hk]
              exact hf
            | true =>
              rw [hret] at hk hkeep
              rw [List.filter_cons_of_pos hkeep, hk]
              exact List.Forall₂.cons ⟨_, r, hu, hret, rfl⟩ hf
          · have h2f : w.alive e.base.fish = false := by simpa using h2
            rw [moveStep_of_dead h p_delta w0 e (Or.inr (by rw [ha]; exact h2f))] at hs
            cases hs
            rw [List.filter_cons_of_neg (by simp [moveKeeps_of_dead h p_delta w e (Or.inr h2f)])]
            exact hf
        · have h1f : w.alive e.base.sprite = false := by simpa using h1
          rw [moveStep_of_dead h p_delta w0 e (Or.inl (by rw [ha]; exact h1f))] at hs
          cases hs
          rw [List.filter_cons_of_neg (by simp [moveKeeps_of_dead h p_delta w e (Or.inl h1f)])]
          exact hf

/-- `move` returns as soon as the `update()` of every element with live handles
returns. -/
theorem move_returns (h : Host) (p_delta : ℚ) (w : World) :
    ∀ (reg : List AnyStat) (w0 : World),
      w0.alive = w.alive →
      (∀ e ∈ reg, w.alive e.base.sprite = true → w.alive e.base.fish = true →
        ∃ r, (e.advance p_delta).update h (w.sprites e.base.sprite) = some r) →
      ∃ w1 reg1, move h p_delta w0 reg = some (w1, reg1) := by
  intro reg
  induction reg with
  | nil =>
    intro w0 _ _
    exact ⟨w0, [], rfl⟩
  | cons e rest ih =>
    intro w0 ha hret
    have hstep : ∃ w2 kept, moveStep h p_delta w0 e = some (w2, kept) := by
      by_cases h1 : w.alive e.base.sprite = true
      · by_cases h2 : w.alive e.base.fish = true
        · obtain ⟨r, hr⟩ := hret e (List.mem_cons_self _ _) h1 h2
          have hi := anyStat_update_ret_indep h (e.advance p_delta) (w.sprites e.base.sprite)
            (w0.sprites e.base.sprite)
          rw [hr] at hi
          cases hu : (e.advance p_delta).update h (w0.sprites e.base.sprite) with
          | none => rw [hu] at hi; cases hi
          | some r0 =>
            rw [moveStep_of_alive h p_delta w0 e (by rw [ha]; exact h1) (by rw [ha]; exact h2)]
            have hu2 : (e.setElapsed (e.base.elapsed + p_delta * e.base.speed)).update h
                (w0.sprites e.base.sprite) = some r0 := hu
            rw [hu2]
            exact ⟨_, _, rfl⟩
        · have h2f : w.alive e.base.fish = false := by simpa using h2
          exact ⟨w0, none, moveStep_of_dead h p_delta w0 e (Or.inr (by rw [ha]; exact h2f))⟩
      · have h1f : w.alive e.base.sprite = false := by simpa using h1
        exact ⟨w0, none, moveStep_of_dead h p_delta w0 e (Or.inl (by rw [ha]; exact h1f))⟩
    obtain ⟨w2, kept, hs⟩ := hstep
    obtain ⟨hal, _⟩ := moveStep_world h p_delta w0 w2 e kept hs
    obtain ⟨w3, rest1, hr⟩ := ih w2 (by rw [hal, ha])
      (fun e1 he1 => hret e1 (List.mem_cons_of_mem _ he1))
    exact ⟨w3, kept.toList ++ rest1, by simp only [move, hs, hr]⟩

theorem move_sprites (h : Host) (p_delta : ℚ) :
    ∀ (pre : List AnyStat) (w wp : World) (pre1 : List AnyStat),
      move h p_delta w pre = some (wp, pre1) →
      wp.alive = w.alive ∧
        ∀ id, (∀ e ∈ pre, e.base.sprite ≠ id) → wp.sprites id = w.sprites id := by
  intro pre
  induction pre with
  | nil =>
    intro w wp pre1 hm
    simp only [move, Option.some.injEq, Prod.mk.injEq] at hm
    obtain ⟨e1, _⟩ := hm
    subst e1
    exact ⟨rfl, fun _ _ => rfl⟩
  | cons e rest ih =>
    intro w wp pre1 hm
    rw [move] at hm
    cases hs : moveStep h p_delta w e with
    | none => rw [hs] at hm; cases hm
    | some p =>
      obtain ⟨w2, kept⟩ := p
      rw [hs] at hm
      simp only at hm
      cases hr : move h p_delta w2 rest with
      | none => rw [hr] at hm; cases hm
      | some q =>
        obtain ⟨w3, rest1⟩ := q
        rw [hr] at hm
        simp only [Option.some.injEq, Prod.mk.injEq] at hm
        obtain ⟨e1, _⟩ := hm
        subst e1
        obtain ⟨hal, hsp⟩ := moveStep_world h p_delta w w2 e kept hs
        obtain ⟨hal3, hsp3⟩ := ih w2 w3 rest1 hr
        refine ⟨by rw [hal3, hal], ?_⟩
        intro id hid
        rw [hsp3 id (fun e1 he1 => hid e1 (List.mem_cons_of_mem _ he1)),
          hsp id (fun heq => hid e (List.mem_cons_self _ _) heq.symm)]

theorem move_split (h : Host) (p_delta : ℚ) (e : AnyStat) (post : List AnyStat) :
    ∀ (pre : List AnyStat) (w w1 : World) (reg1 : List AnyStat),
      move h p_delta w (pre ++ e :: post) = some (w1, reg1) →
      ∃ (wp : World) (pre1 : List AnyStat) (ws : World) (o : Option AnyStat)
        (post1 : List AnyStat),
        move h p_delta w pre = some (wp, pre1) ∧ moveStep h p_delta wp e = some (ws, o) ∧
        move h p_delta ws post = some (w1, post1) ∧ reg1 = pre1 ++ (o.toList ++ post1) := by
  intro pre
  induction pre with
  | nil =>
    intro w w1 reg1 hm
    rw [List.nil_append, move] at hm
    cases hs : moveStep h p_delta w e with
    | none => rw [hs] at hm; cases hm
    | some p =>
      obtain ⟨w2, kept⟩ := p
      rw [hs] at hm
      simp only at hm
      cases hr : move h p_delta w2 post with
      | none => rw [hr] at hm; cases hm
      | some q =>
        obtain ⟨w3, rest1⟩ := q
        rw [hr] at hm
        simp only [Option.some.injEq, Prod.mk.injEq] at hm
        obtain ⟨e1, e2⟩ := hm
        subst e1 e2
        exact ⟨w, [], w2, kept, rest1, rfl, hs, hr, rfl⟩
  | cons a rest ih =>
    intro w w1 reg1 hm
    rw [List.cons_append, move] at hm
    cases hs : moveStep h p_delta w a with
    | none => rw [hs] at hm; cases hm
    | some p =>
      obtain ⟨w2, kept⟩ := p
      rw [hs] at hm
      simp only at hm
      cases hr : move h p_delta w2 (rest ++ e :: post) with
      | none => rw [hr] at hm; cases hm
      | some q =>
        obtain ⟨w3, rest1⟩ := q
        rw [hr] at hm
        simp only [Option.some.injEq, Prod.mk.injEq] at hm
        obtain ⟨e1, e2⟩ := hm
        subst e1 e2
        obtain ⟨wp, pre1, ws, o, post1, hp, hst, hpo, hreg⟩ := ih w2 w3 rest1 hr
        refine ⟨wp, kept.toList ++ pre1, ws, o, post1, ?_, hst, hpo, ?_⟩
        · simp only [move, hs, hp]
        · rw [hreg, List.append_assoc]

/-- An element whose sprite no earlier element of the list has comes out of `move`
as its own step on the scene before the call leaves it. -/
theorem move_own_step (h : Host) (p_delta : ℚ) (w w1 : World) (pre post reg1 : List AnyStat)
    (e : AnyStat) (hpre : ∀ e1 ∈ pre, e1.base.sprite ≠ e.base.sprite)
    (hm : move h p_delta w (pre ++ e :: post) = some (w1, reg1)) :
    ∃ (wp : World) (pre1 : List AnyStat) (ws : World) (o : Option AnyStat)
      (post1 : List AnyStat),
      move h p_delta w pre = some (wp, pre1) ∧
      (moveStep h p_delta w e).map Prod.snd = some o ∧
      move h p_delta ws post = some (w1, post1) ∧ reg1 = pre1 ++ (o.toList ++ post1) := by
  obtain ⟨wp, pre1, ws, o, post1, hp, hst, hpo, hreg⟩ := move_split h p_delta e post pre w w1 reg1 hm
  obtain ⟨hal, hsp⟩ := move_sprites h p_delta pre w wp pre1 hp
  refine ⟨wp, pre1, ws, o, post1, hp, ?_, hpo, hreg⟩
  rw [← moveStep_snd_congr h p_delta w wp e hal (hsp _ hpre), hst]
  rfl

theorem lostGroup_step :
    (moveStep linearHost (1 / 2) sampleWorld (.group lostGroup)).map Prod.snd = some none := by
  rw [moveStep_of_dead linearHost (1 / 2) sampleWorld (.group lostGroup) (Or.inl (by decide))]
  rfl

theorem pendingFish_step :
    (moveStep linearHost (1 / 2) sampleWorld (.fish pendingFish)).map Prod.snd
      = some (some ((AnyStat.fish pendingFish).setElapsed (1 / 2))) := by
  have hb : (AnyStat.fish pendingFish).base.elapsed + 1 / 2 * (AnyStat.fish pendingFish).base.speed
      = 1 / 2 := by
    norm_num [AnyStat.base, pendingFish]
  have hp : ((AnyStat.fish pendingFish).setElapsed (1 / 2)).base.elapsed
      < ((AnyStat.fish pendingFish).setElapsed (1 / 2)).base.delay := by
    norm_num [AnyStat.base, AnyStat.setElapsed, pendingFish]
  have hq : ((AnyStat.fish pendingFish).setElapsed (1 / 2)).get_point_pos
      (((AnyStat.fish pendingFish).setElapsed (1 / 2)).pathIndex linearHost)
      = some sampleSprite.pos := by
    have e : (AnyStat.fish pendingFish).setElapsed (1 / 2)
        = .fish { pendingFish with elapsed := 1 / 2 } := rfl
    have hp2 : ({ pendingFish with elapsed := 1 / 2 } : FishStat).elapsed
        < ({ pendingFish with elapsed := 1 / 2 } : FishStat).delay := by
      norm_num [pendingFish]
    rw [e]
    simp only [AnyStat.get_point_pos, AnyStat.pathIndex, fishStat_get_index_of_pending _ _ hp2]
    exact pendingFish_point0
  rw [moveStep_of_alive linearHost (1 / 2) sampleWorld (.fish pendingFish) (by decide)
    (by decide), hb]
  have hs : sampleWorld.sprites (AnyStat.fish pendingFish).base.sprite = sampleSprite := rfl
  rw [hs, anyStat_update_of_pending_at_point linearHost _ sampleSprite hp hq]
  rfl

theorem move_of_distinct_sample :
    ∃ w1, move linearHost (1 / 2) sampleWorld [.group lostGroup, .fish pendingFish]
        = some (w1, [(AnyStat.fish pendingFish).setElapsed (1 / 2)]) ∧
      w1.alive = sampleWorld.alive :=
  move_of_forall₂ linearHost (1 / 2) sampleWorld [.group lostGroup, .fish pendingFish]
    [none, some ((AnyStat.fish pendingFish).setElapsed (1 / 2))] sampleWorld rfl (fun _ _ => rfl)
    (by decide)
    (List.Forall₂.cons lostGroup_step (List.Forall₂.cons pendingFish_step List.Forall₂.nil))

theorem groupStat_update_at_point (h : Host) (s : GroupStat) (sp : OSprite)
    (h1 : s.toStat.get_index < s.pointCount)
    (hq : s.toStat.get_point_pos s.toStat.get_index = some sp.pos) :
    s.update h sp =
      some ⟨true, { s with toStat := (s.toStat.update sp).stat }, (s.toStat.update sp).sprite,
        false⟩ := by
  rw [groupStat_update_eq, if_neg (not_le.mpr h1)]
  simp only [hq, if_true]

theorem fadeGroup_step (w : World) (f : ObjectID) (sp : OSprite)
    (hal : ∀ id, w.alive id = true) (hsp : w.sprites 3 = sp) (hpos : sp.pos = ⟨0, 0⟩) :
    moveStep linearHost 0 w (.group (fadeGroup f)) =
      some (w.commit (fadeGroup f).toStat ((fadeGroup f).toStat.update sp).sprite false,
        some (.group { fadeGroup f with toStat := ((fadeGroup f).toStat.update sp).stat })) := by
  have hb : (AnyStat.group (fadeGroup f)).setElapsed
      ((AnyStat.group (fadeGroup f)).base.elapsed + 0 * (AnyStat.group (fadeGroup f)).base.speed)
      = .group (fadeGroup f) := by
    norm_num [AnyStat.setElapsed, AnyStat.base, fadeGroup]
  have hi : (fadeGroup f).toStat.get_index = 0 := by
    norm_num [Stat.get_index, fadeGroup, toInt]
  have hc : (fadeGroup f).pointCount = 2 := by
    simp [Stat.pointCount, fadeGroup]
  have hq : (fadeGroup f).toStat.get_point_pos 0 = some sp.pos := by
    have e : (fadeGroup f).toStat.get_point_pos 0
        = some ⟨((0 : Int) : ℚ) * (1 / 100), ((0 : Int) : ℚ) * (1 / 100)⟩ := rfl
    rw [e, hpos]
    norm_num
  have hs : w.sprites (AnyStat.group (fadeGroup f)).base.sprite = sp := hsp
  rw [moveStep_of_alive linearHost 0 w _ (hal _) (hal _), hb, hs]
  simp only [AnyStat.update]
  rw [groupStat_update_at_point linearHost (fadeGroup f) sp (by rw [hi, hc]; decide)
    (by rw [hi]; exact hq)]
  rfl

/-- C1 (amended): after `move` the registry is, in the original order, the list
of the elements whose sprite and fish handles both resolve and whose `update()`,
run once after `elapsed += p_delta * speed`, returned true, each one as that
`update()` left it, whatever sprites the elements share; `move` returns as soon
as every `update()` it runs returns; an element whose sprite no earlier element
has comes out as its own step on the scene before the call leaves it (so it
depends on that element, its sprite and `p_delta` alone); an element with a dead
handle is erased without running `update()` and without touching the scene; any
other element gets one `update()` and stays exactly when that returns true. -/
theorem move_registry (h : Host) (p_delta : ℚ) (w : World) (reg : List AnyStat) :
    (∀ (w1 : World) (reg1 : List AnyStat), move h p_delta w reg = some (w1, reg1) →
      w1.alive = w.alive ∧
        List.Forall₂ (movedFrom h p_delta) reg1 (reg.filter (moveKeeps h p_delta w))) ∧
    ((∀ e ∈ reg, w.alive e.base.sprite = true → w.alive e.base.fish = true →
        ∃ r, (e.advance p_delta).update h (w.sprites e.base.sprite) = some r) →
      ∃ w1 reg1, move h p_delta w reg = some (w1, reg1)) ∧
    (∀ (pre post : List AnyStat) (e : AnyStat) (w1 : World) (reg1 : List AnyStat),
      reg = pre ++ e :: post → (∀ e1 ∈ pre, e1.base.sprite ≠ e.base.sprite) →
      move h p_delta w reg = some (w1, reg1) →
      ∃ (wp : World) (pre1 : List AnyStat) (ws : World) (o : Option AnyStat)
        (post1 : List AnyStat),
        move h p_delta w pre = some (wp, pre1) ∧
        (moveStep h p_delta w e).map Prod.snd = some o ∧
        move h p_delta ws post = some (w1, post1) ∧ reg1 = pre1 ++ (o.toList ++ post1)) ∧
    (∀ e : AnyStat, (w.alive e.base.sprite = false ∨ w.alive e.base.fish = false) →
      moveStep h p_delta w e = some (w, none)) ∧
    (∀ e : AnyStat, w.alive e.base.sprite = true → w.alive e.base.fish = true →
      moveStep h p_delta w e =
        ((e.setElapsed (e.base.elapsed + p_delta * e.base.speed)).update h
            (w.sprites e.base.sprite)).map
          (fun r =>
            (w.commit (e.setElapsed (e.base.elapsed + p_delta * e.base.speed)).base
                r.sprite r.kill,
              if r.ret then some r.stat else none))) := by
  refine ⟨fun w1 reg1 hm => move_filter h p_delta w reg w w1 reg1 rfl hm,
    fun hret => move_returns h p_delta w reg w rfl hret, ?_,
    moveStep_of_dead h p_delta w, moveStep_of_alive h p_delta w⟩
  intro pre post e w1 reg1 hreg hpre hm
  rw [hreg] at hm
  exact move_own_step h p_delta w w1 pre post reg1 e hpre hm

theorem fadeGroup_update_returns (f : ObjectID) (sp : OSprite) :
    ∃ r, ((AnyStat.group (fadeGroup f)).advance 0).update linearHost sp = some r := by
  have h0 : 0 ≤ ((AnyStat.group (fadeGroup f)).advance 0).get_index linearHost := by
    norm_num [AnyStat.advance, AnyStat.setElapsed, AnyStat.get_index, AnyStat.base,
      Stat.get_index, fadeGroup, toInt]
  have h1 : ((AnyStat.group (fadeGroup f)).advance 0).get_index linearHost
      < ((AnyStat.group (fadeGroup f)).advance 0).base.pointCount := by
    norm_num [AnyStat.advance, AnyStat.setElapsed, AnyStat.get_index, AnyStat.base,
      Stat.get_index, Stat.pointCount, fadeGroup, toInt]
  obtain ⟨r, hr, _⟩ := anyStat_update_some_of_range linearHost _ sp h0 h1
  exact ⟨r, hr⟩

theorem move_registry_witness :
    ∃ w1 reg1,
      move linearHost 0 fadeWorld [.group (fadeGroup 1), .group (fadeGroup 2)]
        = some (w1, reg1) ∧
      w1.alive = fadeWorld.alive ∧
      List.Forall₂ (movedFrom linearHost 0) reg1
        ([AnyStat.group (fadeGroup 1), AnyStat.group (fadeGroup 2)].filter
          (moveKeeps linearHost 0 fadeWorld)) := by
  have hret : ∀ e ∈ [AnyStat.group (fadeGroup 1), AnyStat.group (fadeGroup 2)],
      fadeWorld.alive e.base.sprite = true → fadeWorld.alive e.base.fish = true →
      ∃ r, (e.advance 0).update linearHost (fadeWorld.sprites e.base.sprite) = some r := by
    intro e he _ _
    simp only [List.mem_cons, List.mem_singleton, List.not_mem_nil, or_false] at he
    rcases he with rfl | rfl
    · exact fadeGroup_update_returns 1 _
    · exact fadeGroup_update_returns 2 _
  obtain ⟨w1, reg1, hm⟩ :=
    (move_registry linearHost 0 fadeWorld [.group (fadeGroup 1), .group (fadeGroup 2)]).2.1 hret
  exact ⟨w1, reg1, hm,
    (move_registry linearHost 0 fadeWorld [.group (fadeGroup 1), .group (fadeGroup 2)]).1
      w1 reg1 hm⟩

/-- C1 (as stated) fails when two elements share a sprite: with the shared sprite
half a fade step short of full opacity, the second group actor comes out of `move`
activated when the first one is in the registry and not activated when it is
alone, from the same state, the same sprite and the same `p_delta`. -/
theorem move_registry_counterexample :
    (move linearHost 0 fadeWorld [.group (fadeGroup 1), .group (fadeGroup 2)]).map Prod.snd
      = some [.group (fadeGroup 1), .group { fadeGroup 2 with activated := true }] ∧
    (move linearHost 0 fadeWorld [.group (fadeGroup 2)]).map Prod.snd
      = some [.group (fadeGroup 2)] := by
  have hu1 : ∀ f, (fadeGroup f).toStat.update fadeSprite
      = ⟨true, (fadeGroup f).toStat, { fadeSprite with opacity := 1 }, false⟩ := by
    intro f
    norm_num [Stat.update, fadeGroup, fadeSprite]
  have hu2 : ∀ f, (fadeGroup f).toStat.update { fadeSprite with opacity := 1 }
      = ⟨true, { (fadeGroup f).toStat with activated := true },
          { fadeSprite with opacity := 1 }, false⟩ := by
    intro f
    norm_num [Stat.update, fadeGroup, fadeSprite]
  have s1 : ∀ f, moveStep linearHost 0 fadeWorld (.group (fadeGroup f))
      = some (fadeWorld.commit (fadeGroup f).toStat { fadeSprite with opacity := 1 } false,
          some (.group (fadeGroup f))) := by
    intro f
    rw [fadeGroup_step fadeWorld f fadeSprite (fun _ => rfl) rfl rfl, hu1 f]
  have s2 : moveStep linearHost 0
      (fadeWorld.commit (fadeGroup 1).toStat { fadeSprite with opacity := 1 } false)
      (.group (fadeGroup 2))
      = some ((fadeWorld.commit (fadeGroup 1).toStat { fadeSprite with opacity := 1 }
            false).commit (fadeGroup 2).toStat { fadeSprite with opacity := 1 } false,
          some (.group { fadeGroup 2 with activated := true })) := by
    rw [fadeGroup_step _ 2 { fadeSprite with opacity := 1 } (fun _ => rfl) rfl rfl, hu2 2]
  constructor
  · simp only [move, s1 1, s2]
    rfl
  · simp only [move, s1 2]
    rfl


/-! ## The tween evaluator -/

theorem fishStat_get_index_eq (h : Host) (s : FishStat) :
    s.get_index h =
      if s.toStat.get_index = 0 ∨ s.tween.delta = 0 then s.toStat.get_index
      else toInt (weightedTime s.tween (warpedTime h s.tween (s.elapsed - s.delay)) * s.ratio) :=
  rfl

theorem fmod_of_nonneg (x d : ℚ) (hx : 0 ≤ x) (hd : 0 < d) :
    toInt (x / d) = ⌊x / d⌋ ∧ fmod x d = x - (⌊x / d⌋ : ℚ) * d ∧ 0 ≤ ⌊x / d⌋ ∧
      0 ≤ fmod x d ∧ fmod x d < d := by
  have hq : 0 ≤ x / d := div_nonneg hx (le_of_lt hd)
  have ht : toInt (x / d) = ⌊x / d⌋ := toInt_of_nonneg hq
  have h1 : (⌊x / d⌋ : ℚ) ≤ x / d := Int.floor_le _
  have h2 : x / d < (⌊x / d⌋ : ℚ) + 1 := Int.lt_floor_add_one _
  have h3 : (⌊x / d⌋ : ℚ) * d ≤ x := (le_div_iff₀ hd).mp h1
  have h4 : x < ((⌊x / d⌋ : ℚ) + 1) * d := (div_lt_iff₀ hd).mp h2
  refine ⟨ht, by rw [fmod, ht], Int.floor_nonneg.mpr hq, ?_, ?_⟩
  · rw [fmod, ht]
    linarith
  · rw [fmod, ht]
    linarith

/-- A function that stays inside each cycle `[k * d, (k + 1) * d]` and does not
decrease inside a cycle does not decrease at all. -/
theorem mono_of_cycle (d : ℚ) (hd : 0 < d) (F : ℚ → ℚ)
    (hb : ∀ x, 0 ≤ x → (⌊x / d⌋ : ℚ) * d ≤ F x ∧ F x ≤ ((⌊x / d⌋ : ℚ) + 1) * d)
    (hm : ∀ x y, 0 ≤ x → x ≤ y → ⌊x / d⌋ = ⌊y / d⌋ → F x ≤ F y)
    (x y : ℚ) (hx : 0 ≤ x) (hxy : x ≤ y) : F x ≤ F y := by
  have hk : ⌊x / d⌋ ≤ ⌊y / d⌋ := Int.floor_le_floor (div_le_div_of_nonneg_right hxy (le_of_lt hd))
  rcases eq_or_lt_of_le hk with he | hlt
  · exact hm x y hx hxy he
  · have h1 : ((⌊x / d⌋ : ℚ) + 1) ≤ (⌊y / d⌋ : ℚ) := by exact_mod_cast hlt
    have h2 : ((⌊x / d⌋ : ℚ) + 1) * d ≤ (⌊y / d⌋ : ℚ) * d :=
      mul_le_mul_of_nonneg_right h1 (le_of_lt hd)
    linarith [(hb x hx).2, (hb y (le_trans hx hxy)).1]

theorem sum_delta_nonneg (ps : List Phase) (hp : ∀ p ∈ ps, 0 < p.delta ∧ 0 < p.weight) :
    0 ≤ (ps.map Phase.delta).sum := by
  induction ps with
  | nil => simp
  | cons p rest ih =>
    have h1 := (hp p (List.mem_cons_self _ _)).1
    have h2 := ih (fun q hq => hp q (List.mem_cons_of_mem _ hq))
    simp only [List.map_cons, List.sum_cons]
    linarith

theorem sum_weight_nonneg (ps : List Phase) (hp : ∀ p ∈ ps, 0 < p.delta ∧ 0 < p.weight) :
    0 ≤ (ps.map Phase.weight).sum := by
  induction ps with
  | nil => simp
  | cons p rest ih =>
    have h1 := (hp p (List.mem_cons_self _ _)).2
    have h2 := ih (fun q hq => hp q (List.mem_cons_of_mem _ hq))
    simp only [List.map_cons, List.sum_cons]
    linarith

/-- Inside a cycle the warp loop lands between the start value and the start value
plus the durations of the phases it may walk. -/
theorem warpLoop_bounds (h : Host) :
    ∀ (ps : List Phase), (∀ p ∈ ps, 0 < p.delta ∧ 0 < p.weight) → (∀ p ∈ ps, h.easesUp p) →
      ∀ (t b e : ℚ), 0 ≤ t → t ≤ (ps.map Phase.delta).sum → ps ≠ [] →
        b ≤ warpLoop h ps t b e ∧ warpLoop h ps t b e ≤ b + (ps.map Phase.delta).sum := by
  intro ps
  induction ps with
  | nil => intro _ _ t b e _ _ hne; exact absurd rfl hne
  | cons p rest ih =>
    intro hp he t b e ht0 hts _
    have hpd := (hp p (List.mem_cons_self _ _)).1
    have hrest := sum_delta_nonneg rest (fun q hq => hp q (List.mem_cons_of_mem _ hq))
    simp only [List.map_cons, List.sum_cons] at hts ⊢
    by_cases hgt : t > p.delta
    · have hne : rest ≠ [] := by
        intro hnil
        rw [hnil] at hts
        simp at hts
        linarith
      obtain ⟨l, u⟩ := ih (fun q hq => hp q (List.mem_cons_of_mem _ hq))
        (fun q hq => he q (List.mem_cons_of_mem _ hq)) (t - p.delta) (b + p.delta) e
        (by linarith) (by linarith) hne
      simp only [warpLoop, hgt, if_true]
      constructor <;> linarith
    · obtain ⟨e0, e1, em⟩ := he p (List.mem_cons_self _ _) b
      have hle : t ≤ p.delta := not_lt.mp hgt
      have l := em 0 t (le_refl 0) ht0 hle
      have u := em t p.delta ht0 hle (le_refl _)
      simp only [warpLoop, hgt, if_false]
      rw [e0] at l
      rw [e1] at u
      constructor <;> linarith

/-- Inside a cycle the warp loop does not decrease with the local time. -/
theorem warpLoop_mono (h : Host) :
    ∀ (ps : List Phase), (∀ p ∈ ps, 0 < p.delta ∧ 0 < p.weight) → (∀ p ∈ ps, h.easesUp p) →
      ∀ (t1 t2 b e1 e2 : ℚ), 0 ≤ t1 → t1 ≤ t2 → t2 ≤ (ps.map Phase.delta).sum → ps ≠ [] →
        warpLoop h ps t1 b e1 ≤ warpLoop h ps t2 b e2 := by
  intro ps
  induction ps with
  | nil => intro _ _ _ _ _ _ _ _ _ _ hne; exact absurd rfl hne
  | cons p rest ih =>
    intro hp he t1 t2 b e1 e2 ht0 h12 hts _
    have hpd := (hp p (List.mem_cons_self _ _)).1
    have hp2 := fun q hq => hp q (List.mem_cons_of_mem p hq)
    have he2 := fun q hq => he q (List.mem_cons_of_mem p hq)
    simp only [List.map_cons, List.sum_cons] at hts
    obtain ⟨_, e1d, em⟩ := he p (List.mem_cons_self _ _) b
    by_cases hgt2 : t2 > p.delta
    · have hne : rest ≠ [] := by
        intro hnil
        rw [hnil] at hts
        simp at hts
        linarith
      by_cases hgt1 : t1 > p.delta
      · simp only [warpLoop, hgt1, hgt2, if_true]
        exact ih hp2 he2 (t1 - p.delta) (t2 - p.delta) (b + p.delta) e1 e2 (by linarith)
          (by linarith) (by linarith) hne
      · have hle : t1 ≤ p.delta := not_lt.mp hgt1
        have u := em t1 p.delta ht0 hle (le_refl _)
        rw [e1d] at u
        obtain ⟨l, _⟩ := warpLoop_bounds h rest hp2 he2 (t2 - p.delta) (b + p.delta) e2
          (by linarith) (by linarith) hne
        simp only [warpLoop, hgt1, hgt2, if_true, if_false]
        linarith
    · have hle2 : t2 ≤ p.delta := not_lt.mp hgt2
      have hgt1 : ¬ (t1 > p.delta) := by
        intro hc
        linarith
      simp only [warpLoop, hgt1, hgt2, if_false]
      exact em t1 t2 ht0 h12 hle2


theorem weightLoop_of_nonpos (tw : Tween) (ps : List Phase) (t w : ℚ) (ht : t ≤ 0) :
    weightLoop tw ps t w = w := by
  cases ps with
  | nil => rfl
  | cons p rest => simp [weightLoop, ht]

theorem weightLoop_add (tw : Tween) :
    ∀ (ps : List Phase) (t w : ℚ), weightLoop tw ps t w = w + weightLoop tw ps t 0 := by
  intro ps
  induction ps with
  | nil => intro t w; simp [weightLoop]
  | cons p rest ih =>
    intro t w
    by_cases ht : t ≤ 0
    · simp [weightLoop, ht]
    · simp only [weightLoop, ht, if_false]
      rw [ih (t - p.delta) (if t ≥ p.delta then _ else _),
        ih (t - p.delta) (if t ≥ p.delta then (0 : ℚ) + _ else _)]
      split_ifs <;> ring

/-- The time a cycle has consumed after local time `t`, phase by phase: a full
phase counts `delta * rate`, the phase that holds `t` counts its share. -/
theorem weightLoop_cons (tw : Tween) (p : Phase) (rest : List Phase) (t : ℚ) (ht : 0 < t) :
    t + weightLoop tw (p :: rest) t 0 =
      if t ≥ p.delta then
        p.delta * (tw.delta * (p.weight / tw.weight) / p.delta)
          + ((t - p.delta) + weightLoop tw rest (t - p.delta) 0)
      else t * (tw.delta * (p.weight / tw.weight) / p.delta) := by
  have hn : ¬ (t ≤ 0) := not_le.mpr ht
  simp only [weightLoop, hn, if_false]
  by_cases hge : t ≥ p.delta
  · simp only [hge, if_true]
    rw [weightLoop_add]
    ring
  · simp only [hge, if_false]
    rw [weightLoop_of_nonpos tw rest (t - p.delta) _ (by linarith [not_le.mp hge])]
    ring

theorem rate_pos (tw : Tween) (p : Phase) (hD : 0 < tw.delta) (hW : 0 < tw.weight)
    (hp : 0 < p.delta ∧ 0 < p.weight) :
    0 < tw.delta * (p.weight / tw.weight) / p.delta :=
  div_pos (mul_pos hD (div_pos hp.2 hW)) hp.1

theorem weightLoop_nonneg (tw : Tween) (hD : 0 < tw.delta) (hW : 0 < tw.weight) :
    ∀ (ps : List Phase), (∀ p ∈ ps, 0 < p.delta ∧ 0 < p.weight) →
      ∀ t : ℚ, 0 ≤ t → 0 ≤ t + weightLoop tw ps t 0 := by
  intro ps
  induction ps with
  | nil => intro _ t ht; simpa [weightLoop] using ht
  | cons p rest ih =>
    intro hp t ht
    rcases eq_or_lt_of_le ht with h0 | hpos
    · rw [← h0, weightLoop_of_nonpos tw _ 0 0 (le_refl 0)]
      norm_num
    · have hr := rate_pos tw p hD hW (hp p (List.mem_cons_self _ _))
      have hpd := (hp p (List.mem_cons_self _ _)).1
      rw [weightLoop_cons tw p rest t hpos]
      split_ifs with hge
      · have := ih (fun q hq => hp q (List.mem_cons_of_mem _ hq)) (t - p.delta) (by linarith)
        have := mul_pos hpd hr
        linarith
      · exact le_of_lt (mul_pos hpos hr)

theorem weightLoop_mono (tw : Tween) (hD : 0 < tw.delta) (hW : 0 < tw.weight) :
    ∀ (ps : List Phase), (∀ p ∈ ps, 0 < p.delta ∧ 0 < p.weight) →
      ∀ t1 t2 : ℚ, 0 ≤ t1 → t1 ≤ t2 →
        t1 + weightLoop tw ps t1 0 ≤ t2 + weightLoop tw ps t2 0 := by
  intro ps
  induction ps with
  | nil => intro _ t1 t2 _ h12; simpa [weightLoop] using h12
  | cons p rest ih =>
    intro hp t1 t2 ht1 h12
    have hp2 := fun q hq => hp q (List.mem_cons_of_mem p hq)
    rcases eq_or_lt_of_le ht1 with h0 | hpos
    · rw [← h0, weightLoop_of_nonpos tw _ 0 0 (le_refl 0)]
      have := weightLoop_nonneg tw hD hW (p :: rest) hp t2 (le_trans ht1 h12)
      linarith
    · have hr := rate_pos tw p hD hW (hp p (List.mem_cons_self _ _))
      have hpd := (hp p (List.mem_cons_self _ _)).1
      rw [weightLoop_cons tw p rest t1 hpos, weightLoop_cons tw p rest t2 (lt_of_lt_of_le hpos h12)]
      by_cases hge1 : t1 ≥ p.delta
      · have hge2 : t2 ≥ p.delta := le_trans hge1 h12
        simp only [hge1, hge2, if_true]
        have := ih hp2 (t1 - p.delta) (t2 - p.delta) (by linarith) (by linarith)
        linarith
      · by_cases hge2 : t2 ≥ p.delta
        · simp only [hge1, hge2, if_true, if_false]
          have h1 := weightLoop_nonneg tw hD hW rest hp2 (t2 - p.delta) (by linarith)
          have h2 : t1 * (tw.delta * (p.weight / tw.weight) / p.delta)
              ≤ p.delta * (tw.delta * (p.weight / tw.weight) / p.delta) :=
            mul_le_mul_of_nonneg_right (le_of_lt (not_le.mp hge1)) (le_of_lt hr)
          linarith
        · simp only [hge1, hge2, if_false]
          exact mul_le_mul_of_nonneg_right h12 (le_of_lt hr)

theorem weightLoop_le (tw : Tween) (hD : 0 < tw.delta) (hW : 0 < tw.weight) :
    ∀ (ps : List Phase), (∀ p ∈ ps, 0 < p.delta ∧ 0 < p.weight) →
      ∀ t : ℚ, 0 ≤ t → t ≤ (ps.map Phase.delta).sum →
        t + weightLoop tw ps t 0 ≤ tw.delta / tw.weight * (ps.map Phase.weight).sum := by
  intro ps
  induction ps with
  | nil =>
    intro _ t ht hts
    simp at hts
    simp [weightLoop]
    linarith
  | cons p rest ih =>
    intro hp t ht hts
    have hp2 := fun q hq => hp q (List.mem_cons_of_mem p hq)
    have hpd := (hp p (List.mem_cons_self _ _)).1
    have hr := rate_pos tw p hD hW (hp p (List.mem_cons_self _ _))
    have hsw := sum_weight_nonneg rest hp2
    have hdw : 0 < tw.delta / tw.weight := div_pos hD hW
    have hfull : p.delta * (tw.delta * (p.weight / tw.weight) / p.delta)
        = tw.delta / tw.weight * p.weight := by
      field_simp
      ring
    simp only [List.map_cons, List.sum_cons] at hts ⊢
    have hrest : 0 ≤ tw.delta / tw.weight * (rest.map Phase.weight).sum :=
      mul_nonneg (le_of_lt hdw) hsw
    rcases eq_or_lt_of_le ht with h0 | hpos
    · rw [← h0, weightLoop_of_nonpos tw _ 0 0 (le_refl 0)]
      have := mul_pos hdw (hp p (List.mem_cons_self _ _)).2
      rw [mul_add]
      linarith
    · rw [weightLoop_cons tw p rest t hpos, mul_add, ← hfull]
      split_ifs with hge
      · have := ih hp2 (t - p.delta) (by linarith) (by linarith)
        linarith
      · have h2 : t * (tw.delta * (p.weight / tw.weight) / p.delta)
            ≤ p.delta * (tw.delta * (p.weight / tw.weight) / p.delta) :=
          mul_le_mul_of_nonneg_right (le_of_lt (not_le.mp hge)) (le_of_lt hr)
        linarith


theorem phases_ne_nil (tw : Tween) (hw : tw.wellFormed) : tw.phases ≠ [] := by
  intro hnil
  obtain ⟨hD, _, hs, _⟩ := hw
  rw [hnil] at hs
  simp at hs
  linarith

theorem warpedTime_bounds (h : Host) (tw : Tween) (hw : tw.wellFormed)
    (he : ∀ p ∈ tw.phases, h.easesUp p) (x : ℚ) (hx : 0 ≤ x) :
    (⌊x / tw.delta⌋ : ℚ) * tw.delta ≤ warpedTime h tw x ∧
      warpedTime h tw x ≤ ((⌊x / tw.delta⌋ : ℚ) + 1) * tw.delta := by
  obtain ⟨hD, hp, hs, _⟩ := hw
  obtain ⟨f1, f2, _, f4, f5⟩ := fmod_of_nonneg x tw.delta hx hD
  have hne := phases_ne_nil tw ⟨hD, hp, hs, by assumption⟩
  obtain ⟨l, u⟩ := warpLoop_bounds h tw.phases hp he (fmod x tw.delta)
    ((toInt (x / tw.delta) : ℚ) * tw.delta) x f4 (by rw [hs]; exact le_of_lt f5) hne
  rw [hs, f1] at u
  rw [f1] at l
  unfold warpedTime
  rw [f1]
  constructor
  · exact l
  · linarith

theorem warpedTime_mono (h : Host) (tw : Tween) (hw : tw.wellFormed)
    (he : ∀ p ∈ tw.phases, h.easesUp p) (x y : ℚ) (hx : 0 ≤ x) (hxy : x ≤ y) :
    warpedTime h tw x ≤ warpedTime h tw y := by
  have hD := hw.1
  refine mono_of_cycle tw.delta hD (warpedTime h tw) (warpedTime_bounds h tw hw he) ?_ x y hx hxy
  intro a b ha hab hk
  obtain ⟨_, hp, hs, _⟩ := hw
  obtain ⟨a1, a2, _, a4, _⟩ := fmod_of_nonneg a tw.delta ha hD
  obtain ⟨b1, b2, _, _, b5⟩ := fmod_of_nonneg b tw.delta (le_trans ha hab) hD
  have hne := phases_ne_nil tw ⟨hD, hp, hs, by assumption⟩
  unfold warpedTime
  rw [a1, b1, hk]
  apply warpLoop_mono h tw.phases hp he _ _ _ _ _ a4 _ (by rw [hs]; exact le_of_lt b5) hne
  rw [a2, b2, hk]
  linarith

theorem weightedTime_bounds (tw : Tween) (hw : tw.wellFormed) (x : ℚ) (hx : 0 ≤ x) :
    (⌊x / tw.delta⌋ : ℚ) * tw.delta ≤ weightedTime tw x ∧
      weightedTime tw x ≤ ((⌊x / tw.delta⌋ : ℚ) + 1) * tw.delta := by
  obtain ⟨hD, hp, hs, hsw⟩ := hw
  have hne := phases_ne_nil tw ⟨hD, hp, hs, hsw⟩
  have hW : 0 < tw.weight := by
    rw [← hsw]
    cases hph : tw.phases with
    | nil => exact absurd hph hne
    | cons p rest =>
      rw [hph] at hp
      have h1 := (hp p (List.mem_cons_self _ _)).2
      have h2 := sum_weight_nonneg rest (fun q hq => hp q (List.mem_cons_of_mem _ hq))
      simp only [List.map_cons, List.sum_cons]
      linarith
  obtain ⟨_, f2, _, f4, f5⟩ := fmod_of_nonneg x tw.delta hx hD
  have l := weightLoop_nonneg tw hD hW tw.phases hp (fmod x tw.delta) f4
  have u := weightLoop_le tw hD hW tw.phases hp (fmod x tw.delta) f4
    (by rw [hs]; exact le_of_lt f5)
  rw [hsw, div_mul_cancel₀ _ (ne_of_gt hW)] at u
  unfold weightedTime
  rw [weightLoop_add]
  constructor <;> linarith

theorem weightedTime_mono (tw : Tween) (hw : tw.wellFormed) (x y : ℚ) (hx : 0 ≤ x)
    (hxy : x ≤ y) : weightedTime tw x ≤ weightedTime tw y := by
  have hD := hw.1
  refine mono_of_cycle tw.delta hD (weightedTime tw) (weightedTime_bounds tw hw) ?_ x y hx hxy
  intro a b ha hab hk
  obtain ⟨_, hp, hs, hsw⟩ := hw
  have hne := phases_ne_nil tw ⟨hD, hp, hs, hsw⟩
  have hW : 0 < tw.weight := by
    rw [← hsw]
    cases hph : tw.phases with
    | nil => exact absurd hph hne
    | cons p rest =>
      rw [hph] at hp
      have h1 := (hp p (List.mem_cons_self _ _)).2
      have h2 := sum_weight_nonneg rest (fun q hq => hp q (List.mem_cons_of_mem _ hq))
      simp only [List.map_cons, List.sum_cons]
      linarith
  obtain ⟨_, a2, _, a4, _⟩ := fmod_of_nonneg a tw.delta ha hD
  obtain ⟨_, b2, _, _, _⟩ := fmod_of_nonneg b tw.delta (le_trans ha hab) hD
  have hm := weightLoop_mono tw hD hW tw.phases hp (fmod a tw.delta) (fmod b tw.delta) a4
    (by rw [a2, b2, hk]; linarith)
  unfold weightedTime
  rw [weightLoop_add tw _ _ a, weightLoop_add tw _ _ b]
  rw [a2, b2, hk] at hm
  rw [a2, b2, hk]
  linarith

theorem tweenTime_nonneg (h : Host) (tw : Tween) (hw : tw.wellFormed)
    (he : ∀ p ∈ tw.phases, h.easesUp p) (x : ℚ) (hx : 0 ≤ x) :
    0 ≤ warpedTime h tw x ∧ 0 ≤ weightedTime tw (warpedTime h tw x) := by
  have hD := hw.1
  have k0 : ∀ z : ℚ, 0 ≤ z → (0 : ℚ) ≤ (⌊z / tw.delta⌋ : ℚ) * tw.delta := by
    intro z hz
    have : (0 : ℚ) ≤ (⌊z / tw.delta⌋ : ℚ) := by
      exact_mod_cast Int.floor_nonneg.mpr (div_nonneg hz (le_of_lt hD))
    exact mul_nonneg this (le_of_lt hD)
  have h1 : 0 ≤ warpedTime h tw x := le_trans (k0 x hx) (warpedTime_bounds h tw hw he x hx).1
  exact ⟨h1, le_trans (k0 _ h1) (weightedTime_bounds tw hw _ h1).1⟩

theorem stat_get_index_pos_elapsed (s : Stat) (hne : s.get_index ≠ 0) : 0 < s.elapsed - s.delay := by
  by_contra hc
  apply hne
  have hle : s.elapsed - s.delay ≤ 0 := not_lt.mp hc
  unfold Stat.get_index
  rcases eq_or_lt_of_le hle with h0 | hlt
  · simp [h0, toInt]
  · simp [hlt, toInt]

theorem fishStat_get_index_mono (h : Host) (s : FishStat) (elapsed1 elapsed2 : ℚ)
    (hr : 0 < s.ratio) (hw : s.tween.wellFormed) (he : ∀ p ∈ s.tween.phases, h.easesUp p)
    (h12 : elapsed1 ≤ elapsed2) :
    FishStat.get_index h { s with elapsed := elapsed1 }
      ≤ FishStat.get_index h { s with elapsed := elapsed2 } := by
  have hD : s.tween.delta ≠ 0 := ne_of_gt hw.1
  have hnn : ∀ e : ℚ, 0 ≤ FishStat.get_index h { s with elapsed := e } := by
    intro e
    rw [fishStat_get_index_eq]
    split_ifs with hc
    · exact stat_get_index_nonneg _ (le_of_lt hr)
    · have hne : ({ s with elapsed := e } : FishStat).toStat.get_index ≠ 0 := fun h0 => hc (Or.inl h0)
      have hpos := stat_get_index_pos_elapsed _ hne
      exact toInt_nonneg (mul_nonneg
        (tweenTime_nonneg h s.tween hw he _ (le_of_lt hpos)).2 (le_of_lt hr))
  by_cases hb : ({ s with elapsed := elapsed1 } : FishStat).toStat.get_index = 0
  · have e1 : FishStat.get_index h { s with elapsed := elapsed1 } = 0 := by
      rw [fishStat_get_index_eq, if_pos (Or.inl hb)]
      exact hb
    rw [e1]
    exact hnn elapsed2
  · have hpos1 : 0 < elapsed1 - s.delay := stat_get_index_pos_elapsed _ hb
    have hpos2 : 0 < elapsed2 - s.delay := by linarith
    have hb2 : ({ s with elapsed := elapsed2 } : FishStat).toStat.get_index ≠ 0 := by
      have hm : ({ s with elapsed := elapsed1 } : FishStat).toStat.get_index
          ≤ ({ s with elapsed := elapsed2 } : FishStat).toStat.get_index := by
        have n1 : ¬ (elapsed1 - s.delay < 0) := not_lt.mpr (le_of_lt hpos1)
        have n2 : ¬ (elapsed2 - s.delay < 0) := not_lt.mpr (le_of_lt hpos2)
        simp only [Stat.get_index, n1, n2, if_false]
        exact toInt_mono (mul_nonneg (le_of_lt hpos1) (le_of_lt hr))
          (mul_le_mul_of_nonneg_right (by linarith) (le_of_lt hr))
      have hn1 := stat_get_index_nonneg ({ s with elapsed := elapsed1 } : FishStat).toStat
        (le_of_lt hr)
      omega
    have c1 : ¬ (({ s with elapsed := elapsed1 } : FishStat).toStat.get_index = 0
        ∨ s.tween.delta = 0) := by
      rintro (hc | hc)
      · exact hb hc
      · exact hD hc
    have c2 : ¬ (({ s with elapsed := elapsed2 } : FishStat).toStat.get_index = 0
        ∨ s.tween.delta = 0) := by
      rintro (hc | hc)
      · exact hb2 hc
      · exact hD hc
    rw [fishStat_get_index_eq, fishStat_get_index_eq, if_neg c1, if_neg c2]
    have w1 := tweenTime_nonneg h s.tween hw he (elapsed1 - s.delay) (le_of_lt hpos1)
    have hwm := warpedTime_mono h s.tween hw he (elapsed1 - s.delay) (elapsed2 - s.delay)
      (le_of_lt hpos1) (by linarith)
    have hgm := weightedTime_mono s.tween hw _ _ w1.1 hwm
    exact toInt_mono (mul_nonneg w1.2 (le_of_lt hr))
      (mul_le_mul_of_nonneg_right hgm (le_of_lt hr))


theorem tweenFish_wellFormed (e : ℚ) : (tweenFish e).tween.wellFormed := by
  refine ⟨by norm_num [tweenFish], ?_, by norm_num [tweenFish], by norm_num [tweenFish]⟩
  intro p hp
  simp only [tweenFish, List.mem_cons, List.mem_singleton, List.not_mem_nil, or_false] at hp
  rcases hp with rfl | rfl <;> norm_num

theorem tweenFish_easesUp (e : ℚ) : ∀ p ∈ (tweenFish e).tween.phases, linearHost.easesUp p := by
  intro p hp b
  simp only [tweenFish, List.mem_cons, List.mem_singleton, List.not_mem_nil, or_false] at hp
  rcases hp with rfl | rfl
  · refine ⟨by norm_num [linearHost], by norm_num [linearHost]; ring, ?_⟩
    intro t1 t2 _ h12 _
    simp only [linearHost]
    linarith
  · refine ⟨by norm_num [linearHost], by norm_num [linearHost]; ring, ?_⟩
    intro t1 t2 _ h12 _
    simp only [linearHost]
    linarith

theorem tweenFish_get_index_mono :
    FishStat.get_index linearHost { tweenFish 0 with elapsed := 3 / 10 }
      ≤ FishStat.get_index linearHost { tweenFish 0 with elapsed := 5 / 2 } :=
  fishStat_get_index_mono linearHost (tweenFish 0) (3 / 10) (5 / 2) (by norm_num [tweenFish])
    (tweenFish_wellFormed 0) (tweenFish_easesUp 0) (by norm_num)

/-! ## The evaluator against section 4.2 -/

theorem stat_update_of_activated (s : Stat) (sp : OSprite) (ha : s.activated = true) :
    s.update sp = ⟨true, s, sp, false⟩ := by
  simp [Stat.update, ha]

theorem stat_update_fade (s : Stat) (sp : OSprite) (ha : s.activated = false)
    (he : s.delay ≤ s.elapsed) (hh : s.hidden = true) (ho : sp.opacity < 1) :
    (s.update sp).stat = s ∧
      (s.update sp).sprite.opacity = min (sp.opacity + 1 / 120) 1 := by
  have hmin : min (sp.opacity + 1 / 120) 1
      = if sp.opacity + 1 / 120 > 1 then 1 else sp.opacity + 1 / 120 := by
    split_ifs with hc
    · exact min_eq_right (le_of_lt hc)
    · exact min_eq_left (not_lt.mp hc)
  rw [hmin]
  unfold Stat.update
  by_cases hact : sp.active = true
  · simp [ha, he, hh, ho, hact]
  · simp [ha, he, hh, ho, hact]

theorem stat_update_activate (s : Stat) (sp : OSprite) (ha : s.activated = false)
    (he : s.delay ≤ s.elapsed) (hc : s.hidden = false ∨ 1 ≤ sp.opacity) :
    (s.update sp).stat = { s with activated := true } ∧
      (s.update sp).sprite.opacity = sp.opacity := by
  have hn : ¬ (s.hidden = true ∧ sp.opacity < 1) := by
    rintro ⟨h1, h2⟩
    rcases hc with hc | hc
    · rw [hc] at h1
      exact Bool.false_ne_true h1
    · linarith
  unfold Stat.update
  by_cases hact : sp.active = true
  · simp [ha, he, hact, hn]
  · simp [ha, he, hact, hn]

/-- The state of a fade after `k` calls: the opacity is `min (k / 120) 1`, and the
actor is activated only once the opacity is 1. -/
theorem stat_updates_fade (delay : ℚ) :
    ∀ (es : List ℚ) (s : Stat) (sp : OSprite) (k : ℕ),
      s.hidden = true → s.delay = delay → sp.opacity = min ((k : ℚ) / 120) 1 →
      (s.activated = true → 120 ≤ k) → (∀ e ∈ es, delay ≤ e) →
      (s.updates sp es).2.opacity = min (((k + es.length : ℕ) : ℚ) / 120) 1 := by
  intro es
  induction es with
  | nil => intro s sp k _ _ ho _ _; simpa [Stat.updates] using ho
  | cons e es ih =>
    intro s sp k hh hd ho ha he
    have hstep : ((k + (e :: es).length : ℕ) : ℚ) = ((k + 1 + es.length : ℕ) : ℚ) := by
      simp only [List.length_cons]
      push_cast
      ring
    rw [hstep]
    simp only [Stat.updates]
    have he0 : delay ≤ e := he e (List.mem_cons_self _ _)
    have hes : ∀ x ∈ es, delay ≤ x := fun x hx => he x (List.mem_cons_of_mem _ hx)
    by_cases hact : s.activated = true
    · have hk := ha hact
      have hk1 : (1 : ℚ) ≤ (k : ℚ) / 120 := by
        rw [le_div_iff₀ (by norm_num)]
        exact_mod_cast (by omega : 1 * 120 ≤ k)
      rw [stat_update_of_activated ({ s with elapsed := e } : Stat) sp hact]
      apply ih { s with elapsed := e } sp (k + 1) hh hd _ (fun _ => by omega) hes
      rw [ho, min_eq_right hk1, min_eq_right]
      push_cast
      linarith
    · have hact0 : ({ s with elapsed := e } : Stat).activated = false := by simpa using hact
      have hel : ({ s with elapsed := e } : Stat).delay ≤ ({ s with elapsed := e } : Stat).elapsed := by
        show s.delay ≤ e
        rw [hd]
        exact he0
      by_cases hlt : k < 120
      · have hk1 : (k : ℚ) / 120 < 1 := by
          rw [div_lt_iff₀ (by norm_num)]
          exact_mod_cast (by omega : k < 1 * 120)
        have hop : sp.opacity < 1 := by
          rw [ho, min_eq_left (le_of_lt hk1)]
          exact hk1
        obtain ⟨u1, u2⟩ := stat_update_fade _ sp hact0 hel hh hop
        apply ih _ _ (k + 1) (by rw [u1]; exact hh) (by rw [u1]; exact hd) _ _ hes
        · rw [u2, ho, min_eq_left (le_of_lt hk1)]
          push_cast
          congr 1
          ring
        · intro hc
          rw [u1] at hc
          exact absurd hc (by simpa using hact)
      · have hk1 : (1 : ℚ) ≤ (k : ℚ) / 120 := by
          rw [le_div_iff₀ (by norm_num)]
          exact_mod_cast (by omega : 1 * 120 ≤ k)
        have hop : 1 ≤ sp.opacity := by
          rw [ho, min_eq_right hk1]
        obtain ⟨u1, u2⟩ := stat_update_activate _ sp hact0 hel (Or.inr hop)
        apply ih _ _ (k + 1) (by rw [u1]; exact hh) (by rw [u1]; exact hd) _ (fun _ => by omega) hes
        rw [u2, ho, min_eq_right hk1, min_eq_right]
        push_cast
        linarith

/-- C11: for an actor with `hidden = true`, not yet activated, whose sprite has
opacity 0 (as `init()` leaves it), and calls of `Stat::update()` that all find
`elapsed >= delay`, the opacity after `k` calls is `min (k / 120) 1`: it is never
above 1, it never decreases, and it is 1 exactly from the 120th call on. -/
theorem fade_in_opacity (s : Stat) (sp : OSprite) (es : List ℚ) (hh : s.hidden = true)
    (ha : s.activated = false) (ho : sp.opacity = 0) (he : ∀ e ∈ es, s.delay ≤ e) :
    (s.updates sp es).2.opacity = min ((es.length : ℚ) / 120) 1 ∧
    (s.updates sp es).2.opacity ≤ 1 ∧
    (∀ j : ℕ, (s.updates sp (es.take j)).2.opacity ≤ (s.updates sp es).2.opacity) ∧
    ((s.updates sp es).2.opacity = 1 ↔ 120 ≤ es.length) := by
  have key : ∀ l : List ℚ, (∀ e ∈ l, s.delay ≤ e) →
      (s.updates sp l).2.opacity = min ((l.length : ℚ) / 120) 1 := by
    intro l hl
    have h0 := stat_updates_fade s.delay l s sp 0 hh rfl (by rw [ho]; norm_num)
      (fun hc => by rw [ha] at hc; exact absurd hc Bool.false_ne_true) hl
    simpa using h0
  have hf := key es he
  refine ⟨hf, by rw [hf]; exact min_le_right _ _, ?_, ?_⟩
  · intro j
    rw [hf, key (es.take j) (fun e hm => he e (List.mem_of_mem_take hm))]
    apply min_le_min_right
    apply div_le_div_of_nonneg_right _ (by norm_num)
    have hl : (es.take j).length ≤ es.length := by
      rw [List.length_take]
      exact min_le_right _ _
    exact_mod_cast hl
  · rw [hf]
    constructor
    · intro h1
      have h2 : (1 : ℚ) ≤ (es.length : ℚ) / 120 := by
        by_contra hc
        rw [min_eq_left (le_of_lt (not_le.mp hc))] at h1
        exact hc (le_of_eq h1.symm)
      rw [le_div_iff₀ (by norm_num)] at h2
      exact_mod_cast (by linarith : (120 : ℚ) ≤ (es.length : ℚ))
    · intro h1
      apply min_eq_right
      rw [le_div_iff₀ (by norm_num)]
      have : (120 : ℚ) ≤ (es.length : ℚ) := by exact_mod_cast h1
      linarith

theorem fade_in_opacity_witness :
    ((fadeGroup 1).toStat.updates hiddenSprite [0, 1 / 60]).2.opacity
      = min ((([0, 1 / 60] : List ℚ).length : ℚ) / 120) 1 :=
  (fade_in_opacity (fadeGroup 1).toStat hiddenSprite [0, 1 / 60] rfl rfl rfl
    (by
      intro e he
      simp only [List.mem_cons, List.mem_singleton, List.not_mem_nil, or_false] at he
      rcases he with rfl | rfl <;> norm_num [fadeGroup])).1

/-- C12 (amended): for an actor that is not yet activated and has
`elapsed >= delay`: if `hidden` is false, a single `update()` sets
`activated = true`; if `hidden` is true, an `update()` that finds the opacity
below 1 raises it by `1/120` (at most to 1) and leaves `activated` false, also
when the opacity reaches 1 in that call, and an `update()` that finds the opacity
at 1 or above sets `activated = true`. -/
theorem activation_call (s : Stat) (sp : OSprite) (ha : s.activated = false)
    (he : s.delay ≤ s.elapsed) :
    (s.hidden = false → (s.update sp).stat.activated = true) ∧
    (s.hidden = true → sp.opacity < 1 →
      (s.update sp).stat.activated = false ∧
        (s.update sp).sprite.opacity = min (sp.opacity + 1 / 120) 1) ∧
    (s.hidden = true → 1 ≤ sp.opacity →
      (s.update sp).stat.activated = true ∧ (s.update sp).sprite.opacity = sp.opacity) := by
  refine ⟨?_, ?_, ?_⟩
  · intro hh
    rw [(stat_update_activate s sp ha he (Or.inl hh)).1]
  · intro hh ho
    obtain ⟨u1, u2⟩ := stat_update_fade s sp ha he hh ho
    rw [u1]
    exact ⟨ha, u2⟩
  · intro _ ho
    obtain ⟨u1, u2⟩ := stat_update_activate s sp ha he (Or.inr ho)
    rw [u1]
    exact ⟨rfl, u2⟩

theorem activation_call_witness :
    ((fadeGroup 1).toStat.update fadeSprite).stat.activated = false ∧
      ((fadeGroup 1).toStat.update fadeSprite).sprite.opacity
        = min (fadeSprite.opacity + 1 / 120) 1 :=
  (activation_call (fadeGroup 1).toStat fadeSprite rfl (by norm_num [fadeGroup])).2.1 rfl
    (by norm_num [fadeSprite])

/-- C12 (as stated) fails: a hidden actor whose sprite is half a fade step short
of full opacity reaches opacity 1 in this `update()` and is still not activated
after it; the next `update()` activates it. -/
theorem activation_call_counterexample :
    (fadeGroup 1).toStat.activated = false ∧
    (fadeGroup 1).toStat.delay ≤ (fadeGroup 1).toStat.elapsed ∧
    fadeSprite.opacity < 1 ∧
    ((fadeGroup 1).toStat.update fadeSprite).sprite.opacity = 1 ∧
    ((fadeGroup 1).toStat.update fadeSprite).stat.activated = false ∧
    ((((fadeGroup 1).toStat.update fadeSprite).stat).update
      ((fadeGroup 1).toStat.update fadeSprite).sprite).stat.activated = true := by
  have hlt : fadeSprite.opacity < 1 := by norm_num [fadeSprite]
  have hel : (fadeGroup 1).toStat.delay ≤ (fadeGroup 1).toStat.elapsed := by
    norm_num [fadeGroup]
  obtain ⟨u1, u2⟩ := stat_update_fade (fadeGroup 1).toStat fadeSprite rfl hel rfl hlt
  have ho : ((fadeGroup 1).toStat.update fadeSprite).sprite.opacity = 1 := by
    rw [u2]
    norm_num [fadeSprite]
  refine ⟨rfl, hel, hlt, ho, by rw [u1]; rfl, ?_⟩
  rw [u1]
  rw [(stat_update_activate (fadeGroup 1).toStat _ rfl hel (Or.inr (le_of_eq ho.symm))).1]

/-! ## Bringing an angle back into range -/

theorem subLoop_spec (d : ℚ) :
    subLoop d < PI ∧ (d < PI → subLoop d = d) ∧ (PI ≤ d → -PI ≤ subLoop d) ∧
      ∃ k : ℕ, subLoop d = d - (k : ℚ) * (PI * 2) := by
  induction d using subLoop.induct with
  | case1 x hx ih =>
    obtain ⟨i1, i2, i3, k, i4⟩ := ih
    have e : subLoop x = subLoop (x - PI * 2) := by
      rw [subLoop, if_pos hx]
    rw [e]
    refine ⟨i1, fun hlt => absurd hx (not_le.mpr hlt), ?_, k + 1, ?_⟩
    · intro _
      by_cases hy : x - PI * 2 < PI
      · rw [i2 hy]
        linarith
      · exact i3 (not_lt.mp hy)
    · rw [i4]
      push_cast
      ring
  | case2 x hx =>
    have e : subLoop x = x := by
      rw [subLoop, if_neg hx]
    rw [e]
    exact ⟨not_le.mp hx, fun _ => rfl, fun h => absurd h hx, 0, by simp⟩

theorem addLoop_spec (d : ℚ) :
    -PI < addLoop d ∧ (-PI < d → addLoop d = d) ∧ (d ≤ -PI → addLoop d ≤ PI) ∧
      ∃ k : ℕ, addLoop d = d + (k : ℚ) * (PI * 2) := by
  induction d using addLoop.induct with
  | case1 x hx ih =>
    obtain ⟨i1, i2, i3, k, i4⟩ := ih
    have e : addLoop x = addLoop (x + PI * 2) := by
      rw [addLoop, if_pos hx]
    rw [e]
    refine ⟨i1, fun hlt => absurd hx (not_le.mpr hlt), ?_, k + 1, ?_⟩
    · intro _
      by_cases hy : -PI < x + PI * 2
      · rw [i2 hy]
        linarith
      · exact i3 (not_lt.mp hy)
    · rw [i4]
      push_cast
      ring
  | case2 x hx =>
    have e : addLoop x = x := by
      rw [addLoop, if_neg hx]
    rw [e]
    exact ⟨not_le.mp hx, fun _ => rfl, fun h => absurd h hx, 0, by simp⟩

theorem normRot_spec (d : ℚ) :
    -PI < normRot d ∧ normRot d ≤ PI ∧ ∃ k : Int, normRot d = d + (k : ℚ) * (PI * 2) := by
  obtain ⟨s1, _, _, ks, s4⟩ := subLoop_spec d
  obtain ⟨a1, a2, a3, ka, a4⟩ := addLoop_spec (subLoop d)
  refine ⟨a1, ?_, (ka : Int) - (ks : Int), ?_⟩
  · by_cases hs : -PI < subLoop d
    · show addLoop (subLoop d) ≤ PI
      rw [a2 hs]
      exact le_of_lt s1
    · exact a3 (not_lt.mp hs)
  · show addLoop (subLoop d) = _
    rw [a4, s4]
    push_cast
    ring

/-- C13: for every value of `rot - fish_rot` the two normalisation loops end (both
are total functions) and leave `diff_rot` in `(-PI, PI]`, moved by a whole number
of turns; the directional and the group actor both turn by `smoothRot`, which
runs these two loops. -/
theorem normalisation_range (diff_rot rot fish_rot : ℚ) :
    (-PI < addLoop (subLoop diff_rot) ∧ addLoop (subLoop diff_rot) ≤ PI) ∧
    (∃ k : Int, addLoop (subLoop diff_rot) = diff_rot + (k : ℚ) * (PI * 2)) ∧
    smoothRot rot fish_rot = fish_rot + addLoop (subLoop (rot - fish_rot)) / 8 := by
  obtain ⟨n1, n2, n3⟩ := normRot_spec diff_rot
  exact ⟨⟨n1, n2⟩, n3, rfl⟩

theorem clearLoop_stuck (stat : AnyStat) (rest : List AnyStat) :
    ∀ (fuel : Nat) (deleted : List AnyStat),
      clearLoop fuel (stat :: rest) deleted = (false, deleted ++ List.replicate fuel stat) := by
  intro fuel
  induction fuel with
  | zero => intro deleted; simp [clearLoop]
  | succ n ih =>
    intro deleted
    rw [clearLoop, ih, List.replicate_succ, List.append_assoc]
    rfl

/-- C14 (the code at the failing input): on an empty registry `clear()` ends at
once and leaves it empty; on a non-empty registry the loop never moves `E`, so
after any number of iterations it has not ended and has handed the first state
to `memdelete` once per iteration. -/
theorem clear_never_ends (fuel : Nat) (stat : AnyStat) (rest : List AnyStat) :
    clear fuel [] = some ([], []) ∧
    clearLoop fuel (stat :: rest) [] = (false, List.replicate fuel stat) ∧
    clear fuel (stat :: rest) = none := by
  have h := clearLoop_stuck stat rest fuel []
  rw [List.nil_append] at h
  refine ⟨?_, h, ?_⟩
  · cases fuel <;> rfl
  · simp only [clear, h]

/-! ## Looking up, removing and seeking -/

theorem get_stat_none (f : ObjectID) :
    ∀ fishs : List AnyStat, (∀ e ∈ fishs, e.base.fish ≠ f) → _get_stat fishs f = none := by
  intro fishs
  induction fishs with
  | nil => intro _; rfl
  | cons a rest ih =>
    intro hn
    have h1 : a.base.fish ≠ f := hn a (List.mem_cons_self _ _)
    simp only [_get_stat, h1, if_false, ih (fun e he => hn e (List.mem_cons_of_mem _ he))]
    rfl

theorem get_stat_first (f : ObjectID) (e : AnyStat) (post : List AnyStat)
    (hf : e.base.fish = f) :
    ∀ pre : List AnyStat, (∀ x ∈ pre, x.base.fish ≠ f) →
      _get_stat (pre ++ e :: post) f = some (pre.length, e) := by
  intro pre
  induction pre with
  | nil => intro _; simp [_get_stat, hf]
  | cons a rest ih =>
    intro hn
    have h1 : a.base.fish ≠ f := hn a (List.mem_cons_self _ _)
    rw [List.cons_append, _get_stat, if_neg h1, ih (fun x hx => hn x (List.mem_cons_of_mem _ hx))]
    rfl

/-- A list either holds no state of the fish, or splits at the first one. -/
theorem split_first (f : ObjectID) :
    ∀ fishs : List AnyStat, (∀ e ∈ fishs, e.base.fish ≠ f) ∨
      ∃ pre e post, fishs = pre ++ e :: post ∧ (∀ x ∈ pre, x.base.fish ≠ f) ∧ e.base.fish = f := by
  intro fishs
  induction fishs with
  | nil => exact Or.inl (fun _ he => absurd he (List.not_mem_nil _))
  | cons a rest ih =>
    by_cases ha : a.base.fish = f
    · exact Or.inr ⟨[], a, rest, rfl, fun _ hx => absurd hx (List.not_mem_nil _), ha⟩
    · rcases ih with hn | ⟨pre, e, post, h1, h2, h3⟩
      · left
        intro x hx
        rcases List.mem_cons.mp hx with rfl | hx
        · exact ha
        · exact hn x hx
      · right
        refine ⟨a :: pre, e, post, by rw [h1]; rfl, ?_, h3⟩
        intro x hx
        rcases List.mem_cons.mp hx with rfl | hx
        · exact ha
        · exact h2 x hx

theorem remove_fish_none (f : ObjectID) :
    ∀ fishs : List AnyStat, (∀ e ∈ fishs, e.base.fish ≠ f) →
      remove_fish fishs f = (false, fishs) := by
  intro fishs
  induction fishs with
  | nil => intro _; rfl
  | cons a rest ih =>
    intro hn
    have h1 : a.base.fish ≠ f := hn a (List.mem_cons_self _ _)
    simp only [remove_fish, h1, if_false, ih (fun e he => hn e (List.mem_cons_of_mem _ he))]

theorem remove_fish_first (f : ObjectID) (e : AnyStat) (post : List AnyStat)
    (hf : e.base.fish = f) :
    ∀ pre : List AnyStat, (∀ x ∈ pre, x.base.fish ≠ f) →
      remove_fish (pre ++ e :: post) f = (true, pre ++ post) := by
  intro pre
  induction pre with
  | nil => intro _; simp [remove_fish, hf]
  | cons a rest ih =>
    intro hn
    have h1 : a.base.fish ≠ f := hn a (List.mem_cons_self _ _)
    rw [List.cons_append, remove_fish, if_neg h1,
      ih (fun x hx => hn x (List.mem_cons_of_mem _ hx))]
    rfl

/-- C16 (amended): `remove_fish` returns true exactly when some entry has that
fish; on true the first such entry is erased and every other entry is kept in
its original order, and when the fish had no other entry the lookup of the same
handle fails afterwards; on false the registry is unchanged. -/
theorem remove_fish_first_match (fishs : List AnyStat) (p_fish : ObjectID) :
    ((remove_fish fishs p_fish).1 = true ↔ ∃ e ∈ fishs, e.base.fish = p_fish) ∧
    ((remove_fish fishs p_fish).1 = false → (remove_fish fishs p_fish).2 = fishs) ∧
    (∀ pre e post, fishs = pre ++ e :: post → (∀ x ∈ pre, x.base.fish ≠ p_fish) →
      e.base.fish = p_fish →
      remove_fish fishs p_fish = (true, pre ++ post) ∧
        ((∀ x ∈ post, x.base.fish ≠ p_fish) → _get_stat (pre ++ post) p_fish = none)) := by
  refine ⟨?_, ?_, ?_⟩
  · rcases split_first p_fish fishs with hn | ⟨pre, e, post, h1, h2, h3⟩
    · rw [remove_fish_none p_fish fishs hn]
      constructor
      · intro hc
        exact absurd hc Bool.false_ne_true
      · rintro ⟨e, he, hf⟩
        exact absurd hf (hn e he)
    · rw [h1, remove_fish_first p_fish e post h3 pre h2]
      exact ⟨fun _ => ⟨e, by simp, h3⟩, fun _ => rfl⟩
  · rcases split_first p_fish fishs with hn | ⟨pre, e, post, h1, h2, h3⟩
    · rw [remove_fish_none p_fish fishs hn]
      exact fun _ => rfl
    · rw [h1, remove_fish_first p_fish e post h3 pre h2]
      intro hc
      exact absurd hc.symm Bool.false_ne_true
  · intro pre e post h1 h2 h3
    rw [h1]
    refine ⟨remove_fish_first p_fish e post h3 pre h2, ?_⟩
    intro h4
    apply get_stat_none
    intro x hx
    rcases List.mem_append.mp hx with hx | hx
    · exact h2 x hx
    · exact h4 x hx

theorem remove_fish_first_match_witness :
    remove_fish [.group (fadeGroup 1), .group (fadeGroup 2)] 2 = (true, [.group (fadeGroup 1)]) ∧
      _get_stat ([AnyStat.group (fadeGroup 1)] ++ []) 2 = none :=
  have hw := (remove_fish_first_match [.group (fadeGroup 1), .group (fadeGroup 2)] 2).2.2
    [.group (fadeGroup 1)] (.group (fadeGroup 2)) [] rfl
    (by
      intro x hx
      simp only [List.mem_singleton] at hx
      subst hx
      decide)
    rfl
  ⟨hw.1, hw.2 (fun _ hx => absurd hx (List.not_mem_nil _))⟩

/-- C16 (as stated) fails when the fish was added twice: `remove_fish` returns
true and erases the first entry only, so an entry of that fish remains and the
lookup of the same handle still succeeds. -/
theorem remove_fish_first_match_counterexample :
    remove_fish [.group (fadeGroup 1), .group (fadeGroup 1)] 1 = (true, [.group (fadeGroup 1)]) ∧
    _get_stat (remove_fish [.group (fadeGroup 1), .group (fadeGroup 1)] 1).2 1
      = some (0, .group (fadeGroup 1)) :=
  ⟨rfl, rfl⟩

theorem anyStat_setElapsed_elapsed (a : AnyStat) (v : ℚ) : (a.setElapsed v).base.elapsed = v := by
  cases a <;> rfl

theorem fishStat_update_handles (h : Host) (s : FishStat) (sp : OSprite) (r : Outcome FishStat)
    (hr : s.update h sp = some r) : r.stat.fish = s.fish ∧ r.stat.sprite = s.sprite := by
  have hs : ∀ x : Stat, (x = s.toStat ∨ x = { s.toStat with activated := true }) →
      x.fish = s.fish ∧ x.sprite = s.sprite := by
    rintro x (rfl | rfl) <;> exact ⟨rfl, rfl⟩
  have hst := hs _ (stat_update_stat s.toStat sp)
  rw [fishStat_update_eq] at hr
  by_cases h1 : s.get_index h ≥ s.pointCount
  · rw [if_pos h1] at hr
    cases hr
    exact hst
  · rw [if_neg h1] at hr
    split at hr
    · cases hr
    · split_ifs at hr <;>
      · cases hr
        exact hst

theorem groupStat_update_handles (h : Host) (s : GroupStat) (sp : OSprite)
    (r : Outcome GroupStat) (hr : s.update h sp = some r) :
    r.stat.fish = s.fish ∧ r.stat.sprite = s.sprite := by
  have hs : ∀ x : Stat, (x = s.toStat ∨ x = { s.toStat with activated := true }) →
      x.fish = s.fish ∧ x.sprite = s.sprite := by
    rintro x (rfl | rfl) <;> exact ⟨rfl, rfl⟩
  have hst := hs _ (stat_update_stat s.toStat sp)
  rw [groupStat_update_eq] at hr
  by_cases h1 : s.toStat.get_index ≥ s.pointCount
  · rw [if_pos h1] at hr
    cases hr
    exact hst
  · rw [if_neg h1] at hr
    split at hr
    · cases hr
    · split_ifs at hr <;>
      · cases hr
        exact hst

/-- An `update()` leaves the handles of the state as they were. -/
theorem anyStat_update_handles (h : Host) (a : AnyStat) (sp : OSprite) (r : Outcome AnyStat)
    (hr : a.update h sp = some r) :
    r.stat.base.fish = a.base.fish ∧ r.stat.base.sprite = a.base.sprite := by
  cases a with
  | fish s =>
    obtain ⟨r0, hr0, rfl⟩ := Option.map_eq_some'.mp hr
    exact fishStat_update_handles h s sp r0 hr0
  | group s =>
    obtain ⟨r0, hr0, rfl⟩ := Option.map_eq_some'.mp hr
    exact groupStat_update_handles h s sp r0 hr0

theorem seek_none (h : Host) (w : World) (fishs : List AnyStat) (f : ObjectID) (t : ℚ)
    (hn : ∀ e ∈ fishs, e.base.fish ≠ f) : seek h w fishs f t = some (false, w, fishs) := by
  simp only [seek, get_stat_none f fishs hn]

theorem seek_first (h : Host) (w : World) (f : ObjectID) (t : ℚ) (pre : List AnyStat)
    (e : AnyStat) (post : List AnyStat) (hp : ∀ x ∈ pre, x.base.fish ≠ f)
    (hf : e.base.fish = f) :
    seek h w (pre ++ e :: post) f t =
      ((e.setElapsed t).update h (w.sprites e.base.sprite)).map fun r =>
        (r.ret, w.commit (e.setElapsed t).base r.sprite r.kill, pre ++ r.stat :: post) := by
  simp only [seek, get_stat_first f e post hf pre hp, anyStat_setElapsed_sprite]
  congr 1
  funext r
  simp

/-- C17: when no entry has the fish, `seek` returns false and changes nothing;
otherwise it sets `elapsed` of the first entry of that fish to `p_pos` as it is,
runs the `update()` of that entry once on its sprite and returns its result; the
registry keeps its length and order, the entry stays at its place with the same
handles whatever the result, and the other entries are untouched. -/
theorem seek_first_match (h : Host) (w : World) (fishs : List AnyStat) (p_fish : ObjectID)
    (p_pos : ℚ) :
    ((∀ e ∈ fishs, e.base.fish ≠ p_fish) → seek h w fishs p_fish p_pos = some (false, w, fishs)) ∧
    (∀ pre e post, fishs = pre ++ e :: post → (∀ x ∈ pre, x.base.fish ≠ p_fish) →
      e.base.fish = p_fish →
      (e.setElapsed p_pos).base.elapsed = p_pos ∧
      seek h w fishs p_fish p_pos =
        ((e.setElapsed p_pos).update h (w.sprites e.base.sprite)).map (fun r =>
          (r.ret, w.commit (e.setElapsed p_pos).base r.sprite r.kill, pre ++ r.stat :: post)) ∧
      (∀ r, (e.setElapsed p_pos).update h (w.sprites e.base.sprite) = some r →
        r.stat.base.fish = e.base.fish ∧ r.stat.base.sprite = e.base.sprite)) := by
  refine ⟨seek_none h w fishs p_fish p_pos, ?_⟩
  intro pre e post h1 h2 h3
  refine ⟨anyStat_setElapsed_elapsed e p_pos, ?_, ?_⟩
  · rw [h1]
    exact seek_first h w p_fish p_pos pre e post h2 h3
  · intro r hr
    have hh := anyStat_update_handles h _ _ r hr
    rw [anyStat_setElapsed_fish, anyStat_setElapsed_sprite] at hh
    exact hh

theorem seek_first_match_witness :
    seek linearHost sampleWorld [.fish pendingFish] 5 2
        = some (false, sampleWorld, [.fish pendingFish]) ∧
      ((AnyStat.fish pendingFish).setElapsed (1 / 2)).base.elapsed = 1 / 2 ∧
      seek linearHost sampleWorld ([] ++ AnyStat.fish pendingFish :: []) 1 (1 / 2) =
        (((AnyStat.fish pendingFish).setElapsed (1 / 2)).update linearHost
            (sampleWorld.sprites (AnyStat.fish pendingFish).base.sprite)).map (fun r =>
          (r.ret,
            sampleWorld.commit ((AnyStat.fish pendingFish).setElapsed (1 / 2)).base r.sprite r.kill,
            [] ++ r.stat :: [])) :=
  have hfound := (seek_first_match linearHost sampleWorld
    ([] ++ AnyStat.fish pendingFish :: []) 1 (1 / 2)).2 [] (.fish pendingFish) [] rfl
    (fun _ hx => absurd hx (List.not_mem_nil _)) rfl
  ⟨(seek_first_match linearHost sampleWorld [.fish pendingFish] 5 2).1
      (by
        intro e he
        simp only [List.mem_singleton] at he
        subst he
        decide),
    hfound.1, hfound.2.1⟩

/-! ## The length of a path -/

/-- C18: for the first entry of a registered fish, with `ratio > 0`,
`get_length` is the point count divided by `ratio` as a fraction; three points
and `ratio = 2` give `3/2`; for a fish without entry it is the failure value 0. -/
theorem get_length_value (fishs : List AnyStat) (p_fish : ObjectID) :
    ((∀ e ∈ fishs, e.base.fish ≠ p_fish) → get_length fishs p_fish = 0) ∧
    (∀ pre e post, fishs = pre ++ e :: post → (∀ x ∈ pre, x.base.fish ≠ p_fish) →
      e.base.fish = p_fish → 0 < e.base.ratio →
      get_length fishs p_fish = ((e.base.pointCount : Int) : ℚ) / e.base.ratio) ∧
    get_length [.fish lengthFish] 1 = 3 / 2 := by
  refine ⟨?_, ?_, ?_⟩
  · intro hn
    simp only [get_length, get_stat_none p_fish fishs hn]
  · intro pre e post h1 h2 h3 _
    rw [h1]
    simp only [get_length, get_stat_first p_fish e post h3 pre h2]
    rfl
  · have hg : _get_stat [AnyStat.fish lengthFish] 1 = some (0, .fish lengthFish) := rfl
    have hl : ((AnyStat.fish lengthFish).base.points.length : Int) / 2 = 3 := by decide
    have hr : (AnyStat.fish lengthFish).base.ratio = 2 := rfl
    simp only [get_length, hg, hl, hr]
    norm_num

theorem get_length_value_witness :
    get_length ([] ++ AnyStat.fish lengthFish :: []) 1
      = (((AnyStat.fish lengthFish).base.pointCount : Int) : ℚ)
        / (AnyStat.fish lengthFish).base.ratio :=
  (get_length_value ([] ++ AnyStat.fish lengthFish :: []) 1).2.1 [] (.fish lengthFish) [] rfl
    (fun _ hx => absurd hx (List.not_mem_nil _)) rfl
    (by
      have hr : (AnyStat.fish lengthFish).base.ratio = 2 := rfl
      rw [hr]
      norm_num)

/-! ## Adding an actor -/

theorem fishStat_init_short (h : Host) (s : FishStat) (sp : OSprite) (hs : s.pointCount < 2) :
    s.init h sp = none := by
  have h1 : s.get_point_pos 1 = none := by
    rw [FishStat.get_point_pos, stat_get_point_pos_of_ge s.toStat 1 (by omega)]
    rfl
  unfold FishStat.init
  rw [h1]
  cases s.get_point_pos 0 <;> rfl

theorem groupStat_init_short (h : Host) (s : GroupStat) (sp : OSprite) (hs : s.pointCount < 2)
    (hc : s.center = false) : s.init h sp = none := by
  have h1 : s.toStat.get_point_pos 1 = none := stat_get_point_pos_of_ge s.toStat 1 (by omega)
  unfold GroupStat.init
  rw [h1, hc]
  cases s.toStat.get_point_pos 0 <;> rfl

/-- C15 (the code at the failing input): with live handles and a path of fewer
than two points, `add_fish` (and `add_group_fish` for an actor that does not face
its centre) has already appended the new state to `fishs` when `init()` reads
point 0 or 1 out of range: the registry is not as it was, and no value is
returned. -/
theorem add_short_path (h : Host) (w : World) (fishs : List AnyStat) (fish sprite : ObjectID) :
    (∀ p : FishParams, p.fish = some fish → p.sprite = some sprite →
      (p.points.length : Int) / 2 < 2 →
      add_fish h w fishs p = (fishs ++ [.fish (p.toStat fish sprite)], none)) ∧
    (∀ p : GroupParams, p.fish = some fish → p.sprite = some sprite →
      (p.points.length : Int) / 2 < 2 → p.center = false →
      add_group_fish h w fishs p = (fishs ++ [.group (p.toStat fish sprite)], none)) := by
  constructor
  · intro p hf hs hshort
    have hi := fishStat_init_short h (p.toStat fish sprite) (w.sprites sprite) hshort
    simp only [add_fish, hf, hs, hi]
    rfl
  · intro p hf hs hshort hc
    have hi := groupStat_init_short h (p.toStat fish sprite) (w.sprites sprite) hshort hc
    simp only [add_group_fish, hf, hs, hi]
    rfl

theorem add_short_path_witness :
    add_fish linearHost sampleWorld [.fish pendingFish] shortParams
        = ([.fish pendingFish] ++ [.fish (shortParams.toStat 1 2)], none) ∧
      add_group_fish linearHost sampleWorld [.fish pendingFish] shortGroupParams
        = ([.fish pendingFish] ++ [.group (shortGroupParams.toStat 1 2)], none) :=
  ⟨(add_short_path linearHost sampleWorld [.fish pendingFish] 1 2).1 shortParams rfl rfl
      (by decide),
    (add_short_path linearHost sampleWorld [.fish pendingFish] 1 2).2 shortGroupParams rfl rfl
      (by decide) rfl⟩

theorem add_fish_null (h : Host) (w : World) (fishs : List AnyStat) (p : FishParams)
    (hn : p.fish = none ∨ p.sprite = none) : add_fish h w fishs p = (fishs, some (false, w)) := by
  unfold add_fish
  rcases hn with hn | hn
  · rw [hn]
  · rw [hn]
    cases p.fish <;> rfl

theorem add_fish_long_path (h : Host) (w : World) (fishs : List AnyStat) (p : FishParams)
    (fish sprite : ObjectID) (hf : p.fish = some fish) (hs : p.sprite = some sprite)
    (hlong : 2 ≤ (p.points.length : Int) / 2) :
    ∃ sp : OSprite, add_fish h w fishs p =
      (fishs ++ [.fish (p.toStat fish sprite)],
        some (true, { w with sprites := Function.update w.sprites sprite sp })) := by
  have h0 : ∃ v, (p.toStat fish sprite).get_point_pos 0 = some v := by
    rw [FishStat.get_point_pos, stat_get_point_pos_of_lt _ 0 (le_refl 0)
      (by show (0 : Int) < (p.points.length : Int) / 2; omega)]
    exact ⟨_, rfl⟩
  have h1 : ∃ v, (p.toStat fish sprite).get_point_pos 1 = some v := by
    rw [FishStat.get_point_pos, stat_get_point_pos_of_lt _ 1 (by norm_num)
      (by show (1 : Int) < (p.points.length : Int) / 2; omega)]
    exact ⟨_, rfl⟩
  obtain ⟨v0, e0⟩ := h0
  obtain ⟨v1, e1⟩ := h1
  have hi : ∃ sp, (p.toStat fish sprite).init h (w.sprites sprite) = some (true, sp) := by
    simp only [FishStat.init, e0, e1]
    exact ⟨_, rfl⟩
  obtain ⟨sp, hi⟩ := hi
  refine ⟨sp, ?_⟩
  simp only [add_fish, hf, hs, hi]
  rfl

/-! ## A tween that changes nothing -/

theorem warpLoop_linear (h : Host) :
    ∀ (ps : List Phase), (∀ p ∈ ps, 0 < p.delta ∧ h.easesLinear p) →
      ∀ (t b e : ℚ), b + t = e → warpLoop h ps t b e = e := by
  intro ps
  induction ps with
  | nil => intro _ t b e _; rfl
  | cons p rest ih =>
    intro hp t b e hbt
    obtain ⟨hd, hl⟩ := hp p (List.mem_cons_self _ _)
    by_cases hgt : t > p.delta
    · simp only [warpLoop, hgt, if_true]
      exact ih (fun q hq => hp q (List.mem_cons_of_mem _ hq)) _ _ _ (by linarith)
    · simp only [warpLoop, hgt, if_false]
      have hc : p.delta * t / p.delta = t := by
        field_simp
      rw [hl t b, hc]
      linarith

theorem weightLoop_rate_one (tw : Tween) (hD : tw.delta ≠ 0) :
    ∀ (ps : List Phase),
      (∀ p ∈ ps, 0 < p.delta ∧ p.weight / tw.weight = p.delta / tw.delta) →
      ∀ (t w : ℚ), weightLoop tw ps t w = w := by
  intro ps
  induction ps with
  | nil => intro _ t w; rfl
  | cons p rest ih =>
    intro hp t w
    obtain ⟨hd, hr⟩ := hp p (List.mem_cons_self _ _)
    have hrate : tw.delta * (p.weight / tw.weight) / p.delta = 1 := by
      rw [hr]
      field_simp
    by_cases ht : t ≤ 0
    · simp only [weightLoop, ht, if_true]
    · simp only [weightLoop, ht, if_false, hrate, sub_self, mul_zero, add_zero, ite_self]
      exact ih (fun q hq => hp q (List.mem_cons_of_mem _ hq)) _ _

theorem warpedTime_linear (h : Host) (tw : Tween)
    (hp : ∀ p ∈ tw.phases, 0 < p.delta ∧ h.easesLinear p) (x : ℚ) :
    warpedTime h tw x = x := by
  unfold warpedTime
  apply warpLoop_linear h tw.phases hp
  unfold fmod
  ring

/-- C19: for a directional actor with `ratio >= 0` and a tween with a positive
cycle and positive phase durations whose phases all ease linearly and have a
weight share equal to their time share, the tweened `FishStat::get_index()` is
the untweened `Stat::get_index()`, that is `floor (max (elapsed - delay) 0 * ratio)`;
the warp pass returns `elapsed - delay` unchanged, whatever the phase durations
sum to. -/
theorem get_index_of_neutral_tween (h : Host) (s : FishStat) (hr : 0 ≤ s.ratio)
    (hD : 0 < s.tween.delta)
    (hp : ∀ p ∈ s.tween.phases, 0 < p.delta ∧ h.easesLinear p ∧
      p.weight / s.tween.weight = p.delta / s.tween.delta) :
    s.get_index h = s.toStat.get_index ∧
    s.toStat.get_index = ⌊max (s.elapsed - s.delay) 0 * s.ratio⌋ ∧
    warpedTime h s.tween (s.elapsed - s.delay) = s.elapsed - s.delay := by
  have hw := warpedTime_linear h s.tween (fun p hm => ⟨(hp p hm).1, (hp p hm).2.1⟩)
    (s.elapsed - s.delay)
  refine ⟨?_, stat_get_index_eq_floor s.toStat hr, hw⟩
  rw [fishStat_get_index_eq]
  split_ifs with hc
  · rfl
  · have hne : s.toStat.get_index ≠ 0 := fun h0 => hc (Or.inl h0)
    have hpos := stat_get_index_pos_elapsed s.toStat hne
    have hg : weightedTime s.tween (s.elapsed - s.delay) = s.elapsed - s.delay := by
      unfold weightedTime
      exact weightLoop_rate_one s.tween (ne_of_gt hD) s.tween.phases
        (fun p hm => ⟨(hp p hm).1, (hp p hm).2.2⟩) _ _
    rw [hw, hg]
    have hn : ¬ (s.elapsed - s.delay < 0) := not_lt.mpr (le_of_lt hpos)
    simp only [Stat.get_index, hn, if_false]

theorem get_index_of_neutral_tween_witness :
    FishStat.get_index linearHost neutralFish = neutralFish.toStat.get_index ∧
    neutralFish.toStat.get_index
      = ⌊max (neutralFish.elapsed - neutralFish.delay) 0 * neutralFish.ratio⌋ ∧
    warpedTime linearHost neutralFish.tween (neutralFish.elapsed - neutralFish.delay)
      = neutralFish.elapsed - neutralFish.delay :=
  get_index_of_neutral_tween linearHost neutralFish (by norm_num [neutralFish])
    (by norm_num [neutralFish])
    (by
      intro p hm
      simp only [neutralFish, List.mem_cons, List.mem_singleton, List.not_mem_nil, or_false] at hm
      rcases hm with rfl | rfl
      · refine ⟨by norm_num, ?_, by norm_num [neutralFish]⟩
        intro t b
        rfl
      · refine ⟨by norm_num, ?_, by norm_num [neutralFish]⟩
        intro t b
        rfl)

/-! ## Machine arithmetic: basic facts -/

theorem wrap32_of_range (i : Int) (h0 : -2 ^ 31 ≤ i) (h1 : i < 2 ^ 31) : wrap32 i = i := by
  unfold wrap32
  omega

theorem toInt32_of_range (x : ℚ) (h0 : 0 ≤ x) (h1 : x < 2 ^ 31) : toInt32 x = ⌊x⌋ := by
  have hf0 : (0 : Int) ≤ ⌊x⌋ := Int.floor_nonneg.mpr h0
  have hf1 : ⌊x⌋ < (2 : Int) ^ 31 := Int.floor_lt.mpr (by exact_mod_cast h1)
  unfold toInt32
  rw [toInt_of_nonneg h0]
  dsimp only
  rw [if_pos ⟨by omega, hf1⟩]

theorem roundEven_nonneg (m : ℚ) (hm : 0 ≤ m) : 0 ≤ roundEven m := by
  have hf : (0 : Int) ≤ ⌊m⌋ := Int.floor_nonneg.mpr hm
  unfold roundEven
  dsimp only
  split_ifs <;> omega

theorem roundBin_nonneg (p : Nat) (emin : Int) (x : ℚ) (hx : 0 ≤ x) : 0 ≤ roundBin p emin x := by
  unfold roundBin
  by_cases h0 : x = 0
  · rw [if_pos h0]
  · rw [if_neg h0]
    have hn : ¬ x < 0 := not_lt.mpr hx
    simp only [hn, if_false, one_mul]
    have hq : (0 : ℚ) < 2 ^ (max (ilog2 x) emin - ((p : Int) - 1)) := zpow_pos (by norm_num) _
    apply mul_nonneg _ (le_of_lt hq)
    exact_mod_cast roundEven_nonneg _ (div_nonneg hx (le_of_lt hq))

theorem exact_regular : Arith.exact.regular :=
  ⟨fun _ hx => hx, fun _ hx _ => toInt_of_nonneg hx, fun _ _ _ => rfl⟩

theorem f32_regular : Arith.f32.regular :=
  ⟨fun x hx => roundBin_nonneg 24 (-126) x hx, toInt32_of_range, wrap32_of_range⟩

/-! ## Machine arithmetic: the progress index without tween -/

theorem arith_get_index_eq_floor (ar : Arith) (hreg : ar.regular) (s : Stat) (hr : 0 ≤ s.ratio)
    (hb : ar.rnd (max (ar.rnd (s.elapsed - s.delay)) 0 * s.ratio) < 2 ^ 31) :
    ar.get_index s = ⌊ar.rnd (max (ar.rnd (s.elapsed - s.delay)) 0 * s.ratio)⌋ := by
  have he : (if ar.rnd (s.elapsed - s.delay) < 0 then 0 else ar.rnd (s.elapsed - s.delay))
      = max (ar.rnd (s.elapsed - s.delay)) 0 := by
    split_ifs with hlt
    · exact (max_eq_right (le_of_lt hlt)).symm
    · exact (max_eq_left (not_lt.mp hlt)).symm
  unfold Arith.get_index
  dsimp only
  rw [he]
  exact hreg.2.1 _ (hreg.1 _ (mul_nonneg (le_max_right _ _) hr)) hb

theorem arith_any_get_index_of_no_tween (ar : Arith) (h : Host) (a : AnyStat)
    (ht : ∀ s : FishStat, a = .fish s → s.tween.delta = 0) :
    ar.any_get_index h a = ar.get_index a.base := by
  cases a with
  | fish s =>
    have h0 : s.tween.delta = 0 := ht s rfl
    simp only [Arith.any_get_index, AnyStat.base, Arith.fish_get_index, h0, or_true, if_true]
  | group s => rfl

/-! ## Machine arithmetic: decoding path points -/

theorem arith_get_point_pos_of_lt (ar : Arith) (hreg : ar.regular) (s : Stat) (index : Int)
    (hlen : (s.points.length : Int) < 2 ^ 31) (h0 : 0 ≤ index) (h1 : index < s.pointCount) :
    ar.get_point_pos s index =
      some ⟨ar.rnd (ar.rnd (s.points.getD (index * 2).toNat 0 : Int) * ar.rnd (ar.rnd64 (1 / 100))),
        ar.rnd (ar.rnd (s.points.getD (index * 2 + 1).toNat 0 : Int)
          * ar.rnd (ar.rnd64 (1 / 100)))⟩ := by
  unfold Stat.pointCount at h1
  have hx : index * 2 < s.points.length := by omega
  have hy : index * 2 + 1 < s.points.length := by omega
  have wx : ar.wrap (index * 2) = index * 2 := hreg.2.2 _ (by omega) (by omega)
  have wy : ar.wrap (index * 2 + 1) = index * 2 + 1 := hreg.2.2 _ (by omega) (by omega)
  unfold Arith.get_point_pos
  rw [wx, wy, vecGet_of_lt _ _ (by omega : 0 ≤ index * 2) hx,
    vecGet_of_lt _ _ (by omega : 0 ≤ index * 2 + 1) hy]

theorem arith_fish_pathIndex_range (ar : Arith) (hreg : ar.regular) (s : FishStat) (i : Int)
    (hlen : (s.points.length : Int) < 2 ^ 31) (h0 : 0 ≤ i) (h1 : i < s.pointCount) :
    0 ≤ ar.fish_pathIndex s i ∧ ar.fish_pathIndex s i < s.pointCount := by
  unfold Arith.fish_pathIndex
  have hp : s.pointCount < 2 ^ 31 := by
    unfold Stat.pointCount
    omega
  split_ifs
  · rw [hreg.2.2 _ (by omega) (by omega)]
    omega
  · exact ⟨h0, h1⟩

/-! ## Machine arithmetic: the shape of `update()` -/

theorem arith_update_ret (ar : Arith) (s : Stat) (sp : OSprite) : (ar.update s sp).ret = true := by
  unfold Arith.update
  dsimp only
  split_ifs <;> rfl

theorem arith_update_stat (ar : Arith) (s : Stat) (sp : OSprite) :
    (ar.update s sp).stat = s ∨ (ar.update s sp).stat = { s with activated := true } := by
  unfold Arith.update
  dsimp only
  split_ifs <;> simp

theorem arith_update_pos (ar : Arith) (s : Stat) (sp : OSprite) :
    (ar.update s sp).sprite.pos = sp.pos := by
  unfold Arith.update
  dsimp only
  split_ifs <;> rfl

theorem arith_update_rot (ar : Arith) (s : Stat) (sp : OSprite) :
    (ar.update s sp).sprite.rot = sp.rot := by
  unfold Arith.update
  dsimp only
  split_ifs <;> rfl

theorem arith_fish_get_index_update (ar : Arith) (h : Host) (s : FishStat) (sp : OSprite) :
    ar.fish_get_index h ({ s with toStat := (ar.update s.toStat sp).stat } : FishStat)
      = ar.fish_get_index h s := by
  rcases arith_update_stat ar s.toStat sp with e | e
  · rw [e]
  · rw [e]
    rfl

theorem arith_pointCount_update (ar : Arith) (s : Stat) (sp : OSprite) :
    (ar.update s sp).stat.pointCount = s.pointCount := by
  rcases arith_update_stat ar s sp with e | e
  · rw [e]
  · rw [e]
    rfl

theorem arith_fish_pathIndex_update (ar : Arith) (s : FishStat) (sp : OSprite) (i : Int) :
    ar.fish_pathIndex ({ s with toStat := (ar.update s.toStat sp).stat } : FishStat) i
      = ar.fish_pathIndex s i := by
  rcases arith_update_stat ar s.toStat sp with e | e
  · rw [e]
  · rw [e]
    rfl

theorem arith_fish_get_point_pos_update (ar : Arith) (s : FishStat) (sp : OSprite) (i : Int) :
    ar.fish_get_point_pos ({ s with toStat := (ar.update s.toStat sp).stat } : FishStat) i
      = ar.fish_get_point_pos s i := by
  rcases arith_update_stat ar s.toStat sp with e | e
  · rw [e]
  · rw [e]
    rfl

theorem arith_get_index_update (ar : Arith) (s : Stat) (sp : OSprite) :
    ar.get_index (ar.update s sp).stat = ar.get_index s := by
  rcases arith_update_stat ar s sp with e | e
  · rw [e]
  · rw [e]
    rfl

theorem arith_get_point_pos_update (ar : Arith) (s : Stat) (sp : OSprite) (i : Int) :
    ar.get_point_pos (ar.update s sp).stat i = ar.get_point_pos s i := by
  rcases arith_update_stat ar s sp with e | e
  · rw [e]
  · rw [e]
    rfl

/-- The method `FishStat::update`, operation by operation, in terms of the state
before the call. -/
theorem arith_fish_update_eq (ar : Arith) (h : Host) (s : FishStat) (sp : OSprite) :
    ar.fish_update h s sp =
      if ar.fish_get_index h s ≥ s.pointCount then
        some ⟨false, { s with toStat := (ar.update s.toStat sp).stat },
          (ar.update s.toStat sp).sprite, true⟩
      else
        match ar.fish_get_point_pos s (ar.fish_pathIndex s (ar.fish_get_index h s)) with
        | none => none
        | some pos =>
          if sp.pos = pos then
            some ⟨true, { s with toStat := (ar.update s.toStat sp).stat },
              (ar.update s.toStat sp).sprite, false⟩
          else
            some ⟨true, { s with toStat := (ar.update s.toStat sp).stat },
              { (ar.update s.toStat sp).sprite with
                pos := pos, rot := ar.smooth (h.angle_to_point sp.pos pos) sp.rot }, false⟩ := by
  unfold Arith.fish_update
  simp only [arith_update_ret, Bool.not_true, Bool.false_eq_true, if_false,
    arith_fish_get_index_update, arith_pointCount_update, arith_fish_get_point_pos_update,
    arith_fish_pathIndex_update, arith_update_pos, arith_update_rot]

/-- The method `GroupStat::update`, operation by operation, in terms of the state
before the call. -/
theorem arith_group_update_eq (ar : Arith) (h : Host) (s : GroupStat) (sp : OSprite) :
    ar.group_update h s sp =
      if ar.get_index s.toStat ≥ s.pointCount then
        some ⟨false, { s with toStat := (ar.update s.toStat sp).stat },
          (ar.update s.toStat sp).sprite, true⟩
      else
        match ar.get_point_pos s.toStat (ar.get_index s.toStat) with
        | none => none
        | some pos =>
          if sp.pos = pos then
            some ⟨true, { s with toStat := (ar.update s.toStat sp).stat },
              (ar.update s.toStat sp).sprite, false⟩
          else if s.center && decide (ar.get_index s.toStat < s.center_index) then
            some ⟨true, { s with toStat := (ar.update s.toStat sp).stat },
              { (ar.update s.toStat sp).sprite with
                pos := pos, rot := h.angle_to_point pos s.center_pos }, false⟩
          else
            some ⟨true, { s with toStat := (ar.update s.toStat sp).stat },
              { (ar.update s.toStat sp).sprite with
                pos := pos, rot := ar.smooth (h.angle_to_point sp.pos pos) sp.rot }, false⟩ := by
  unfold Arith.group_update
  simp only [arith_update_ret, Bool.not_true, Bool.false_eq_true, if_false,
    arith_get_index_update, arith_pointCount_update, arith_get_point_pos_update,
    arith_update_pos, arith_update_rot]

theorem arith_fish_update_of_ge (ar : Arith) (h : Host) (s : FishStat) (sp : OSprite)
    (hge : ar.fish_get_index h s ≥ s.pointCount) :
    (ar.fish_update h s sp).map (fun r => (r.ret, r.kill)) = some (false, true) := by
  rw [arith_fish_update_eq, if_pos hge]
  rfl

theorem arith_group_update_of_ge (ar : Arith) (h : Host) (s : GroupStat) (sp : OSprite)
    (hge : ar.get_index s.toStat ≥ s.pointCount) :
    (ar.group_update h s sp).map (fun r => (r.ret, r.kill)) = some (false, true) := by
  rw [arith_group_update_eq, if_pos hge]
  rfl

theorem arith_fish_update_of_lt (ar : Arith) (h : Host) (s : FishStat) (sp : OSprite)
    (r : Outcome FishStat) (hlt : ar.fish_get_index h s < s.pointCount)
    (hu : ar.fish_update h s sp = some r) : r.ret = true ∧ r.kill = false := by
  rw [arith_fish_update_eq, if_neg (not_le.mpr hlt)] at hu
  split at hu
  · cases hu
  · split_ifs at hu <;> cases hu <;> exact ⟨rfl, rfl⟩

theorem arith_group_update_of_lt (ar : Arith) (h : Host) (s : GroupStat) (sp : OSprite)
    (r : Outcome GroupStat) (hlt : ar.get_index s.toStat < s.pointCount)
    (hu : ar.group_update h s sp = some r) : r.ret = true ∧ r.kill = false := by
  rw [arith_group_update_eq, if_neg (not_le.mpr hlt)] at hu
  split at hu
  · cases hu
  · split_ifs at hu <;> cases hu <;> exact ⟨rfl, rfl⟩

theorem arith_fish_update_some_of_range (ar : Arith) (hreg : ar.regular) (h : Host)
    (s : FishStat) (sp : OSprite) (hlen : (s.points.length : Int) < 2 ^ 31)
    (h0 : 0 ≤ ar.fish_get_index h s) (h1 : ar.fish_get_index h s < s.pointCount) :
    ∃ r, ar.fish_update h s sp = some r ∧ r.ret = true ∧ r.kill = false ∧
      ar.fish_get_point_pos s (ar.fish_pathIndex s (ar.fish_get_index h s))
        = some r.sprite.pos := by
  rw [arith_fish_update_eq]
  have hge : ¬ (ar.fish_get_index h s ≥ s.pointCount) := not_le.mpr h1
  obtain ⟨r0, r1⟩ := arith_fish_pathIndex_range ar hreg s _ hlen h0 h1
  obtain ⟨pos, hq⟩ : ∃ pos,
      ar.fish_get_point_pos s (ar.fish_pathIndex s (ar.fish_get_index h s)) = some pos :=
    ⟨_, by rw [Arith.fish_get_point_pos, arith_get_point_pos_of_lt ar hreg _ _ hlen r0 r1]; rfl⟩
  simp only [hge, if_false, hq]
  by_cases hpos : sp.pos = pos
  · rw [if_pos hpos]
    exact ⟨_, rfl, rfl, rfl, by simp [arith_update_pos, hpos]⟩
  · rw [if_neg hpos]
    exact ⟨_, rfl, rfl, rfl, rfl⟩

theorem arith_group_update_some_of_range (ar : Arith) (hreg : ar.regular) (h : Host)
    (s : GroupStat) (sp : OSprite) (hlen : (s.points.length : Int) < 2 ^ 31)
    (h0 : 0 ≤ ar.get_index s.toStat) (h1 : ar.get_index s.toStat < s.pointCount) :
    ∃ r, ar.group_update h s sp = some r ∧ r.ret = true ∧ r.kill = false ∧
      ar.get_point_pos s.toStat (ar.get_index s.toStat) = some r.sprite.pos := by
  rw [arith_group_update_eq]
  have hge : ¬ (ar.get_index s.toStat ≥ s.pointCount) := not_le.mpr h1
  obtain ⟨pos, hq⟩ : ∃ pos, ar.get_point_pos s.toStat (ar.get_index s.toStat) = some pos :=
    ⟨_, arith_get_point_pos_of_lt ar hreg _ _ hlen h0 h1⟩
  simp only [hge, if_false, hq]
  by_cases hpos : sp.pos = pos
  · rw [if_pos hpos]
    exact ⟨_, rfl, rfl, rfl, by simp [arith_update_pos, hpos]⟩
  · rw [if_neg hpos]
    by_cases hc : (s.center && decide (ar.get_index s.toStat < s.center_index)) = true
    · rw [if_pos hc]
      exact ⟨_, rfl, rfl, rfl, rfl⟩
    · rw [if_neg hc]
      exact ⟨_, rfl, rfl, rfl, rfl⟩

theorem arith_any_update_of_ge (ar : Arith) (h : Host) (a : AnyStat) (sp : OSprite)
    (hge : ar.any_get_index h a ≥ a.base.pointCount) :
    (ar.any_update h a sp).map (fun r => (r.ret, r.kill)) = some (false, true) := by
  cases a with
  | fish s =>
    simp only [Arith.any_update, Option.map_map]
    exact arith_fish_update_of_ge ar h s sp hge
  | group s =>
    simp only [Arith.any_update, Option.map_map]
    exact arith_group_update_of_ge ar h s sp hge

theorem arith_any_update_of_lt (ar : Arith) (h : Host) (a : AnyStat) (sp : OSprite)
    (r : Outcome AnyStat) (hlt : ar.any_get_index h a < a.base.pointCount)
    (hu : ar.any_update h a sp = some r) : r.ret = true ∧ r.kill = false := by
  cases a with
  | fish s =>
    obtain ⟨r0, hr0, e⟩ := Option.map_eq_some'.mp hu
    subst e
    exact arith_fish_update_of_lt ar h s sp r0 hlt hr0
  | group s =>
    obtain ⟨r0, hr0, e⟩ := Option.map_eq_some'.mp hu
    subst e
    exact arith_group_update_of_lt ar h s sp r0 hlt hr0

theorem arith_any_update_some_of_range (ar : Arith) (hreg : ar.regular) (h : Host)
    (a : AnyStat) (sp : OSprite) (hlen : (a.base.points.length : Int) < 2 ^ 31)
    (h0 : 0 ≤ ar.any_get_index h a) (h1 : ar.any_get_index h a < a.base.pointCount) :
    ∃ r, ar.any_update h a sp = some r ∧ r.ret = true ∧ r.kill = false ∧
      ar.any_get_point_pos a (ar.pathIndex h a) = some r.sprite.pos := by
  cases a with
  | fish s =>
    obtain ⟨r, hr, h2, h3, h4⟩ := arith_fish_update_some_of_range ar hreg h s sp hlen h0 h1
    exact ⟨⟨r.ret, .fish r.stat, r.sprite, r.kill⟩, by simp [Arith.any_update, hr], h2, h3, h4⟩
  | group s =>
    obtain ⟨r, hr, h2, h3, h4⟩ := arith_group_update_some_of_range ar hreg h s sp hlen h0 h1
    exact ⟨⟨r.ret, .group r.stat, r.sprite, r.kill⟩, by simp [Arith.any_update, hr], h2, h3, h4⟩

theorem arith_pathIndex_range (ar : Arith) (hreg : ar.regular) (h : Host) (a : AnyStat)
    (hlen : (a.base.points.length : Int) < 2 ^ 31)
    (h0 : 0 ≤ ar.any_get_index h a) (h1 : ar.any_get_index h a < a.base.pointCount) :
    0 ≤ ar.pathIndex h a ∧ ar.pathIndex h a < a.base.pointCount := by
  cases a with
  | fish s => exact arith_fish_pathIndex_range ar hreg s _ hlen h0 h1
  | group s => exact ⟨h0, h1⟩

/-! ## Machine arithmetic: the exact instance -/

theorem arith_exact_warpLoop (h : Host) (ps : List Phase) :
    ∀ t b e : ℚ, Arith.exact.warpLoop h ps t b e = warpLoop h ps t b e := by
  induction ps with
  | nil => intro t b e; rfl
  | cons p rest ih =>
    intro t b e
    simp only [Arith.warpLoop, warpLoop]
    split_ifs
    · exact ih _ _ _
    · rfl

theorem arith_exact_weightLoop (tween : Tween) (ps : List Phase) :
    ∀ t e : ℚ, Arith.exact.weightLoop tween ps t e = weightLoop tween ps t e := by
  induction ps with
  | nil => intro t e; rfl
  | cons p rest ih =>
    intro t e
    simp only [Arith.weightLoop, weightLoop]
    split_ifs
    · rfl
    · exact ih _ _
    · exact ih _ _

theorem arith_exact_fish_get_index (h : Host) (s : FishStat) :
    Arith.exact.fish_get_index h s = s.get_index h := by
  unfold Arith.fish_get_index FishStat.get_index
  simp only [arith_exact_warpLoop, arith_exact_weightLoop]
  rfl

theorem arith_exact_fish_update (h : Host) (s : FishStat) (sp : OSprite) :
    Arith.exact.fish_update h s sp = s.update h sp := by
  unfold Arith.fish_update FishStat.update
  simp only [arith_exact_fish_get_index]
  rfl

/-- In exact arithmetic the operation-by-operation methods are the methods of the
exact embedding. -/
theorem arith_exact_any (h : Host) (a : AnyStat) (sp : OSprite) :
    Arith.exact.any_get_index h a = a.get_index h ∧
    Arith.exact.any_update h a sp = a.update h sp ∧
    Arith.exact.pathIndex h a = a.pathIndex h ∧
    ∀ i, Arith.exact.any_get_point_pos a i = a.get_point_pos i := by
  cases a with
  | fish s =>
    refine ⟨arith_exact_fish_get_index h s, ?_, ?_, fun _ => rfl⟩
    · simp only [Arith.any_update, AnyStat.update, arith_exact_fish_update]
    · simp only [Arith.pathIndex, AnyStat.pathIndex, arith_exact_fish_get_index]
      rfl
  | group s => exact ⟨rfl, rfl, rfl, fun _ => rfl⟩

/-! ## Machine arithmetic: the claims -/

/-- C2 (amended): operation by operation, in any regular arithmetic (that of the
program included) and for a vector whose size fits an `int`, `update()` of a
directional or a group actor returns false and sends `kill("fadeout")` when
`get_index() >= points.size() / 2`; with `0 <= get_index() < points.size() / 2`
it returns true and sends nothing; and whenever it returns, it has returned false
and sent the request exactly when `get_index() >= points.size() / 2`, and has
returned true and sent nothing exactly when not. -/
theorem update_finished_iff (ar : Arith) (hreg : ar.regular) (h : Host) (a : AnyStat)
    (sp : OSprite) (hlen : (a.base.points.length : Int) < 2 ^ 31) :
    (ar.any_get_index h a ≥ a.base.pointCount →
      (ar.any_update h a sp).map (fun r => (r.ret, r.kill)) = some (false, true)) ∧
    (0 ≤ ar.any_get_index h a → ar.any_get_index h a < a.base.pointCount →
      (ar.any_update h a sp).map (fun r => (r.ret, r.kill)) = some (true, false)) ∧
    (∀ r, ar.any_update h a sp = some r →
      ((r.ret = false ∧ r.kill = true) ↔ ar.any_get_index h a ≥ a.base.pointCount) ∧
      ((r.ret = true ∧ r.kill = false) ↔ ar.any_get_index h a < a.base.pointCount)) := by
  refine ⟨arith_any_update_of_ge ar h a sp, ?_, ?_⟩
  · intro h0 h1
    obtain ⟨r, hr, h2, h3, _⟩ := arith_any_update_some_of_range ar hreg h a sp hlen h0 h1
    rw [hr, Option.map_some', h2, h3]
  · intro r hu
    by_cases hge : ar.any_get_index h a ≥ a.base.pointCount
    · have hk := arith_any_update_of_ge ar h a sp hge
      rw [hu, Option.map_some', Option.some.injEq, Prod.mk.injEq] at hk
      constructor
      · exact ⟨fun _ => hge, fun _ => hk⟩
      · constructor
        · intro ⟨e, _⟩
          rw [hk.1] at e
          cases e
        · intro hlt
          exact absurd hge (not_le.mpr hlt)
    · have hlt : ar.any_get_index h a < a.base.pointCount := not_le.mp hge
      obtain ⟨e1, e2⟩ := arith_any_update_of_lt ar h a sp r hlt hu
      constructor
      · constructor
        · intro ⟨e, _⟩
          rw [e1] at e
          cases e
        · intro hge2
          exact absurd hge2 hge
      · exact ⟨fun _ => hlt, fun _ => ⟨e1, e2⟩⟩

theorem update_finished_iff_witness :
    (Arith.f32.any_update Arith.f32.linearHost (.fish roundedFish) sampleSprite).map
      (fun r => (r.ret, r.kill)) = some (true, false) :=
  (update_finished_iff Arith.f32 f32_regular Arith.f32.linearHost (.fish roundedFish)
    sampleSprite (by decide)).2.1 (by decide!) (by decide!)

/-- C2 (as stated) fails inside the domain of the specification. A directional
actor with `ratio = 60`, 5 seconds into a tween of cycle 10 whose one phase eases
with the engine's `back::in`, has the index `-52`, below its point count 600, and
`update()` does not return true: the read of point `-52` is out of range. This is
so in the arithmetic of the program and in exact arithmetic. With the linear
easing and a well-formed tween the same happens in the arithmetic of the program
once `int(elapsed_time / tween.delta)` is out of range: at `elapsed = 1e10` with
`ratio = 1 / 2` the index is `-1073741824`. -/
theorem update_finished_iff_counterexample :
    0 < backFish.ratio ∧
    Arith.f32.any_get_index Arith.f32.backInHost (.fish backFish) = -52 ∧
    (AnyStat.fish backFish).base.pointCount = 600 ∧
    Arith.f32.any_update Arith.f32.backInHost (.fish backFish) sampleSprite = none ∧
    AnyStat.get_index Arith.exact.backInHost (.fish backFish) = -52 ∧
    AnyStat.update Arith.exact.backInHost (.fish backFish) sampleSprite = none ∧
    0 < lateTweenFish.ratio ∧ lateTweenFish.tween.wellFormed ∧
    Arith.f32.any_get_index Arith.f32.linearHost (.fish lateTweenFish) = -1073741824 ∧
    (AnyStat.fish lateTweenFish).base.pointCount = 2 ∧
    Arith.f32.any_update Arith.f32.linearHost (.fish lateTweenFish) sampleSprite = none := by
  unfold Tween.wellFormed
  decide!

/-- C3 (amended): for a directional actor whose `tween.delta` is 0 and for a group
actor, with `ratio >= 0`, `get_index()`, operation by operation in any regular
arithmetic (that of the program included), is the floor of the rounded product
`rnd (max (rnd (elapsed - delay)) 0 * ratio)` when that is below `2 ^ 31`; it is
the floor of `max (elapsed - delay) 0 * ratio` when the difference and the
product are kept without rounding. -/
theorem get_index_eq_floor_of_no_tween (ar : Arith) (hreg : ar.regular) (h : Host) (a : AnyStat)
    (hr : 0 ≤ a.base.ratio) (ht : ∀ s : FishStat, a = .fish s → s.tween.delta = 0)
    (hb : ar.rnd (max (ar.rnd (a.base.elapsed - a.base.delay)) 0 * a.base.ratio) < 2 ^ 31) :
    ar.any_get_index h a
      = ⌊ar.rnd (max (ar.rnd (a.base.elapsed - a.base.delay)) 0 * a.base.ratio)⌋ ∧
    (ar.rnd (a.base.elapsed - a.base.delay) = a.base.elapsed - a.base.delay →
      ar.rnd (max (a.base.elapsed - a.base.delay) 0 * a.base.ratio)
        = max (a.base.elapsed - a.base.delay) 0 * a.base.ratio →
      ar.any_get_index h a = ⌊max (a.base.elapsed - a.base.delay) 0 * a.base.ratio⌋) := by
  have e := arith_get_index_eq_floor ar hreg a.base hr hb
  rw [← arith_any_get_index_of_no_tween ar h a ht] at e
  refine ⟨e, ?_⟩
  intro e1 e2
  rw [e, e1, e2]

theorem get_index_eq_floor_of_no_tween_witness :
    Arith.f32.any_get_index Arith.f32.linearHost (.fish roundedFish)
      = ⌊Arith.f32.rnd (max (Arith.f32.rnd ((AnyStat.fish roundedFish).base.elapsed
          - (AnyStat.fish roundedFish).base.delay)) 0 * (AnyStat.fish roundedFish).base.ratio)⌋ :=
  (get_index_eq_floor_of_no_tween Arith.f32 f32_regular Arith.f32.linearHost (.fish roundedFish)
    (by decide!)
    (by
      intro s hs
      cases hs
      rfl)
    (by decide!)).1

/-- C3 (as stated) fails in the arithmetic of the program: after `0.29f` seconds
at `ratio = 100`, without delay and without tween, the `float` product rounds up
to 29 and `get_index()` is 29, while the floor of the product is 28. -/
theorem get_index_eq_floor_of_no_tween_counterexample :
    0 ≤ (AnyStat.fish roundedFish).base.ratio ∧ roundedFish.tween.delta = 0 ∧
    Arith.f32.rnd roundedFish.elapsed = roundedFish.elapsed ∧
    Arith.f32.rnd roundedFish.ratio = roundedFish.ratio ∧
    Arith.f32.any_get_index Arith.f32.linearHost (.fish roundedFish) = 29 ∧
    ⌊max ((AnyStat.fish roundedFish).base.elapsed - (AnyStat.fish roundedFish).base.delay) 0
      * (AnyStat.fish roundedFish).base.ratio⌋ = 28 := by
  decide!

/-- C4 (amended): for a valid index of a vector whose size fits an `int`,
`Stat::get_point_pos`, operation by operation in any regular arithmetic (that of
the program included), is the point of the rounded products of `x = points[2*index]`
and `y = points[2*index+1]`, converted to `float`, with the `float` the literal
`0.01` becomes, and `FishStat::get_point_pos` is `mat.xform`, operation by
operation, of that point; in exact arithmetic these are `(x / 100, y / 100)` and
`mat` applied to it. -/
theorem get_point_pos_decode (ar : Arith) (hreg : ar.regular) (s : FishStat) (index : Int)
    (hlen : (s.points.length : Int) < 2 ^ 31) (h0 : 0 ≤ index)
    (h1 : index < (s.points.length : Int) / 2) :
    ∃ x y : Int,
      s.points.get? (2 * index).toNat = some x ∧
      s.points.get? (2 * index + 1).toNat = some y ∧
      ar.get_point_pos s.toStat index
        = some ⟨ar.rnd (ar.rnd x * ar.rnd (ar.rnd64 (1 / 100))),
            ar.rnd (ar.rnd y * ar.rnd (ar.rnd64 (1 / 100)))⟩ ∧
      ar.fish_get_point_pos s index
        = some (ar.xform s.mat ⟨ar.rnd (ar.rnd x * ar.rnd (ar.rnd64 (1 / 100))),
            ar.rnd (ar.rnd y * ar.rnd (ar.rnd64 (1 / 100)))⟩) ∧
      s.toStat.get_point_pos index = some ⟨(x : ℚ) / 100, (y : ℚ) / 100⟩ ∧
      s.get_point_pos index = some (s.mat.xform ⟨(x : ℚ) / 100, (y : ℚ) / 100⟩) := by
  have hx : (2 * index).toNat < s.points.length := by omega
  have hy : (2 * index + 1).toNat < s.points.length := by omega
  have e1 : index * 2 = 2 * index := by ring
  have hp := stat_get_point_pos_of_lt s.toStat index h0 h1
  have hq := arith_get_point_pos_of_lt ar hreg s.toStat index hlen h0 h1
  refine ⟨s.points[(2 * index).toNat], s.points[(2 * index + 1).toNat], ?_, ?_, ?_, ?_, ?_, ?_⟩
  · simp [List.getElem?_eq_getElem hx]
  · simp [List.getElem?_eq_getElem hy]
  · rw [hq, e1]
    simp [List.getD, List.getElem?_eq_getElem hx, List.getElem?_eq_getElem hy]
  · unfold Arith.fish_get_point_pos
    rw [hq, e1]
    simp [List.getD, List.getElem?_eq_getElem hx, List.getElem?_eq_getElem hy]
  · rw [hp, e1]
    simp [List.getD, List.getElem?_eq_getElem hx, List.getElem?_eq_getElem hy, div_eq_mul_inv]
  · unfold FishStat.get_point_pos
    rw [hp, e1]
    simp [List.getD, List.getElem?_eq_getElem hx, List.getElem?_eq_getElem hy, div_eq_mul_inv]

theorem get_point_pos_decode_witness :
    ∃ x y : Int,
      roundedFish.points.get? (2 * (1 : Int)).toNat = some x ∧
      roundedFish.points.get? (2 * (1 : Int) + 1).toNat = some y ∧
      Arith.f32.get_point_pos roundedFish.toStat 1
        = some ⟨Arith.f32.rnd (Arith.f32.rnd x * Arith.f32.rnd (Arith.f32.rnd64 (1 / 100))),
            Arith.f32.rnd (Arith.f32.rnd y * Arith.f32.rnd (Arith.f32.rnd64 (1 / 100)))⟩ ∧
      Arith.f32.fish_get_point_pos roundedFish 1
        = some (Arith.f32.xform roundedFish.mat
            ⟨Arith.f32.rnd (Arith.f32.rnd x * Arith.f32.rnd (Arith.f32.rnd64 (1 / 100))),
              Arith.f32.rnd (Arith.f32.rnd y * Arith.f32.rnd (Arith.f32.rnd64 (1 / 100)))⟩) ∧
      roundedFish.toStat.get_point_pos 1 = some ⟨(x : ℚ) / 100, (y : ℚ) / 100⟩ ∧
      roundedFish.get_point_pos 1
        = some (roundedFish.mat.xform ⟨(x : ℚ) / 100, (y : ℚ) / 100⟩) :=
  get_point_pos_decode Arith.f32 f32_regular roundedFish 1 (by decide) (by decide) (by decide)

/-- C4 (as stated) fails in the arithmetic of the program: the point whose
integers are 5 and 5 is decoded to `5 * 0.01f` rounded to `float`, which is
`3355443 / 67108864` (0.049999997) and not `5 / 100`; the identity transform
leaves it there. -/
theorem get_point_pos_decode_counterexample :
    (0 : Int) ≤ 0 ∧ (0 : Int) < (roundedFish.points.length : Int) / 2 ∧
    roundedFish.points.get? 0 = some 5 ∧ roundedFish.points.get? 1 = some 5 ∧
    Arith.f32.get_point_pos roundedFish.toStat 0
      = some ⟨3355443 / 67108864, 3355443 / 67108864⟩ ∧
    Arith.f32.fish_get_point_pos roundedFish 0
      = some ⟨3355443 / 67108864, 3355443 / 67108864⟩ ∧
    Arith.f32.get_point_pos roundedFish.toStat 0 ≠ some ⟨5 / 100, 5 / 100⟩ ∧
    Arith.f32.fish_get_point_pos roundedFish 0
      ≠ some (roundedFish.mat.xform ⟨5 / 100, 5 / 100⟩) := by
  decide!

/-- C9 (amended): for a group actor and for a directional actor without tween,
with `ratio > 0`, a vector whose size fits an `int` and the rounded product
`rnd (max (rnd (elapsed - delay)) 0 * ratio)` below `2 ^ 31`, `update()`,
operation by operation in any regular arithmetic (that of the program included),
never fails on an out-of-range read: it returns, and when it reads a point the
index it hands to `get_point_pos` satisfies `0 <= index < points.size() / 2`, the
two subscripts are computed without overflow and `points[2*index]` and
`points[2*index+1]` are inside the vector. -/
theorem update_reads_in_bounds (ar : Arith) (hreg : ar.regular) (h : Host) (a : AnyStat)
    (sp : OSprite) (hlen : (a.base.points.length : Int) < 2 ^ 31)
    (hr : 0 < a.base.ratio) (ht : ∀ s : FishStat, a = .fish s → s.tween.delta = 0)
    (hb : ar.rnd (max (ar.rnd (a.base.elapsed - a.base.delay)) 0 * a.base.ratio) < 2 ^ 31) :
    (∃ r, ar.any_update h a sp = some r) ∧
    (ar.any_get_index h a < a.base.pointCount →
      0 ≤ ar.pathIndex h a ∧ ar.pathIndex h a < (a.base.points.length : Int) / 2 ∧
      ar.wrap (ar.pathIndex h a * 2) = ar.pathIndex h a * 2 ∧
      ar.wrap (ar.wrap (ar.pathIndex h a * 2) + 1) = ar.pathIndex h a * 2 + 1 ∧
      0 ≤ ar.pathIndex h a * 2 ∧ ar.pathIndex h a * 2 + 1 < (a.base.points.length : Int) ∧
      ∃ r, ar.any_update h a sp = some r ∧
        ar.any_get_point_pos a (ar.pathIndex h a) = some r.sprite.pos) := by
  have hi := arith_get_index_eq_floor ar hreg a.base (le_of_lt hr) hb
  rw [← arith_any_get_index_of_no_tween ar h a ht] at hi
  have h0 : 0 ≤ ar.any_get_index h a := by
    rw [hi]
    exact Int.floor_nonneg.mpr (hreg.1 _ (mul_nonneg (le_max_right _ _) (le_of_lt hr)))
  constructor
  · by_cases h1 : ar.any_get_index h a < a.base.pointCount
    · obtain ⟨r, hr1, _⟩ := arith_any_update_some_of_range ar hreg h a sp hlen h0 h1
      exact ⟨r, hr1⟩
    · have hk := arith_any_update_of_ge ar h a sp (not_lt.mp h1)
      cases hu : ar.any_update h a sp with
      | none => simp [hu] at hk
      | some r => exact ⟨r, rfl⟩
  · intro h1
    obtain ⟨r0, r1⟩ := arith_pathIndex_range ar hreg h a hlen h0 h1
    obtain ⟨r, hr1, _, _, hr4⟩ := arith_any_update_some_of_range ar hreg h a sp hlen h0 h1
    have r2 := r1
    unfold Stat.pointCount at r2
    have w1 : ar.wrap (ar.pathIndex h a * 2) = ar.pathIndex h a * 2 :=
      hreg.2.2 _ (by omega) (by omega)
    have w2 : ar.wrap (ar.wrap (ar.pathIndex h a * 2) + 1) = ar.pathIndex h a * 2 + 1 := by
      rw [w1]
      exact hreg.2.2 _ (by omega) (by omega)
    exact ⟨r0, r1, w1, w2, by omega, by omega, r, hr1, hr4⟩

theorem update_reads_in_bounds_witness :
    (∃ r, Arith.f32.any_update Arith.f32.linearHost (.fish reverseFish) sampleSprite = some r) ∧
    (Arith.f32.any_get_index Arith.f32.linearHost (.fish reverseFish)
        < (AnyStat.fish reverseFish).base.pointCount →
      0 ≤ Arith.f32.pathIndex Arith.f32.linearHost (.fish reverseFish) ∧
      Arith.f32.pathIndex Arith.f32.linearHost (.fish reverseFish)
        < ((AnyStat.fish reverseFish).base.points.length : Int) / 2 ∧
      Arith.f32.wrap (Arith.f32.pathIndex Arith.f32.linearHost (.fish reverseFish) * 2)
        = Arith.f32.pathIndex Arith.f32.linearHost (.fish reverseFish) * 2 ∧
      Arith.f32.wrap
          (Arith.f32.wrap (Arith.f32.pathIndex Arith.f32.linearHost (.fish reverseFish) * 2) + 1)
        = Arith.f32.pathIndex Arith.f32.linearHost (.fish reverseFish) * 2 + 1 ∧
      0 ≤ Arith.f32.pathIndex Arith.f32.linearHost (.fish reverseFish) * 2 ∧
      Arith.f32.pathIndex Arith.f32.linearHost (.fish reverseFish) * 2 + 1
        < ((AnyStat.fish reverseFish).base.points.length : Int) ∧
      ∃ r, Arith.f32.any_update Arith.f32.linearHost (.fish reverseFish) sampleSprite = some r ∧
        Arith.f32.any_get_point_pos (.fish reverseFish)
            (Arith.f32.pathIndex Arith.f32.linearHost (.fish reverseFish))
          = some r.sprite.pos) :=
  update_reads_in_bounds Arith.f32 f32_regular Arith.f32.linearHost (.fish reverseFish)
    sampleSprite (by decide) (by decide!)
    (by
      intro s hs
      cases hs
      rfl)
    (by decide!)

/-- C9 (as stated) fails in the arithmetic of the program: a group actor with
`ratio = 1` after `1e10` seconds has a product beyond the range of `int`; the
conversion gives `INT_MIN`, which is below the point count 1, so `update()` goes
on and hands the index `-2147483648` to `get_point_pos` (whose subscripts wrap to
0 and 1, so that the call returns true from the wrong point). -/
theorem update_reads_in_bounds_counterexample :
    0 < (AnyStat.group lateGroup).base.ratio ∧
    Arith.f32.rnd lateGroup.elapsed = lateGroup.elapsed ∧
    Arith.f32.any_get_index Arith.f32.linearHost (.group lateGroup) = -2147483648 ∧
    (AnyStat.group lateGroup).base.pointCount = 1 ∧
    Arith.f32.pathIndex Arith.f32.linearHost (.group lateGroup) = -2147483648 ∧
    ¬ (0 ≤ Arith.f32.pathIndex Arith.f32.linearHost (.group lateGroup)) ∧
    (Arith.f32.any_update Arith.f32.linearHost (.group lateGroup) sampleSprite).map
      (fun r => r.ret) = some true := by
  decide!

/-- C6 (code): in the arithmetic of the program the progress index is not
monotone. A directional actor at `ratio = 100` with the well-formed tween of
cycle `0.1f` made of one linear phase has the index 49 at `elapsed = 0.49f`, 60 at
`elapsed = 0.5` and 51 at `elapsed = 0.51f`: at 0.5 the exact `fmod` still lies
in the fifth cycle (local time just below `0.1f`) while the rounded quotient under
`int( )` is already 5, so one whole cycle is counted twice. In exact arithmetic the
index at 0.5 is 50. -/
theorem get_index_not_mono :
    0 < (jitterFish (1 / 2)).ratio ∧
    (jitterFish (1 / 2)).tween.wellFormed ∧
    f32 (49 / 100) ≤ 1 / 2 ∧ (1 / 2 : ℚ) ≤ f32 (51 / 100) ∧
    Arith.f32.fish_get_index Arith.f32.linearHost (jitterFish (f32 (49 / 100))) = 49 ∧
    Arith.f32.fish_get_index Arith.f32.linearHost (jitterFish (1 / 2)) = 60 ∧
    Arith.f32.fish_get_index Arith.f32.linearHost (jitterFish (f32 (51 / 100))) = 51 ∧
    FishStat.get_index linearHost (jitterFish (1 / 2)) = 50 := by
  unfold Tween.wellFormed
  decide!

end OSpritePath
